import Mathlib

/-!
# Keyword spotting engine (`online0/online-keyword-spotting.cc`)

A shallow embedding of `OnlineKeywordSpotting`: the growable tables (`Resize`),
the scoring pass (`isWakeUp`), the feeder (`FeedData`) and `Reset`.

Modelling conventions.

* `BaseFloat`/`float` values are elements of an arbitrary linearly ordered
  field `α` with a floor function (exact arithmetic; `ℚ` for evaluation, `ℝ`
  for the real-number reading).  Rounding, infinities and NaN are not modelled.
* C `int` values are `Int`; no overflow is modelled (frame counts are far
  below `2^31`).
* A Kaldi `Matrix<BaseFloat>` is its row count, its column count and its
  contents as a total function of (row, column).  Element access `mat(r, c)`
  is `mat.data r c`; the range checks of the matrix library are not modelled.
* Storage allocated with `kUndefined` has arbitrary contents: every operation
  that allocates takes the contents of the fresh storage as an argument.
* The feature pipeline and the classifier are outside this file: what they
  return during a `FeedData` call is an argument of the call (`FeedEnv`).
-/

namespace kaldi

/-- The chunk marker `FeatState`.  Its declaration is in a header outside the
source file; `FEAT_START` and `FEAT_END` occur in the code, and only the test
`state_ == FEAT_END` distinguishes the values. -/
inductive FeatState where
  | FEAT_START
  | FEAT_APPEND
  | FEAT_END
  deriving DecidableEq, Repr

/-- A Kaldi `Matrix<BaseFloat>`: `NumRows()`, `NumCols()`, and the contents. -/
structure Matrix (α : Type) where
  NumRows : Int
  NumCols : Int
  data : Int → Int → α

/-- A Kaldi `Vector<BaseFloat>`: `Dim()` and the contents. -/
structure Vector (α : Type) where
  Dim : Int
  data : Int → α

/-- The immutable part of the engine: the fields of `kws_config_` read by the
scoring pass, the parsed `keywords_`, and what the absent header and libraries
supply (`MATRIX_INC_STEP`, `pow`, the classifier's `OutputDim()`). -/
structure Kws (α : Type) where
  smooth_window : Int
  sliding_window : Int
  word_interval : Int
  wakeup_threshold : α
  keywords_ : List (List Int)
  MATRIX_INC_STEP : Int
  pow : α → α → α
  OutputDim : Int

/-- The mutable members of `OnlineKeywordSpotting`. -/
structure State (α : Type) where
  state_ : FeatState
  score_ : α
  iswakeup_ : Int
  len_ : Int
  sample_offset_ : Int
  frame_ready_ : Int
  frame_offset_ : Int
  post_offset_ : Int
  wakeup_frame_ : Int
  wav_buffer_ : Vector α
  nnet_out_ : Matrix α
  posterior_ : Matrix α
  post_smooth_ : Matrix α
  confidence_ : Matrix α

variable {α : Type} [LinearOrderedField α] [FloorRing α]

/-- The values taken by `x` in `for (int x = lo; x < hi; x++)`. -/
def loopRange (lo hi : Int) : List Int :=
  (List.range (hi - lo).toNat).map (fun (n : Nat) => lo + (n : Int))

/-- Conversion of a float to `int`: truncation toward zero. -/
def truncToInt (x : α) : Int :=
  if 0 ≤ x then ⌊x⌋ else ⌈x⌉

/-- The assignment `mat(r, c) = v`. -/
def Matrix.set (mat : Matrix α) (r c : Int) (v : α) : Matrix α :=
  { mat with data := fun r' c' => if r' = r ∧ c' = c then v else mat.data r' c' }

/-- The call `dst.RowRange(dstOff, n).CopyFromMat(src.RowRange(srcOff, n))`:
rows `dstOff .. dstOff+n-1` of `dst` receive rows `srcOff ..` of `src`, over the
columns of `dst`. -/
def Matrix.CopyRowRange (dst : Matrix α) (dstOff n : Int) (src : Matrix α) (srcOff : Int) :
    Matrix α :=
  { dst with data := fun r c =>
      if dstOff ≤ r ∧ r < dstOff + n ∧ 0 ≤ c ∧ c < dst.NumCols
      then src.data (r - dstOff + srcOff) c else dst.data r c }

/-- `OnlineKeywordSpotting::Resize` (lines 98-106).  `undef` is the content of
the storage allocated with `kUndefined`. -/
def Resize (kws : Kws α) (undef : Int → Int → α) (mat : Matrix α) (valid_rows new_rows : Int) :
    Matrix α :=
  if mat.NumRows < valid_rows + new_rows then
    let step := if new_rows > kws.MATRIX_INC_STEP then new_rows else kws.MATRIX_INC_STEP
    let tmp : Matrix α := ⟨mat.NumRows + step, mat.NumCols, undef⟩
    let tmp := if valid_rows > 0 then tmp.CopyRowRange 0 valid_rows mat 0 else tmp
    tmp
  else mat

/-- The local `cols = keywords_.size()+1`. -/
def Kws.cols (kws : Kws α) : Int := (kws.keywords_.length : Int) + 1

/-- The class ids `keywords_[n]`. -/
def Kws.keyword (kws : Kws α) (n : Int) : List Int :=
  kws.keywords_.getD n.toNat []

/-- Lines 129-133: the accumulation of `sum` over frames `hs..j` and over the
class ids of one keyword. -/
def smoothSum (posterior : Matrix α) (kw : List Int) (hs j : Int) : α :=
  (loopRange hs (j + 1)).foldl
    (fun sum k => kw.foldl (fun sum m => sum + posterior.data k m) sum) 0

/-- Line 128: `hs = j-w_smooth+1 > 0 ? j-w_smooth+1 : 0`. -/
def smoothStart (kws : Kws α) (j : Int) : Int :=
  if j - kws.smooth_window + 1 > 0 then j - kws.smooth_window + 1 else 0

/-- Lines 128-134: the value stored in `post_smooth_(j, i)`. -/
def smoothEntry (kws : Kws α) (posterior : Matrix α) (j i : Int) : α :=
  let hs := smoothStart kws j
  smoothSum posterior (kws.keyword (i - 1)) hs j / ((j - hs + 1 : Int) : α)

/-- Lines 127-135: the loop over the keywords `i = 1 .. cols-1` for frame `j`. -/
def smoothFrame (kws : Kws α) (posterior : Matrix α) (post_smooth : Matrix α) (j : Int) :
    Matrix α :=
  (loopRange 1 kws.cols).foldl
    (fun ps i => ps.set j i (smoothEntry kws posterior j i)) post_smooth

/-- Line 143: `hm = j-w_max+1 > 0 ? j-w_max+1 : 0`. -/
def maxStart (kws : Kws α) (j : Int) : Int :=
  if j - kws.sliding_window + 1 > 0 then j - kws.sliding_window + 1 else 0

/-- Lines 144-151: the scan for `(max, maxid)` over frames `hm..j` of column `i`. -/
def slidingMax (post_smooth : Matrix α) (i hm j : Int) : α × α :=
  (loopRange hm (j + 1)).foldl
    (fun (p : α × α) k =>
      if p.1 < post_smooth.data k i then (post_smooth.data k i, (k : α)) else p)
    (0, (hm : α))

/-- Lines 143-154: one iteration of the keyword loop of the confidence pass,
acting on `confidence_` and the running product `mul`. -/
def confKeyword (kws : Kws α) (post_smooth : Matrix α) (j : Int)
    (acc : Matrix α × α) (i : Int) : Matrix α × α :=
  let hm := maxStart kws j
  let r := slidingMax post_smooth i hm j
  (((acc.1.set j (2 * i) r.1).set j (2 * i + 1) r.2), acc.2 * r.1)

/-- Lines 160-168: the loop computing `flag`, with its `break`. -/
def orderFlag (confidence : Matrix α) (word_interval j : Int) : List Int → Bool
  | [] => true
  | i :: rest =>
    let interval : Int :=
      truncToInt (confidence.data j (2 * i + 1) - confidence.data j (2 * (i - 1) + 1))
    if interval ≥ word_interval ∨ interval ≤ 0 then false
    else orderFlag confidence word_interval j rest

/-- Lines 141-157: the confidence row of frame `j`. -/
def confFrame (kws : Kws α) (post_smooth confidence : Matrix α) (j : Int) : Matrix α :=
  let r := (loopRange 1 kws.cols).foldl (confKeyword kws post_smooth j) (confidence, 1)
  let conf := r.1.set j 0 (kws.pow r.2 (1 / ((kws.cols - 1 : Int) : α)))
  conf.set j 1 (j : α)

/-- Lines 141-177: the body of the second loop of `isWakeUp` for frame `j`. -/
def scoreFrame (kws : Kws α) (s : State α) (j : Int) : State α :=
  let conf := confFrame kws s.post_smooth_ s.confidence_ j
  let flag := orderFlag conf kws.word_interval j (loopRange 2 kws.cols)
  let s1 : State α :=
    if s.score_ < conf.data j 0 then
      { s with confidence_ := conf, score_ := conf.data j 0, wakeup_frame_ := j }
    else { s with confidence_ := conf }
  if conf.data j 0 ≥ kws.wakeup_threshold ∧ flag = true then { s1 with iswakeup_ := 1 } else s1

/-- `OnlineKeywordSpotting::isWakeUp` (lines 108-198): the new state and the
returned value.  `undef1`, `undef2` are the contents of storage allocated by the
two `Resize` calls.  The end-of-stream record (lines 183-195) only reads the
tables and writes a log line; it changes no member. -/
def isWakeUp (kws : Kws α) (undef1 undef2 : Int → Int → α) (s : State α) : State α × Int :=
  let new_rows := s.frame_offset_ - s.post_offset_
  if new_rows ≤ 0 then (s, s.iswakeup_)
  else
    let post_smooth := Resize kws undef1 s.post_smooth_ s.post_offset_ new_rows
    let confidence := Resize kws undef2 s.confidence_ s.post_offset_ new_rows
    let frames := loopRange s.post_offset_ (s.post_offset_ + new_rows)
    let post_smooth := frames.foldl (smoothFrame kws s.posterior_) post_smooth
    let s1 : State α := { s with post_smooth_ := post_smooth, confidence_ := confidence }
    let s2 := frames.foldl (scoreFrame kws) s1
    let s3 : State α := { s2 with post_offset_ := s2.post_offset_ + new_rows }
    (s3, s3.iswakeup_)

/-- What the collaborators and the allocator supply during one `FeedData` call:
the value of `feature_pipeline_->NumFramesReady()`, the matrix written by
`forward_->Forward`, the contents of the storage allocated with `kUndefined`
for `wav_buffer_` and for `posterior_`, and the indeterminate value of the
uninitialised local `num_frames`. -/
structure FeedEnv (α : Type) where
  NumFramesReady : Int
  nnet_out : Matrix α
  undefWav : Int → α
  undefPost : Int → Int → α
  num_frames : Int

/-- Lines 88-93 of `FeedData`: the rows of `nnet_out_` are stored behind the
`frame_offset_` rows already in `posterior_`. -/
def storePosterior (kws : Kws α) (undef : Int → Int → α) (s : State α) : State α × Int :=
  let new_rows := s.nnet_out_.NumRows
  let posterior := Resize kws undef s.posterior_ s.frame_offset_ new_rows
  let posterior := posterior.CopyRowRange s.frame_offset_ new_rows s.nnet_out_ 0
  let num_frames := s.frame_ready_ - s.frame_offset_
  ({ s with posterior_ := posterior, frame_offset_ := s.frame_ready_ }, num_frames)

/-- `OnlineKeywordSpotting::FeedData` (lines 59-96): the new state and the
returned value.  `data` holds the samples of the chunk, `nbytes/sizeof(float)`
of them (`sizeof(float)` is 4). -/
def FeedData (kws : Kws α) (env : FeedEnv α) (data : Int → α) (nbytes : Int) (state : FeatState)
    (s : State α) : State α × Int :=
  let s1 : State α :=
    if nbytes > 0 then
      let size := nbytes / 4
      let wav : Vector α := ⟨size, env.undefWav⟩
      let wav : Vector α :=
        { wav with data := fun i =>
            if s.len_ ≤ i ∧ i < s.len_ + size then data (i - s.len_) else wav.data i }
      { s with wav_buffer_ := wav, len_ := s.len_ + size }
    else s
  let s2 : State α := { s1 with state_ := state }
  if nbytes ≥ 0 then
    let s3 : State α := { s2 with frame_ready_ := env.NumFramesReady }
    if s3.frame_ready_ = s3.frame_offset_ then (s3, 0)
    else storePosterior kws env.undefPost { s3 with nnet_out_ := env.nnet_out }
  else (s2, env.num_frames)

/-- The call `mat.Resize(rows, cols)` of the matrix library with its default
`kSetZero`. -/
def Matrix.zero (rows cols : Int) : Matrix α := ⟨rows, cols, fun _ _ => 0⟩

/-- `OnlineKeywordSpotting::Reset` (lines 200-214). -/
def Reset (kws : Kws α) (s : State α) : State α :=
  { s with
    posterior_ := Matrix.zero kws.MATRIX_INC_STEP kws.OutputDim
    post_smooth_ := Matrix.zero kws.MATRIX_INC_STEP kws.cols
    confidence_ := Matrix.zero kws.MATRIX_INC_STEP (2 * kws.cols)
    iswakeup_ := 0
    len_ := 0
    sample_offset_ := 0
    frame_ready_ := 0
    frame_offset_ := 0
    post_offset_ := 0
    wakeup_frame_ := 0
    score_ := 0
    state_ := FeatState.FEAT_START }

/-- A call made by the driver of a session. -/
inductive Call (α : Type) where
  | FeedData (env : FeedEnv α) (data : Int → α) (nbytes : Int) (state : FeatState)
  | isWakeUp (undef1 undef2 : Int → Int → α)

/-- The values returned by the `isWakeUp` calls of a sequence of calls, in order. -/
def wakeResults (kws : Kws α) : State α → List (Call α) → List Int
  | _, [] => []
  | s, Call.FeedData env data nbytes state :: cs =>
    wakeResults kws (FeedData kws env data nbytes state s).1 cs
  | s, Call.isWakeUp undef1 undef2 :: cs =>
    (isWakeUp kws undef1 undef2 s).2 :: wakeResults kws (isWakeUp kws undef1 undef2 s).1 cs

/-- A batch of a posterior stream: the number of frames the pipeline delivers
and the contents of the storage the three `Resize` calls may allocate. -/
structure Chunk (α : Type) where
  frames : Nat
  undefPost : Int → Int → α
  undefSmooth : Int → Int → α
  undefConf : Int → Int → α

/-- A `FeedData` call without new samples in which the pipeline reports
`ch.frames` further frames and the classifier returns rows
`frame_offset_ ..` of the posterior stream `P`, followed by one `isWakeUp`. -/
def scoreChunk (kws : Kws α) (P : Int → Int → α) (s : State α) (ch : Chunk α) : State α :=
  let env : FeedEnv α :=
    { NumFramesReady := s.frame_offset_ + (ch.frames : Int)
      nnet_out := ⟨(ch.frames : Int), kws.OutputDim, fun r c => P (s.frame_offset_ + r) c⟩
      undefWav := fun _ => 0
      undefPost := ch.undefPost
      num_frames := 0 }
  let s1 := (FeedData kws env (fun _ => 0) 0 FeatState.FEAT_APPEND s).1
  (isWakeUp kws ch.undefSmooth ch.undefConf s1).1

/-- A session fed in batches. -/
def runChunks (kws : Kws α) (P : Int → Int → α) (s : State α) (chs : List (Chunk α)) : State α :=
  chs.foldl (scoreChunk kws P) s

/-! ### Closed forms of what the scoring pass stores

The definitions below name the values the loops of `isWakeUp` compute, as
functions of the smoothed table; the theorems relate the tables to them. -/

/-- The value `max` stored in `confidence_(j, 2*i)`. -/
def winMax (kws : Kws α) (post_smooth : Matrix α) (j i : Int) : α :=
  (slidingMax post_smooth i (maxStart kws j) j).1

/-- The value `maxid` stored in `confidence_(j, 2*i+1)`. -/
def winArg (kws : Kws α) (post_smooth : Matrix α) (j i : Int) : α :=
  (slidingMax post_smooth i (maxStart kws j) j).2

/-- The value of `mul` when the keyword loop of frame `j` ends. -/
def mulAll (kws : Kws α) (post_smooth : Matrix α) (j : Int) : α :=
  1 * ((loopRange 1 kws.cols).map (fun i => winMax kws post_smooth j i)).prod

/-- The value stored in `confidence_(j, c)` for a column `0 ≤ c < 2*cols`. -/
def confEntry (kws : Kws α) (post_smooth : Matrix α) (j c : Int) : α :=
  if c = 1 then (j : α)
  else if c = 0 then kws.pow (mulAll kws post_smooth j) (1 / ((kws.cols - 1 : Int) : α))
  else if c % 2 = 0 then winMax kws post_smooth j (c / 2)
  else winArg kws post_smooth j (c / 2)

/-- The table whose every row is the one the scoring pass would store. -/
def confTable (kws : Kws α) (post_smooth : Matrix α) : Matrix α :=
  ⟨0, 0, fun j c => confEntry kws post_smooth j c⟩

/-- The condition of line 175 for frame `j`. -/
def frameWakes (kws : Kws α) (post_smooth : Matrix α) (j : Int) : Bool :=
  decide (confEntry kws post_smooth j 0 ≥ kws.wakeup_threshold) &&
    orderFlag (confTable kws post_smooth) kws.word_interval j (loopRange 2 kws.cols)

/-- Lines 170-173 acting on `(score_, wakeup_frame_)`. -/
def bestStep (kws : Kws α) (post_smooth : Matrix α) (p : α × Int) (j : Int) : α × Int :=
  if p.1 < confEntry kws post_smooth j 0 then (confEntry kws post_smooth j 0, j) else p

/-- Lines 175-177 acting on `iswakeup_`. -/
def wakeStep (kws : Kws α) (post_smooth : Matrix α) (w : Int) (j : Int) : Int :=
  if frameWakes kws post_smooth j = true then 1 else w

/-! ### Sessions over a posterior stream -/

/-- The smoothed values of a posterior stream `P`: entry `(j, i)` is what lines
128-134 compute for frame `j` and keyword `i` when the posterior table holds
the rows of `P`. -/
def streamSmooth (kws : Kws α) (P : Int → Int → α) : Matrix α :=
  ⟨0, 0, fun j i => smoothEntry kws ⟨0, 0, P⟩ j i⟩

/-- The state of a session that has stored and scored the first `n` rows of the
posterior stream `P`: cursors at `n`, tables of the widths set by `Reset`, the
first `n` rows of the three tables as the loops of `isWakeUp` compute them from
`P`, and the decision members as the frame loop leaves them. -/
structure Scored (kws : Kws α) (P : Int → Int → α) (n : Int) (s : State α) : Prop where
  frame_offset : s.frame_offset_ = n
  post_offset : s.post_offset_ = n
  posterior_cols : s.posterior_.NumCols = kws.OutputDim
  smooth_cols : s.post_smooth_.NumCols = kws.cols
  confidence_cols : s.confidence_.NumCols = 2 * kws.cols
  posterior_rows : ∀ r c, 0 ≤ r → r < n → 0 ≤ c → c < kws.OutputDim →
    s.posterior_.data r c = P r c
  smooth_rows : ∀ r c, 0 ≤ r → r < n → 1 ≤ c → c < kws.cols →
    s.post_smooth_.data r c = (streamSmooth kws P).data r c
  confidence_rows : ∀ r c, 0 ≤ r → r < n → 0 ≤ c → c < 2 * kws.cols →
    s.confidence_.data r c = confEntry kws (streamSmooth kws P) r c
  best : (s.score_, s.wakeup_frame_) =
    (loopRange 0 n).foldl (bestStep kws (streamSmooth kws P)) (0, 0)
  woken : s.iswakeup_ = (loopRange 0 n).foldl (wakeStep kws (streamSmooth kws P)) 0

/-! ### Concrete inputs -/

/-- An engine with two keywords, class 0 and classes 1 and 2, over three
classifier outputs; `pow` is supplied by the caller. -/
def exKws (α : Type) [LinearOrderedField α] (pow : α → α → α) : Kws α :=
  { smooth_window := 2
    sliding_window := 3
    word_interval := 5
    wakeup_threshold := 1 / 2
    keywords_ := [[0], [1, 2]]
    MATRIX_INC_STEP := 4
    pow := pow
    OutputDim := 3 }

/-- A posterior stream: keyword 1 fires on frame 0, keyword 2 on frame 1. -/
def exStream (α : Type) [LinearOrderedField α] : Int → Int → α :=
  fun f c => if f = 0 ∧ c = 0 then 1 else if f = 1 ∧ c = 1 then 1 else 0

/-- Contents of freshly allocated storage. -/
def exUndef (α : Type) [LinearOrderedField α] : Int → Int → α := fun _ _ => 7

/-- A state right after `Reset` and a `FeedData` call that stored three rows of
`exStream`: three frames wait to be scored. -/
def exState (α : Type) [LinearOrderedField α] : State α :=
  { state_ := FeatState.FEAT_APPEND
    score_ := 0
    iswakeup_ := 0
    len_ := 0
    sample_offset_ := 0
    frame_ready_ := 3
    frame_offset_ := 3
    post_offset_ := 0
    wakeup_frame_ := 0
    wav_buffer_ := ⟨0, fun _ => 0⟩
    nnet_out_ := ⟨3, 3, exStream α⟩
    posterior_ := ⟨4, 3, exStream α⟩
    post_smooth_ := Matrix.zero 4 3
    confidence_ := Matrix.zero 4 6 }

/-- The same three frames delivered as a batch of one and a batch of two. -/
def exChunks (α : Type) [LinearOrderedField α] : List (Chunk α) :=
  [⟨1, exUndef α, exUndef α, exUndef α⟩, ⟨2, exUndef α, exUndef α, exUndef α⟩]

/-- The three frames delivered as one batch. -/
def exOne (α : Type) [LinearOrderedField α] : Chunk α :=
  ⟨3, exUndef α, exUndef α, exUndef α⟩

/-! ### Appending one frame at a time -/

/-- The test of line 99: the call `Resize(mat, valid_rows, new_rows)` allocates
new storage. -/
def reallocates (mat : Matrix α) (valid_rows new_rows : Int) : Bool :=
  decide (mat.NumRows < valid_rows + new_rows)

/-- The buffer after the calls `Resize(buffer, i, 1)` for `i = 0 .. N-1`,
starting from a table as `Reset` leaves it (`MATRIX_INC_STEP` rows, zeroed),
paired with the number of those calls that allocated new storage. -/
def appendOneByOne (kws : Kws α) (undef : Int → Int → α) (cols : Int) : Nat → Matrix α × Nat
  | 0 => (Matrix.zero kws.MATRIX_INC_STEP cols, 0)
  | i + 1 =>
    let r := appendOneByOne kws undef cols i
    (Resize kws undef r.1 (i : Int) 1, if reallocates r.1 (i : Int) 1 = true then r.2 + 1 else r.2)

/-! ### The single-keyword scenario -/

/-- An engine with one keyword made of class 0 and both windows of length 1;
`pow x y` is `x`, which is the value of the real power at the only exponent the
engine uses here, `1/1`. -/
def oneKws : Kws ℚ :=
  { smooth_window := 1
    sliding_window := 1
    word_interval := 5
    wakeup_threshold := 1 / 2
    keywords_ := [[0]]
    MATRIX_INC_STEP := 4
    pow := fun x _ => x
    OutputDim := 1 }

/-- The posteriors 0.1, 0.9, 0.2 of class 0 on frames 0, 1, 2. -/
def oneStream : Int → Int → ℚ :=
  fun f _ => if f = 0 then 1 / 10 else if f = 1 then 9 / 10 else if f = 2 then 2 / 10 else 0

/-- A batch of one frame. -/
def oneFrame : Chunk ℚ := ⟨1, exUndef ℚ, exUndef ℚ, exUndef ℚ⟩

/-! ### Peaks inside a max-window -/

/-- Within the max-window `hm .. j` of frame `j`, column `i` of the smoothed
table has its positive maximum first at frame `a`: the value at `a` is positive,
larger than every earlier value of the window and at least every later one. -/
def FirstPeak (kws : Kws α) (ps : Matrix α) (j i a : Int) : Prop :=
  maxStart kws j ≤ a ∧ a ≤ j ∧ 0 < ps.data a i ∧
  (∀ f ∈ loopRange (maxStart kws j) a, ps.data f i < ps.data a i) ∧
  (∀ f ∈ loopRange (a + 1) (j + 1), ps.data f i ≤ ps.data a i)

/-- An engine with two single-class keywords, no smoothing (window 1), a
max-window of 20 frames and `word_interval = 5`.  Its `pow` is the square root
on the three products the run below passes to it (0, 1/4 and 1). -/
def peakKws : Kws ℚ :=
  { smooth_window := 1
    sliding_window := 20
    word_interval := 5
    wakeup_threshold := 1 / 2
    keywords_ := [[0], [1]]
    MATRIX_INC_STEP := 4
    pow := fun x _ => if x = 1 / 4 then 1 / 2 else x
    OutputDim := 2 }

/-- Eleven frames: keyword 1 (class 0) has 1/4 on frame 2 and its maximum 1 on
frame 10; keyword 2 (class 1) has its maximum 1 on frame 3; all else is 0. -/
def peakStream : Int → Int → ℚ :=
  fun f c =>
    if c = 0 then (if f = 2 then 1 / 4 else if f = 10 then 1 else 0)
    else if c = 1 then (if f = 3 then 1 else 0)
    else 0

/-- The state after `Reset` and a `FeedData` call that stored the eleven rows of
`peakStream`. -/
def peakState : State ℚ :=
  { state_ := FeatState.FEAT_APPEND
    score_ := 0
    iswakeup_ := 0
    len_ := 0
    sample_offset_ := 0
    frame_ready_ := 11
    frame_offset_ := 11
    post_offset_ := 0
    wakeup_frame_ := 0
    wav_buffer_ := ⟨0, fun _ => 0⟩
    nnet_out_ := ⟨11, 2, peakStream⟩
    posterior_ := ⟨15, 2, peakStream⟩
    post_smooth_ := Matrix.zero 4 3
    confidence_ := Matrix.zero 4 6 }

/-! ### Cursors along a session -/

/-- The cursor invariant `post_offset_ ≤ frame_offset_ ≤ frame_ready_`. -/
def CursorInv (s : State α) : Prop :=
  s.post_offset_ ≤ s.frame_offset_ ∧ s.frame_offset_ ≤ s.frame_ready_

/-- The state after a sequence of calls. -/
def runCalls (kws : Kws α) : State α → List (Call α) → State α
  | s, [] => s
  | s, Call.FeedData env data nbytes state :: cs =>
    runCalls kws (FeedData kws env data nbytes state s).1 cs
  | s, Call.isWakeUp undef1 undef2 :: cs =>
    runCalls kws (isWakeUp kws undef1 undef2 s).1 cs

/-- The pipeline's `NumFramesReady()` never decreases along a sequence of calls:
every `FeedData` call that asks the pipeline (`nbytes ≥ 0`) is told a count at
least the count `frame_ready_` recorded from the previous answer. -/
def readyMonotone (kws : Kws α) : State α → List (Call α) → Prop
  | _, [] => True
  | s, Call.FeedData env data nbytes state :: cs =>
    (0 ≤ nbytes → s.frame_ready_ ≤ env.NumFramesReady) ∧
      readyMonotone kws (FeedData kws env data nbytes state s).1 cs
  | s, Call.isWakeUp undef1 undef2 :: cs =>
    readyMonotone kws (isWakeUp kws undef1 undef2 s).1 cs

/-- A state without the two members `Reset` does not assign (`wav_buffer_` and
`nnet_out_`). -/
def forgetBuffers (s : State α) : State α :=
  { s with wav_buffer_ := ⟨0, fun _ => 0⟩, nnet_out_ := Matrix.zero 0 0 }

/-! ### Two chunks of two samples -/

/-- What the collaborators supply in the two-chunk example: no frame is ready
yet, and fresh storage holds the value 7. -/
def quietEnv : FeedEnv ℚ :=
  { NumFramesReady := 0
    nnet_out := Matrix.zero 0 0
    undefWav := fun _ => 7
    undefPost := exUndef ℚ
    num_frames := 0 }

/-- The samples 1, 2 of the first chunk. -/
def chunkA : Int → ℚ := fun i => if i = 0 then 1 else 2

/-- The samples 3, 4 of the second chunk. -/
def chunkB : Int → ℚ := fun i => if i = 0 then 3 else 4

/-- The state after `Reset` and a first `FeedData` call with 8 bytes (two samples). -/
def afterChunkA : State ℚ :=
  (FeedData (exKws ℚ (fun x _ => x)) quietEnv chunkA 8 FeatState.FEAT_START
    (Reset (exKws ℚ (fun x _ => x)) (exState ℚ))).1

/-- The state after a second `FeedData` call with 8 bytes. -/
def afterChunkB : State ℚ :=
  (FeedData (exKws ℚ (fun x _ => x)) quietEnv chunkB 8 FeatState.FEAT_APPEND afterChunkA).1

/-! ### The element accesses of a scoring pass -/

/-- The three tables of the engine. -/
inductive Table where
  | posterior
  | post_smooth
  | confidence
  deriving DecidableEq, Repr

/-- An element access `table(row, col)`, read or written. -/
structure Access where
  table : Table
  row : Int
  col : Int
  deriving DecidableEq, Repr

/-- Lines 127-135 for frame `j`: the reads `posterior_(k, keywords_[i-1][m])` and
the write `post_smooth_(j, i)`. -/
def smoothAccesses (kws : Kws α) (j : Int) : List Access :=
  (loopRange 1 kws.cols).flatMap (fun i =>
    (loopRange (smoothStart kws j) (j + 1)).flatMap (fun k =>
      (kws.keyword (i - 1)).map (fun m => (⟨Table.posterior, k, m⟩ : Access)))
    ++ [⟨Table.post_smooth, j, i⟩])

/-- Lines 141-157 for frame `j`: the reads `post_smooth_(k, i)` and the writes of
`confidence_(j, 2*i)`, `confidence_(j, 2*i+1)`, `confidence_(j, 0)`,
`confidence_(j, 1)`. -/
def confAccesses (kws : Kws α) (j : Int) : List Access :=
  (loopRange 1 kws.cols).flatMap (fun i =>
    (loopRange (maxStart kws j) (j + 1)).map (fun k => (⟨Table.post_smooth, k, i⟩ : Access))
    ++ [⟨Table.confidence, j, 2 * i⟩, ⟨Table.confidence, j, 2 * i + 1⟩])
  ++ [⟨Table.confidence, j, 0⟩, ⟨Table.confidence, j, 1⟩]

/-- Lines 160-177 for frame `j`: the reads of `confidence_` by the gap loop when
it runs to its end (with its `break` it makes a beginning of them), and the
reads of `confidence_(j, 0)`. -/
def decideAccesses (kws : Kws α) (j : Int) : List Access :=
  (loopRange 2 kws.cols).flatMap (fun i =>
    [(⟨Table.confidence, j, 2 * i + 1⟩ : Access), ⟨Table.confidence, j, 2 * (i - 1) + 1⟩])
  ++ [⟨Table.confidence, j, 0⟩]

/-- Lines 185-192: the reads of the end-of-stream record at row `wakeup_frame_`. -/
def recordAccesses (kws : Kws α) (wakeup_frame : Int) : List Access :=
  (loopRange 0 kws.cols).map (fun i => (⟨Table.confidence, wakeup_frame, 2 * i⟩ : Access))
  ++ [⟨Table.confidence, wakeup_frame, 3⟩]
  ++ (loopRange 2 kws.cols).flatMap (fun i =>
    [(⟨Table.confidence, wakeup_frame, 2 * i + 1⟩ : Access),
      ⟨Table.confidence, wakeup_frame, 2 * (i - 1) + 1⟩])

/-- The element accesses of one `isWakeUp` call, all made after the two `Resize`
calls: none when there is no new row; otherwise those of the smoothing loop,
of the confidence loop, and, when `state_ == FEAT_END`, of the record, at the
row `wakeup_frame_` holds when the loops end. -/
def isWakeUpAccesses (kws : Kws α) (undef1 undef2 : Int → Int → α) (s : State α) :
    List Access :=
  let new_rows := s.frame_offset_ - s.post_offset_
  if new_rows ≤ 0 then []
  else
    let frames := loopRange s.post_offset_ (s.post_offset_ + new_rows)
    frames.flatMap (smoothAccesses kws)
    ++ frames.flatMap (fun j => confAccesses kws j ++ decideAccesses kws j)
    ++ (if s.state_ = FeatState.FEAT_END then
          recordAccesses kws (isWakeUp kws undef1 undef2 s).1.wakeup_frame_
        else [])

/-- An access falls inside its table, as the tables are shaped in state `s`. -/
def Access.inBounds (s : State α) (a : Access) : Prop :=
  match a.table with
  | Table.posterior =>
    0 ≤ a.row ∧ a.row < s.posterior_.NumRows ∧ 0 ≤ a.col ∧ a.col < s.posterior_.NumCols
  | Table.post_smooth =>
    0 ≤ a.row ∧ a.row < s.post_smooth_.NumRows ∧ 0 ≤ a.col ∧ a.col < s.post_smooth_.NumCols
  | Table.confidence =>
    0 ≤ a.row ∧ a.row < s.confidence_.NumRows ∧ 0 ≤ a.col ∧ a.col < s.confidence_.NumCols

/-- The tables of `s` are sized as `Reset` and `Resize` leave them: the column
counts of `Reset`, at least `post_offset_` rows in the two scoring tables, at
least `frame_offset_` rows in the posterior table, and a best frame that is 0 or
an already scored frame. -/
structure TablesSized (kws : Kws α) (s : State α) : Prop where
  post_offset_nonneg : 0 ≤ s.post_offset_
  posterior_rows : s.frame_offset_ ≤ s.posterior_.NumRows
  posterior_cols : s.posterior_.NumCols = kws.OutputDim
  smooth_rows : s.post_offset_ ≤ s.post_smooth_.NumRows
  smooth_cols : s.post_smooth_.NumCols = kws.cols
  confidence_rows : s.post_offset_ ≤ s.confidence_.NumRows
  confidence_cols : s.confidence_.NumCols = 2 * kws.cols
  best_frame : 0 ≤ s.wakeup_frame_ ∧ (s.wakeup_frame_ < s.post_offset_ ∨ s.wakeup_frame_ = 0)

/-! ## Theorems -/

set_option linter.unusedSectionVars false

theorem mem_loopRange {lo hi x : Int} : x ∈ loopRange lo hi ↔ lo ≤ x ∧ x < hi := by
  unfold loopRange
  simp only [List.mem_map, List.mem_range]
  constructor
  · rintro ⟨n, hn, rfl⟩
    omega
  · rintro ⟨h1, h2⟩
    exact ⟨(x - lo).toNat, by omega, by omega⟩

theorem loopRange_eq_nil {lo hi : Int} (h : hi ≤ lo) : loopRange lo hi = [] := by
  unfold loopRange
  have : (hi - lo).toNat = 0 := by omega
  simp [this]

theorem loopRange_succ_right {lo hi : Int} (h : lo ≤ hi) :
    loopRange lo (hi + 1) = loopRange lo hi ++ [hi] := by
  unfold loopRange
  have e : (hi + 1 - lo).toNat = (hi - lo).toNat + 1 := by omega
  rw [e, List.range_succ, List.map_append]
  have e2 : lo + (((hi - lo).toNat : Nat) : Int) = hi := by omega
  simp only [List.map_cons, List.map_nil, e2]

theorem loopRange_cons {lo hi : Int} (h : lo < hi) :
    loopRange lo hi = lo :: loopRange (lo + 1) hi := by
  unfold loopRange
  have e : (hi - lo).toNat = (hi - (lo + 1)).toNat + 1 := by omega
  rw [e, List.range_succ_eq_map, List.map_cons, List.map_map]
  simp only [Nat.cast_zero, add_zero, List.cons.injEq, true_and]
  apply List.map_congr_left
  intro n _
  simp only [Function.comp, Nat.cast_succ]
  omega

theorem loopRange_append {lo mid hi : Int} (h1 : lo ≤ mid) (h2 : mid ≤ hi) :
    loopRange lo hi = loopRange lo mid ++ loopRange mid hi := by
  obtain ⟨n, rfl⟩ : ∃ n : Nat, hi = mid + n := ⟨(hi - mid).toNat, by omega⟩
  induction n with
  | zero => simp [loopRange_eq_nil (le_refl mid)]
  | succ n ih =>
    have e : mid + ((n + 1 : Nat) : Int) = (mid + (n : Int)) + 1 := by push_cast; ring
    rw [e, loopRange_succ_right (by omega), loopRange_succ_right (by omega), ih (by omega),
      List.append_assoc]

theorem Resize_NumCols (kws : Kws α) (undef : Int → Int → α) (mat : Matrix α) (v n : Int) :
    (Resize kws undef mat v n).NumCols = mat.NumCols := by
  unfold Resize
  split_ifs <;> rfl

theorem Resize_data_valid (kws : Kws α) (undef : Int → Int → α) (mat : Matrix α) (v n : Int)
    (r c : Int) (hr0 : 0 ≤ r) (hr : r < v) (hc0 : 0 ≤ c) (hc : c < mat.NumCols) :
    (Resize kws undef mat v n).data r c = mat.data r c := by
  simp only [Resize]
  split_ifs <;> first | omega | rfl | simp [Matrix.CopyRowRange, hr0, hr, hc0, hc]

/-- Claim C9 (capacity after `Resize`): for a buffer with `NumRows = c`, valid
rows `0 ≤ v ≤ c` and any `n`, after `Resize(mat, v, n)` the row count is at
least `v + n`; if `c < v + n` it is exactly `c + max n MATRIX_INC_STEP`; the
column count is unchanged. -/
theorem Resize_capacity (kws : Kws α) (undef : Int → Int → α) (mat : Matrix α) (v n : Int)
    (h0 : 0 ≤ v) (hv : v ≤ mat.NumRows) :
    v + n ≤ (Resize kws undef mat v n).NumRows ∧
    (mat.NumRows < v + n →
      (Resize kws undef mat v n).NumRows = mat.NumRows + max n kws.MATRIX_INC_STEP) ∧
    (Resize kws undef mat v n).NumCols = mat.NumCols := by
  refine ⟨?_, ?_, Resize_NumCols kws undef mat v n⟩
  · simp only [Resize]
    split_ifs <;> first | omega | (simp only [Matrix.CopyRowRange]; omega)
  · intro h
    simp only [Resize]
    rw [if_pos h]
    split_ifs <;> first | omega | (simp only [Matrix.CopyRowRange]; omega)

/-- Claim C10 (`Resize` keeps the valid rows and never shrinks): for `v ≤ NumRows`,
after `Resize(mat, v, n)` rows `0..v-1` hold the values they held before; when
`NumRows ≥ v + n` already the buffer is unchanged; the new row count is at least
the old one. -/
theorem Resize_keeps_valid_rows (kws : Kws α) (undef : Int → Int → α) (mat : Matrix α)
    (v n : Int) (hv : v ≤ mat.NumRows) :
    (∀ r c, 0 ≤ r → r < v → 0 ≤ c → c < mat.NumCols →
      (Resize kws undef mat v n).data r c = mat.data r c) ∧
    (v + n ≤ mat.NumRows → Resize kws undef mat v n = mat) ∧
    mat.NumRows ≤ (Resize kws undef mat v n).NumRows := by
  refine ⟨fun r c hr0 hr hc0 hc => Resize_data_valid kws undef mat v n r c hr0 hr hc0 hc, ?_, ?_⟩
  · intro h
    unfold Resize
    rw [if_neg (by omega)]
  · simp only [Resize]
    split_ifs <;> first | omega | (simp only [Matrix.CopyRowRange]; omega)

theorem foldl_rows_data (step : Matrix α → Int → Matrix α) (W : Int → Prop) [DecidablePred W]
    (val : Int → Int → α)
    (hstep : ∀ m j r c, (step m j).data r c = if r = j ∧ W c then val j c else m.data r c)
    (L : List Int) (m : Matrix α) (r c : Int) :
    (L.foldl step m).data r c = if r ∈ L ∧ W c then val r c else m.data r c := by
  induction L generalizing m with
  | nil => simp
  | cons j L ih =>
    rw [List.foldl_cons, ih, hstep]
    by_cases h1 : r ∈ L <;> by_cases h2 : W c <;> by_cases h3 : r = j <;>
      simp [h1, h2, h3]

theorem foldl_set_data (j : Int) (f : Int → α) (L : List Int) (m : Matrix α) (r c : Int) :
    (L.foldl (fun ps i => ps.set j i (f i)) m).data r c =
      if r = j ∧ c ∈ L then f c else m.data r c := by
  induction L generalizing m with
  | nil => simp
  | cons i L ih =>
    rw [List.foldl_cons, ih]
    by_cases h1 : r = j <;> by_cases h2 : c ∈ L <;> by_cases h3 : c = i <;>
      simp [h1, h2, h3, Matrix.set]

theorem smoothFrame_data (kws : Kws α) (P ps : Matrix α) (j r c : Int) :
    (smoothFrame kws P ps j).data r c =
      if r = j ∧ (1 ≤ c ∧ c < kws.cols) then smoothEntry kws P j c else ps.data r c := by
  unfold smoothFrame
  rw [foldl_set_data j (fun i => smoothEntry kws P j i)]
  simp only [mem_loopRange]

theorem smoothPass_data (kws : Kws α) (P ps : Matrix α) (L : List Int) (r c : Int) :
    (L.foldl (smoothFrame kws P) ps).data r c =
      if r ∈ L ∧ (1 ≤ c ∧ c < kws.cols) then smoothEntry kws P r c else ps.data r c :=
  foldl_rows_data (smoothFrame kws P) (fun c => 1 ≤ c ∧ c < kws.cols) (smoothEntry kws P)
    (fun m j r c => smoothFrame_data kws P m j r c) L ps r c

theorem foldl_confKeyword_data (kws : Kws α) (ps : Matrix α) (j : Int) (L : List Int)
    (acc : Matrix α × α) (r c : Int) :
    ((L.foldl (confKeyword kws ps j) acc).1).data r c =
      if r = j ∧ c / 2 ∈ L then
        (if c % 2 = 0 then winMax kws ps j (c / 2) else winArg kws ps j (c / 2))
      else acc.1.data r c := by
  induction L generalizing acc with
  | nil => simp
  | cons i L ih =>
    rw [List.foldl_cons, ih]
    by_cases h1 : r = j
    · by_cases h2 : c / 2 ∈ L
      · simp [h1, h2]
      · by_cases h3 : c / 2 = i
        · rw [if_neg (fun h => h2 h.2), if_pos ⟨h1, by simp [h3]⟩, h3]
          by_cases h4 : c % 2 = 0
          · have e : c = 2 * i := by omega
            have e2 : ¬ (2 * i = 2 * i + 1) := by omega
            subst e
            simp [h1, confKeyword, Matrix.set, winMax, e2]
          · have e : c = 2 * i + 1 := by omega
            have e2 : ¬ ((2 * i + 1) % 2 = 0) := by omega
            subst e
            simp [h1, confKeyword, Matrix.set, winArg, e2]
        · have e1 : ¬ c = 2 * i := by omega
          have e2 : ¬ c = 2 * i + 1 := by omega
          simp [h1, h2, h3, confKeyword, Matrix.set, e1, e2]
    · simp [h1, confKeyword, Matrix.set]

theorem foldl_confKeyword_mul (kws : Kws α) (ps : Matrix α) (j : Int) (L : List Int)
    (acc : Matrix α × α) :
    (L.foldl (confKeyword kws ps j) acc).2 =
      acc.2 * (L.map (fun i => winMax kws ps j i)).prod := by
  induction L generalizing acc with
  | nil => simp
  | cons i L ih =>
    rw [List.foldl_cons, ih]
    simp [confKeyword, winMax, mul_assoc]

theorem cols_pos (kws : Kws α) : 1 ≤ kws.cols := by
  unfold Kws.cols
  omega

theorem confFrame_data (kws : Kws α) (ps conf : Matrix α) (j r c : Int) :
    (confFrame kws ps conf j).data r c =
      if r = j ∧ (0 ≤ c ∧ c < 2 * kws.cols) then confEntry kws ps j c else conf.data r c := by
  have hcols := cols_pos kws
  simp only [confFrame, Matrix.set, foldl_confKeyword_data, foldl_confKeyword_mul,
    mem_loopRange, confEntry, mulAll]
  by_cases h1 : r = j
  · by_cases hc1 : c = 1
    · subst hc1
      have : (1:Int) < 2 * kws.cols := by omega
      simp [h1, this]
    · by_cases hc0 : c = 0
      · subst hc0
        have : (0:Int) < 2 * kws.cols := by omega
        simp [h1, this]
      · by_cases h2 : 0 ≤ c ∧ c < 2 * kws.cols
        · have h3 : 1 ≤ c / 2 ∧ c / 2 < kws.cols := by omega
          simp [h1, hc1, hc0, h2, h3]
        · have h3 : ¬ (1 ≤ c / 2 ∧ c / 2 < kws.cols) := by omega
          simp [h1, hc1, hc0, h2, h3]
  · simp [h1]

theorem confPass_data (kws : Kws α) (ps conf : Matrix α) (L : List Int) (r c : Int) :
    (L.foldl (confFrame kws ps) conf).data r c =
      if r ∈ L ∧ (0 ≤ c ∧ c < 2 * kws.cols) then confEntry kws ps r c else conf.data r c :=
  foldl_rows_data (confFrame kws ps) (fun c => 0 ≤ c ∧ c < 2 * kws.cols) (confEntry kws ps)
    (fun m j r c => confFrame_data kws ps m j r c) L conf r c

theorem orderFlag_congr (A B : Matrix α) (wi j : Int) (L : List Int)
    (h : ∀ i ∈ L, A.data j (2 * i + 1) = B.data j (2 * i + 1) ∧
      A.data j (2 * (i - 1) + 1) = B.data j (2 * (i - 1) + 1)) :
    orderFlag A wi j L = orderFlag B wi j L := by
  induction L with
  | nil => rfl
  | cons i L ih =>
    have hi := h i (List.mem_cons_self i L)
    have ih2 := ih (fun k hk => h k (List.mem_cons_of_mem i hk))
    simp only [orderFlag, hi.1, hi.2, ih2]

theorem confFrame_data_zero (kws : Kws α) (ps conf : Matrix α) (j : Int) :
    (confFrame kws ps conf j).data j 0 = confEntry kws ps j 0 := by
  have hcols := cols_pos kws
  rw [confFrame_data, if_pos ⟨rfl, le_refl 0, by omega⟩]

theorem orderFlag_confFrame (kws : Kws α) (ps conf : Matrix α) (j : Int) :
    orderFlag (confFrame kws ps conf j) kws.word_interval j (loopRange 2 kws.cols) =
      orderFlag (confTable kws ps) kws.word_interval j (loopRange 2 kws.cols) := by
  apply orderFlag_congr
  intro i hi
  rw [mem_loopRange] at hi
  rw [confFrame_data, confFrame_data, if_pos ⟨rfl, by omega, by omega⟩,
    if_pos ⟨rfl, by omega, by omega⟩]
  exact ⟨rfl, rfl⟩

theorem scoreFrame_eq (kws : Kws α) (s : State α) (j : Int) :
    scoreFrame kws s j =
      { s with
        confidence_ := confFrame kws s.post_smooth_ s.confidence_ j
        score_ := (bestStep kws s.post_smooth_ (s.score_, s.wakeup_frame_) j).1
        wakeup_frame_ := (bestStep kws s.post_smooth_ (s.score_, s.wakeup_frame_) j).2
        iswakeup_ := wakeStep kws s.post_smooth_ s.iswakeup_ j } := by
  simp only [scoreFrame, bestStep, wakeStep, frameWakes, confFrame_data_zero,
    orderFlag_confFrame]
  split_ifs <;> simp_all

theorem foldl_scoreFrame (kws : Kws α) (L : List Int) (s : State α) :
    L.foldl (scoreFrame kws) s =
      { s with
        confidence_ := L.foldl (confFrame kws s.post_smooth_) s.confidence_
        score_ := (L.foldl (bestStep kws s.post_smooth_) (s.score_, s.wakeup_frame_)).1
        wakeup_frame_ := (L.foldl (bestStep kws s.post_smooth_) (s.score_, s.wakeup_frame_)).2
        iswakeup_ := L.foldl (wakeStep kws s.post_smooth_) s.iswakeup_ } := by
  induction L generalizing s with
  | nil => rfl
  | cons j L ih =>
    rw [List.foldl_cons, ih, scoreFrame_eq]
    simp only [List.foldl_cons]

/-- The smoothed table after a scoring pass over frames `post_offset_ .. frame_offset_-1`. -/
theorem isWakeUp_eq (kws : Kws α) (undef1 undef2 : Int → Int → α) (s : State α)
    (h : s.post_offset_ < s.frame_offset_) (L : List Int) (ps : Matrix α)
    (hL : L = loopRange s.post_offset_ s.frame_offset_)
    (hps : ps = L.foldl (smoothFrame kws s.posterior_)
      (Resize kws undef1 s.post_smooth_ s.post_offset_ (s.frame_offset_ - s.post_offset_))) :
    isWakeUp kws undef1 undef2 s =
      ({ s with
          post_smooth_ := ps
          confidence_ := L.foldl (confFrame kws ps)
            (Resize kws undef2 s.confidence_ s.post_offset_ (s.frame_offset_ - s.post_offset_))
          score_ := (L.foldl (bestStep kws ps) (s.score_, s.wakeup_frame_)).1
          wakeup_frame_ := (L.foldl (bestStep kws ps) (s.score_, s.wakeup_frame_)).2
          iswakeup_ := L.foldl (wakeStep kws ps) s.iswakeup_
          post_offset_ := s.frame_offset_ },
        L.foldl (wakeStep kws ps) s.iswakeup_) := by
  have e : s.post_offset_ + (s.frame_offset_ - s.post_offset_) = s.frame_offset_ := by omega
  subst hL hps
  simp only [isWakeUp, foldl_scoreFrame, e]
  rw [if_neg (by omega)]

theorem isWakeUp_noop (kws : Kws α) (undef1 undef2 : Int → Int → α) (s : State α)
    (h : s.frame_offset_ - s.post_offset_ ≤ 0) :
    isWakeUp kws undef1 undef2 s = (s, s.iswakeup_) := by
  simp only [isWakeUp]
  rw [if_pos h]

theorem foldl_wakeStep_one (kws : Kws α) (ps : Matrix α) (L : List Int) (w : Int) :
    L.foldl (wakeStep kws ps) w = 1 ↔ w = 1 ∨ ∃ j ∈ L, frameWakes kws ps j = true := by
  induction L generalizing w with
  | nil => simp
  | cons j L ih =>
    rw [List.foldl_cons, ih]
    unfold wakeStep
    by_cases h : frameWakes kws ps j = true
    · simp [h]
    · simp [h]

theorem truncToInt_intCast (n : Int) : truncToInt ((n : α)) = n := by
  unfold truncToInt
  split_ifs <;> simp

theorem slidingMax_arg_int (ps : Matrix α) (i hm j : Int) :
    ∃ n : Int, (slidingMax ps i hm j).2 = (n : α) := by
  unfold slidingMax
  generalize loopRange hm (j + 1) = L
  have key : ∀ (L : List Int) (p : α × α), (∃ n : Int, p.2 = (n : α)) →
      ∃ n : Int, (L.foldl (fun (p : α × α) k =>
        if p.1 < ps.data k i then (ps.data k i, (k : α)) else p) p).2 = (n : α) := by
    intro L
    induction L with
    | nil => intro p hp; simpa using hp
    | cons k L ih =>
      intro p hp
      rw [List.foldl_cons]
      apply ih
      split_ifs
      · exact ⟨k, rfl⟩
      · exact hp
  exact key L _ ⟨hm, rfl⟩

theorem orderFlag_iff (A : Matrix α) (wi j : Int) (L : List Int) :
    orderFlag A wi j L = true ↔
      ∀ i ∈ L, 0 < truncToInt (A.data j (2 * i + 1) - A.data j (2 * (i - 1) + 1)) ∧
        truncToInt (A.data j (2 * i + 1) - A.data j (2 * (i - 1) + 1)) < wi := by
  induction L with
  | nil => simp [orderFlag]
  | cons i L ih =>
    simp only [orderFlag, List.mem_cons, forall_eq_or_imp]
    split_ifs with h
    · constructor
      · intro h2; cases h2
      · rintro ⟨⟨h1, h2⟩, -⟩
        omega
    · rw [ih]
      constructor
      · intro h2
        exact ⟨by omega, h2⟩
      · exact fun h2 => h2.2

theorem confEntry_arg (kws : Kws α) (ps : Matrix α) (j i : Int) (hi : 1 ≤ i) :
    confEntry kws ps j (2 * i + 1) = winArg kws ps j i := by
  unfold confEntry
  rw [if_neg (by omega), if_neg (by omega), if_neg (by omega)]
  congr 1
  omega

theorem confEntry_max (kws : Kws α) (ps : Matrix α) (j i : Int) (hi : 1 ≤ i) :
    confEntry kws ps j (2 * i) = winMax kws ps j i := by
  unfold confEntry
  rw [if_neg (by omega), if_neg (by omega), if_pos (by omega)]
  congr 1
  omega

/-- The gap test of lines 163-164 on the stored row, in terms of the stored values. -/
theorem frameWakes_iff (kws : Kws α) (ps : Matrix α) (j : Int) :
    frameWakes kws ps j = true ↔
      kws.wakeup_threshold ≤ confEntry kws ps j 0 ∧
      ∀ k : Int, 2 ≤ k → k < kws.cols →
        0 < confEntry kws ps j (2 * k + 1) - confEntry kws ps j (2 * (k - 1) + 1) ∧
        confEntry kws ps j (2 * k + 1) - confEntry kws ps j (2 * (k - 1) + 1) <
          (kws.word_interval : α) := by
  unfold frameWakes
  rw [Bool.and_eq_true, decide_eq_true_eq, orderFlag_iff]
  apply and_congr Iff.rfl
  apply forall_congr'
  intro k
  rw [mem_loopRange]
  constructor
  · intro h h2 hk
    have h3 := h ⟨h2, hk⟩
    simp only [confTable] at h3
    rw [confEntry_arg kws ps j k (by omega), confEntry_arg kws ps j (k - 1) (by omega)] at h3 ⊢
    obtain ⟨a, ha⟩ := slidingMax_arg_int ps k (maxStart kws j) j
    obtain ⟨b, hb⟩ := slidingMax_arg_int ps (k - 1) (maxStart kws j) j
    simp only [winArg, ha, hb] at h3 ⊢
    rw [← Int.cast_sub, truncToInt_intCast] at h3
    rw [← Int.cast_sub]
    exact ⟨by exact_mod_cast h3.1, by exact_mod_cast h3.2⟩
  · rintro h ⟨h2, hk⟩
    have h3 := h h2 hk
    simp only [confTable]
    rw [confEntry_arg kws ps j k (by omega), confEntry_arg kws ps j (k - 1) (by omega)] at h3 ⊢
    obtain ⟨a, ha⟩ := slidingMax_arg_int ps k (maxStart kws j) j
    obtain ⟨b, hb⟩ := slidingMax_arg_int ps (k - 1) (maxStart kws j) j
    simp only [winArg, ha, hb] at h3 ⊢
    rw [← Int.cast_sub, truncToInt_intCast]
    rw [← Int.cast_sub] at h3
    exact ⟨by exact_mod_cast h3.1, by exact_mod_cast h3.2⟩

/-- Claim C1: for every state and every scoring pass over the new frames
`post_offset_ ≤ j < frame_offset_`, `isWakeUp` returns 1 exactly when `iswakeup_`
was 1 before the pass or some newly scored frame `j` has
`confidence_(j,0) ≥ wakeup_threshold` and, for every `k = 2..K`, the gap
`confidence_(j,2k+1) - confidence_(j,2(k-1)+1)` of consecutive argmax frames lies
strictly between 0 and `word_interval`.  In particular, when the flag was not 1
and every new frame has a gap `≤ 0` or `≥ word_interval`, the pass does not
return 1; and the loop body of a frame with such a gap leaves `iswakeup_` as it
was, whatever the combined score. -/
theorem isWakeUp_flag_iff (kws : Kws α) (undef1 undef2 : Int → Int → α) (s : State α) :
    ((isWakeUp kws undef1 undef2 s).2 = 1 ↔
      s.iswakeup_ = 1 ∨ ∃ j : Int, s.post_offset_ ≤ j ∧ j < s.frame_offset_ ∧
        kws.wakeup_threshold ≤ (isWakeUp kws undef1 undef2 s).1.confidence_.data j 0 ∧
        ∀ k : Int, 2 ≤ k → k ≤ (kws.keywords_.length : Int) →
          0 < (isWakeUp kws undef1 undef2 s).1.confidence_.data j (2 * k + 1) -
              (isWakeUp kws undef1 undef2 s).1.confidence_.data j (2 * (k - 1) + 1) ∧
          (isWakeUp kws undef1 undef2 s).1.confidence_.data j (2 * k + 1) -
              (isWakeUp kws undef1 undef2 s).1.confidence_.data j (2 * (k - 1) + 1) <
            (kws.word_interval : α)) ∧
    (s.iswakeup_ ≠ 1 →
      (∀ j : Int, s.post_offset_ ≤ j → j < s.frame_offset_ →
        ∃ k : Int, 2 ≤ k ∧ k ≤ (kws.keywords_.length : Int) ∧
          ((isWakeUp kws undef1 undef2 s).1.confidence_.data j (2 * k + 1) -
              (isWakeUp kws undef1 undef2 s).1.confidence_.data j (2 * (k - 1) + 1) ≤ 0 ∨
           (kws.word_interval : α) ≤
            (isWakeUp kws undef1 undef2 s).1.confidence_.data j (2 * k + 1) -
              (isWakeUp kws undef1 undef2 s).1.confidence_.data j (2 * (k - 1) + 1))) →
      (isWakeUp kws undef1 undef2 s).2 ≠ 1) ∧
    (∀ (t : State α) (j : Int),
      (∃ k : Int, 2 ≤ k ∧ k ≤ (kws.keywords_.length : Int) ∧
        ((scoreFrame kws t j).confidence_.data j (2 * k + 1) -
            (scoreFrame kws t j).confidence_.data j (2 * (k - 1) + 1) ≤ 0 ∨
         (kws.word_interval : α) ≤
          (scoreFrame kws t j).confidence_.data j (2 * k + 1) -
            (scoreFrame kws t j).confidence_.data j (2 * (k - 1) + 1))) →
      (scoreFrame kws t j).iswakeup_ = t.iswakeup_) := by
  have main : (isWakeUp kws undef1 undef2 s).2 = 1 ↔
      s.iswakeup_ = 1 ∨ ∃ j : Int, s.post_offset_ ≤ j ∧ j < s.frame_offset_ ∧
        kws.wakeup_threshold ≤ (isWakeUp kws undef1 undef2 s).1.confidence_.data j 0 ∧
        ∀ k : Int, 2 ≤ k → k ≤ (kws.keywords_.length : Int) →
          0 < (isWakeUp kws undef1 undef2 s).1.confidence_.data j (2 * k + 1) -
              (isWakeUp kws undef1 undef2 s).1.confidence_.data j (2 * (k - 1) + 1) ∧
          (isWakeUp kws undef1 undef2 s).1.confidence_.data j (2 * k + 1) -
              (isWakeUp kws undef1 undef2 s).1.confidence_.data j (2 * (k - 1) + 1) <
            (kws.word_interval : α) := by
    by_cases h : s.post_offset_ < s.frame_offset_
    · rw [isWakeUp_eq kws undef1 undef2 s h _ _ rfl rfl]
      simp only [foldl_wakeStep_one]
      apply or_congr Iff.rfl
      apply exists_congr
      intro j
      rw [mem_loopRange, frameWakes_iff]
      have hc : kws.cols = (kws.keywords_.length : Int) + 1 := rfl
      constructor
      · rintro ⟨⟨h1, h2⟩, h3, h4⟩
        refine ⟨h1, h2, ?_, ?_⟩
        · rw [confPass_data, if_pos ⟨mem_loopRange.2 ⟨h1, h2⟩, by omega, by omega⟩]
          exact h3
        · intro k hk1 hk2
          rw [confPass_data, confPass_data,
            if_pos ⟨mem_loopRange.2 ⟨h1, h2⟩, by omega, by omega⟩,
            if_pos ⟨mem_loopRange.2 ⟨h1, h2⟩, by omega, by omega⟩]
          exact h4 k hk1 (by omega)
      · rintro ⟨h1, h2, h3, h4⟩
        refine ⟨⟨h1, h2⟩, ?_, ?_⟩
        · rw [confPass_data, if_pos ⟨mem_loopRange.2 ⟨h1, h2⟩, by omega, by omega⟩] at h3
          exact h3
        · intro k hk1 hk2
          have h5 := h4 k hk1 (by omega)
          rw [confPass_data, confPass_data,
            if_pos ⟨mem_loopRange.2 ⟨h1, h2⟩, by omega, by omega⟩,
            if_pos ⟨mem_loopRange.2 ⟨h1, h2⟩, by omega, by omega⟩] at h5
          exact h5
    · rw [isWakeUp_noop kws undef1 undef2 s (by omega)]
      constructor
      · exact fun h1 => Or.inl h1
      · rintro (h1 | ⟨j, h1, h2, -⟩)
        · exact h1
        · omega
  refine ⟨main, ?_, ?_⟩
  · intro hw hall hret
    rcases main.1 hret with h1 | ⟨j, h1, h2, -, h4⟩
    · exact hw h1
    · obtain ⟨k, hk1, hk2, hk3⟩ := hall j h1 h2
      have h5 := h4 k hk1 hk2
      rcases hk3 with h6 | h6
      · exact absurd h5.1 (not_lt.2 h6)
      · exact absurd h5.2 (not_lt.2 h6)
  · rintro t j ⟨k, hk1, hk2, hk3⟩
    have hc : kws.cols = (kws.keywords_.length : Int) + 1 := rfl
    rw [scoreFrame_eq] at hk3 ⊢
    simp only at hk3 ⊢
    rw [confFrame_data, confFrame_data, if_pos ⟨rfl, by omega, by omega⟩,
      if_pos ⟨rfl, by omega, by omega⟩] at hk3
    unfold wakeStep
    split_ifs with hf
    · have h5 := ((frameWakes_iff kws t.post_smooth_ j).1 hf).2 k hk1 (by omega)
      rcases hk3 with h6 | h6
      · exact absurd h5.1 (not_lt.2 h6)
      · exact absurd h5.2 (not_lt.2 h6)
    · rfl

theorem smoothStart_nonneg (kws : Kws α) (j : Int) : 0 ≤ smoothStart kws j := by
  unfold smoothStart
  split_ifs <;> omega

theorem maxStart_nonneg (kws : Kws α) (j : Int) : 0 ≤ maxStart kws j := by
  unfold maxStart
  split_ifs <;> omega

theorem smoothSum_congr (A B : Matrix α) (kw : List Int) (hs j : Int)
    (h : ∀ f, hs ≤ f → f ≤ j → ∀ c ∈ kw, A.data f c = B.data f c) :
    smoothSum A kw hs j = smoothSum B kw hs j := by
  unfold smoothSum
  apply List.foldl_ext
  intro a f hf
  rw [mem_loopRange] at hf
  apply List.foldl_ext
  intro b c hc
  rw [h f hf.1 (by omega) c hc]

theorem smoothEntry_congr (kws : Kws α) (A B : Matrix α) (j i : Int)
    (h : ∀ f, smoothStart kws j ≤ f → f ≤ j → ∀ c ∈ kws.keyword (i - 1),
      A.data f c = B.data f c) :
    smoothEntry kws A j i = smoothEntry kws B j i := by
  unfold smoothEntry
  simp only
  rw [smoothSum_congr A B _ _ _ h]

theorem slidingMax_congr (A B : Matrix α) (i hm j : Int)
    (h : ∀ f, hm ≤ f → f ≤ j → A.data f i = B.data f i) :
    slidingMax A i hm j = slidingMax B i hm j := by
  unfold slidingMax
  apply List.foldl_ext
  intro a f hf
  rw [mem_loopRange] at hf
  rw [h f hf.1 (by omega)]

theorem confEntry_congr (kws : Kws α) (A B : Matrix α) (j : Int)
    (h : ∀ f, maxStart kws j ≤ f → f ≤ j → ∀ i, 1 ≤ i → i < kws.cols →
      A.data f i = B.data f i)
    (c : Int) (hc0 : 0 ≤ c) (hc : c < 2 * kws.cols) :
    confEntry kws A j c = confEntry kws B j c := by
  have hw : ∀ i, 1 ≤ i → i < kws.cols →
      slidingMax A i (maxStart kws j) j = slidingMax B i (maxStart kws j) j :=
    fun i hi1 hi2 => slidingMax_congr A B i _ j (fun f hf1 hf2 => h f hf1 hf2 i hi1 hi2)
  have hmul : mulAll kws A j = mulAll kws B j := by
    unfold mulAll
    congr 2
    apply List.map_congr_left
    intro i hi
    rw [mem_loopRange] at hi
    simp only [winMax, hw i hi.1 hi.2]
  unfold confEntry
  split_ifs with h1 h2 h3
  · rfl
  · rw [hmul]
  · simp only [winMax, hw (c / 2) (by omega) (by omega)]
  · simp only [winArg, hw (c / 2) (by omega) (by omega)]

theorem frameWakes_congr (kws : Kws α) (A B : Matrix α) (j : Int)
    (h : ∀ f, maxStart kws j ≤ f → f ≤ j → ∀ i, 1 ≤ i → i < kws.cols →
      A.data f i = B.data f i) :
    frameWakes kws A j = frameWakes kws B j := by
  have hcols := cols_pos kws
  unfold frameWakes
  rw [confEntry_congr kws A B j h 0 (le_refl 0) (by omega)]
  congr 1
  apply orderFlag_congr
  intro i hi
  rw [mem_loopRange] at hi
  simp only [confTable]
  exact ⟨confEntry_congr kws A B j h _ (by omega) (by omega),
    confEntry_congr kws A B j h _ (by omega) (by omega)⟩

theorem bestStep_congr (kws : Kws α) (A B : Matrix α) (j : Int)
    (h : ∀ f, maxStart kws j ≤ f → f ≤ j → ∀ i, 1 ≤ i → i < kws.cols →
      A.data f i = B.data f i) (p : α × Int) :
    bestStep kws A p j = bestStep kws B p j := by
  have hcols := cols_pos kws
  unfold bestStep
  rw [confEntry_congr kws A B j h 0 (le_refl 0) (by omega)]

theorem wakeStep_congr (kws : Kws α) (A B : Matrix α) (j : Int)
    (h : ∀ f, maxStart kws j ≤ f → f ≤ j → ∀ i, 1 ≤ i → i < kws.cols →
      A.data f i = B.data f i) (w : Int) :
    wakeStep kws A w j = wakeStep kws B w j := by
  unfold wakeStep
  rw [frameWakes_congr kws A B j h]

theorem mem_keyword (kws : Kws α) (i : Int) (c : Int) (hc : c ∈ kws.keyword i) :
    ∃ kw ∈ kws.keywords_, c ∈ kw := by
  unfold Kws.keyword at hc
  rw [List.getD_eq_getElem?_getD] at hc
  cases h : kws.keywords_[i.toNat]? with
  | none => simp [h] at hc
  | some kw =>
    simp only [h, Option.getD_some] at hc
    exact ⟨kw, List.getElem?_mem h, hc⟩

theorem foldl_shape (step : Matrix α → Int → Matrix α)
    (hstep : ∀ m j, (step m j).NumRows = m.NumRows ∧ (step m j).NumCols = m.NumCols)
    (L : List Int) (m : Matrix α) :
    (L.foldl step m).NumRows = m.NumRows ∧ (L.foldl step m).NumCols = m.NumCols := by
  induction L generalizing m with
  | nil => exact ⟨rfl, rfl⟩
  | cons j L ih =>
    rw [List.foldl_cons]
    exact ⟨(ih _).1.trans (hstep m j).1, (ih _).2.trans (hstep m j).2⟩

theorem smoothFrame_shape (kws : Kws α) (P ps : Matrix α) (j : Int) :
    (smoothFrame kws P ps j).NumRows = ps.NumRows ∧
    (smoothFrame kws P ps j).NumCols = ps.NumCols :=
  foldl_shape (fun ps i => ps.set j i (smoothEntry kws P j i)) (fun _ _ => ⟨rfl, rfl⟩) _ ps

theorem smoothPass_shape (kws : Kws α) (P ps : Matrix α) (L : List Int) :
    (L.foldl (smoothFrame kws P) ps).NumRows = ps.NumRows ∧
    (L.foldl (smoothFrame kws P) ps).NumCols = ps.NumCols :=
  foldl_shape (smoothFrame kws P) (fun m j => smoothFrame_shape kws P m j) L ps

theorem foldl_confKeyword_shape (kws : Kws α) (ps : Matrix α) (j : Int) (L : List Int)
    (acc : Matrix α × α) :
    (L.foldl (confKeyword kws ps j) acc).1.NumRows = acc.1.NumRows ∧
    (L.foldl (confKeyword kws ps j) acc).1.NumCols = acc.1.NumCols := by
  induction L generalizing acc with
  | nil => exact ⟨rfl, rfl⟩
  | cons i L ih =>
    rw [List.foldl_cons]
    exact ⟨(ih _).1, (ih _).2⟩

theorem confFrame_shape (kws : Kws α) (ps conf : Matrix α) (j : Int) :
    (confFrame kws ps conf j).NumRows = conf.NumRows ∧
    (confFrame kws ps conf j).NumCols = conf.NumCols :=
  foldl_confKeyword_shape kws ps j (loopRange 1 kws.cols) (conf, 1)

theorem confPass_shape (kws : Kws α) (ps conf : Matrix α) (L : List Int) :
    (L.foldl (confFrame kws ps) conf).NumRows = conf.NumRows ∧
    (L.foldl (confFrame kws ps) conf).NumCols = conf.NumCols :=
  foldl_shape (confFrame kws ps) (fun m j => confFrame_shape kws ps m j) L conf

theorem Scored_Reset (kws : Kws α) (P : Int → Int → α) (s : State α) :
    Scored kws P 0 (Reset kws s) where
  frame_offset := rfl
  post_offset := rfl
  posterior_cols := rfl
  smooth_cols := rfl
  confidence_cols := rfl
  posterior_rows := fun r c h1 h2 _ _ => by omega
  smooth_rows := fun r c h1 h2 _ _ => by omega
  confidence_rows := fun r c h1 h2 _ _ => by omega
  best := by simp [Reset, loopRange_eq_nil]
  woken := by simp [Reset, loopRange_eq_nil]

/-- The state after the `FeedData` call of `scoreChunk`. -/
theorem scoreChunk_eq (kws : Kws α) (P : Int → Int → α) (s : State α) (ch : Chunk α) :
    scoreChunk kws P s ch =
      (isWakeUp kws ch.undefSmooth ch.undefConf
        (if (ch.frames : Int) = 0 then
          { s with state_ := FeatState.FEAT_APPEND, frame_ready_ := s.frame_offset_ + ch.frames }
        else
          { s with
            state_ := FeatState.FEAT_APPEND
            frame_ready_ := s.frame_offset_ + ch.frames
            nnet_out_ := ⟨(ch.frames : Int), kws.OutputDim, fun r c => P (s.frame_offset_ + r) c⟩
            posterior_ :=
              (Resize kws ch.undefPost s.posterior_ s.frame_offset_ ch.frames).CopyRowRange
                s.frame_offset_ ch.frames
                ⟨(ch.frames : Int), kws.OutputDim, fun r c => P (s.frame_offset_ + r) c⟩ 0
            frame_offset_ := s.frame_offset_ + ch.frames })).1 := by
  simp only [scoreChunk, FeedData, storePosterior]
  by_cases h : (ch.frames : Int) = 0
  · simp [h]
  · simp [h]

theorem Scored_scoreChunk (kws : Kws α) (P : Int → Int → α) (n : Int) (s : State α)
    (ch : Chunk α) (hn : 0 ≤ n)
    (hids : ∀ kw ∈ kws.keywords_, ∀ c ∈ kw, 0 ≤ c ∧ c < kws.OutputDim)
    (h : Scored kws P n s) :
    Scored kws P (n + ch.frames) (scoreChunk kws P s ch) := by
  rw [scoreChunk_eq]
  by_cases hm : (ch.frames : Int) = 0
  · rw [if_pos hm, isWakeUp_noop _ _ _ _ (by simp [h.frame_offset, h.post_offset])]
    rw [hm, add_zero]
    exact ⟨h.frame_offset, h.post_offset, h.posterior_cols, h.smooth_cols, h.confidence_cols,
      h.posterior_rows, h.smooth_rows, h.confidence_rows, h.best, h.woken⟩
  · have hmpos : (0 : Int) < ch.frames := by omega
    rw [if_neg hm]
    have hfo := h.frame_offset
    have hpo := h.post_offset
    -- the posterior table after the feed holds the first `n + frames` rows of `P`
    have hpost : ∀ r c, 0 ≤ r → r < n + ch.frames → 0 ≤ c → c < kws.OutputDim →
        ((Resize kws ch.undefPost s.posterior_ s.frame_offset_ ch.frames).CopyRowRange
          s.frame_offset_ ch.frames
          ⟨(ch.frames : Int), kws.OutputDim, fun r c => P (s.frame_offset_ + r) c⟩ 0).data r c
          = P r c := by
      intro r c hr0 hr hc0 hc
      simp only [Matrix.CopyRowRange, Resize_NumCols, h.posterior_cols, hfo]
      by_cases hrn : n ≤ r
      · rw [if_pos ⟨hrn, hr, hc0, hc⟩]
        congr 1
        omega
      · rw [if_neg (fun hh => hrn hh.1)]
        rw [Resize_data_valid _ _ _ _ _ _ _ hr0 (by omega) hc0 (by rw [h.posterior_cols]; exact hc)]
        exact h.posterior_rows r c hr0 (by omega) hc0 hc
    rw [isWakeUp_eq _ _ _ _ (by simp only [hfo, hpo]; omega) _ _ rfl rfl]
    simp only [hfo, hpo]
    have hsub : n + (ch.frames : Int) - n = ch.frames := by omega
    simp only [hsub]
    -- the smoothed table after the pass
    have hsm : ∀ r c, 0 ≤ r → r < n + ch.frames → 1 ≤ c → c < kws.cols →
        ((loopRange n (n + ch.frames)).foldl
          (smoothFrame kws
            ((Resize kws ch.undefPost s.posterior_ n ch.frames).CopyRowRange n ch.frames
              ⟨(ch.frames : Int), kws.OutputDim, fun r c => P (n + r) c⟩ 0))
          (Resize kws ch.undefSmooth s.post_smooth_ n ch.frames)).data r c =
          (streamSmooth kws P).data r c := by
      intro r c hr0 hr hc1 hc
      rw [smoothPass_data]
      by_cases hrn : n ≤ r
      · rw [if_pos ⟨mem_loopRange.2 ⟨hrn, hr⟩, hc1, hc⟩]
        simp only [streamSmooth]
        apply smoothEntry_congr
        intro f hf1 hf2 m hmem
        obtain ⟨kw, hkw, hmkw⟩ := mem_keyword kws _ m hmem
        have hid := hids kw hkw m hmkw
        have h0 := smoothStart_nonneg kws r
        have := hpost f m (by omega) (by omega) hid.1 hid.2
        rw [hfo] at this
        exact this
      · rw [if_neg (fun hh => hrn (mem_loopRange.1 hh.1).1)]
        rw [Resize_data_valid _ _ _ _ _ _ _ hr0 (by omega) (by omega)
          (by rw [h.smooth_cols]; exact hc)]
        exact h.smooth_rows r c hr0 (by omega) hc1 hc
    have hagree : ∀ j, 0 ≤ j → j < n + ch.frames →
        ∀ f, maxStart kws j ≤ f → f ≤ j → ∀ i, 1 ≤ i → i < kws.cols →
        ((loopRange n (n + ch.frames)).foldl
          (smoothFrame kws
            ((Resize kws ch.undefPost s.posterior_ n ch.frames).CopyRowRange n ch.frames
              ⟨(ch.frames : Int), kws.OutputDim, fun r c => P (n + r) c⟩ 0))
          (Resize kws ch.undefSmooth s.post_smooth_ n ch.frames)).data f i =
          (streamSmooth kws P).data f i := by
      intro j hj0 hj f hf1 hf2 i hi1 hi2
      have h0 := maxStart_nonneg kws j
      exact hsm f i (by omega) (by omega) hi1 hi2
    refine ⟨rfl, rfl, ?_, ?_, ?_, ?_, ?_, ?_, ?_, ?_⟩
    · simp only [Matrix.CopyRowRange, Resize_NumCols, h.posterior_cols]
    · rw [(smoothPass_shape _ _ _ _).2, Resize_NumCols, h.smooth_cols]
    · rw [(confPass_shape _ _ _ _).2, Resize_NumCols, h.confidence_cols]
    · intro r c hr0 hr hc0 hc
      have := hpost r c hr0 hr hc0 hc
      rw [hfo] at this
      exact this
    · exact hsm
    · intro r c hr0 hr hc0 hc
      rw [confPass_data]
      by_cases hrn : n ≤ r
      · rw [if_pos ⟨mem_loopRange.2 ⟨hrn, hr⟩, hc0, hc⟩]
        exact confEntry_congr kws _ _ r (hagree r hr0 hr) c hc0 hc
      · rw [if_neg (fun hh => hrn (mem_loopRange.1 hh.1).1)]
        rw [Resize_data_valid _ _ _ _ _ _ _ hr0 (by omega) hc0
          (by rw [h.confidence_cols]; exact hc)]
        exact h.confidence_rows r c hr0 (by omega) hc0 hc
    · rw [loopRange_append hn (by omega : n ≤ n + (ch.frames : Int)), List.foldl_append, ← h.best]
      apply Prod.ext
      · simp only
        congr 1
        apply List.foldl_ext
        intro p j hj
        rw [mem_loopRange] at hj
        exact bestStep_congr kws _ _ j (hagree j (by omega) hj.2) p
      · simp only
        congr 1
        apply List.foldl_ext
        intro p j hj
        rw [mem_loopRange] at hj
        exact bestStep_congr kws _ _ j (hagree j (by omega) hj.2) p
    · rw [loopRange_append hn (by omega : n ≤ n + (ch.frames : Int)), List.foldl_append, ← h.woken]
      simp only
      apply List.foldl_ext
      intro p j hj
      rw [mem_loopRange] at hj
      exact wakeStep_congr kws _ _ j (hagree j (by omega) hj.2) p

theorem Scored_runChunks (kws : Kws α) (P : Int → Int → α)
    (hids : ∀ kw ∈ kws.keywords_, ∀ c ∈ kw, 0 ≤ c ∧ c < kws.OutputDim)
    (chs : List (Chunk α)) (n : Int) (s : State α) (hn : 0 ≤ n) (h : Scored kws P n s) :
    Scored kws P (n + ((chs.map Chunk.frames).sum : Nat)) (runChunks kws P s chs) := by
  induction chs generalizing n s with
  | nil => simpa [runChunks] using h
  | cons ch chs ih =>
    have h1 := Scored_scoreChunk kws P n s ch hn hids h
    have h2 := ih (n + ch.frames) (scoreChunk kws P s ch) (by omega) h1
    simp only [runChunks, List.foldl_cons, List.map_cons, List.sum_cons, Nat.cast_add] at h2 ⊢
    rw [← add_assoc]
    exact h2

theorem isWakeUp_snd (kws : Kws α) (undef1 undef2 : Int → Int → α) (s : State α) :
    (isWakeUp kws undef1 undef2 s).2 = (isWakeUp kws undef1 undef2 s).1.iswakeup_ := by
  simp only [isWakeUp]
  split_ifs <;> rfl

theorem FeedData_iswakeup (kws : Kws α) (env : FeedEnv α) (data : Int → α) (nbytes : Int)
    (state : FeatState) (s : State α) :
    (FeedData kws env data nbytes state s).1.iswakeup_ = s.iswakeup_ := by
  simp only [FeedData, storePosterior]
  split_ifs <;> rfl

theorem isWakeUp_keeps_one (kws : Kws α) (undef1 undef2 : Int → Int → α) (s : State α)
    (h : s.iswakeup_ = 1) : (isWakeUp kws undef1 undef2 s).1.iswakeup_ = 1 := by
  rw [← isWakeUp_snd]
  by_cases hn : s.post_offset_ < s.frame_offset_
  · rw [isWakeUp_eq kws undef1 undef2 s hn _ _ rfl rfl]
    exact (foldl_wakeStep_one kws _ _ _).2 (Or.inl h)
  · rw [isWakeUp_noop kws undef1 undef2 s (by omega)]
    exact h

theorem wakeResults_all_one (kws : Kws α) (cs : List (Call α)) (s : State α)
    (h : s.iswakeup_ = 1) : ∀ x ∈ wakeResults kws s cs, x = 1 := by
  induction cs generalizing s with
  | nil => intro x hx; simp [wakeResults] at hx
  | cons c cs ih =>
    cases c with
    | FeedData env data nbytes state =>
      simp only [wakeResults]
      exact ih _ ((FeedData_iswakeup kws env data nbytes state s).trans h)
    | isWakeUp undef1 undef2 =>
      simp only [wakeResults, List.mem_cons, forall_eq_or_imp]
      have h1 := isWakeUp_keeps_one kws undef1 undef2 s h
      exact ⟨(isWakeUp_snd kws undef1 undef2 s).trans h1, ih _ h1⟩

/-- Claim C2 (monotone wakeup): in every sequence of `FeedData` and `isWakeUp`
calls (no `Reset`), from any state, whenever an `isWakeUp` call returns 1 every
later `isWakeUp` call returns 1; `FeedData` never changes `iswakeup_` and
`isWakeUp` never changes it away from 1. -/
theorem wakeup_monotone (kws : Kws α) (s : State α) (cs : List (Call α)) :
    (wakeResults kws s cs).Pairwise (fun a b => a = 1 → b = 1) ∧
    (∀ (env : FeedEnv α) (data : Int → α) (nbytes : Int) (state : FeatState) (t : State α),
      (FeedData kws env data nbytes state t).1.iswakeup_ = t.iswakeup_) ∧
    (∀ (undef1 undef2 : Int → Int → α) (t : State α), t.iswakeup_ = 1 →
      (isWakeUp kws undef1 undef2 t).1.iswakeup_ = 1) := by
  refine ⟨?_, fun env data nbytes state t => FeedData_iswakeup kws env data nbytes state t,
    fun undef1 undef2 t h => isWakeUp_keeps_one kws undef1 undef2 t h⟩
  induction cs generalizing s with
  | nil => simp [wakeResults]
  | cons c cs ih =>
    cases c with
    | FeedData env data nbytes state =>
      simp only [wakeResults]
      exact ih _
    | isWakeUp undef1 undef2 =>
      simp only [wakeResults, List.pairwise_cons]
      refine ⟨?_, ih _⟩
      intro b hb h1
      exact wakeResults_all_one kws cs _ ((isWakeUp_snd kws undef1 undef2 s).symm.trans h1) b hb

theorem isWakeUp_cursors (kws : Kws α) (undef1 undef2 : Int → Int → α) (s : State α) :
    (isWakeUp kws undef1 undef2 s).1.frame_offset_ -
      (isWakeUp kws undef1 undef2 s).1.post_offset_ ≤ 0 := by
  by_cases hn : s.post_offset_ < s.frame_offset_
  · rw [isWakeUp_eq kws undef1 undef2 s hn _ _ rfl rfl]
    simp
  · rw [isWakeUp_noop kws undef1 undef2 s (by omega)]
    simp only
    omega

/-- Claim C8 (idempotent re-scoring): in a state with
`frame_offset_ - post_offset_ ≤ 0`, `isWakeUp` returns `iswakeup_` and leaves the
whole state (tables with their capacity, cursors, best score) unchanged; and a
second `isWakeUp` right after a first one returns the same value and leaves the
same state. -/
theorem isWakeUp_idempotent (kws : Kws α) (undef1 undef2 : Int → Int → α) (s : State α) :
    (s.frame_offset_ - s.post_offset_ ≤ 0 →
      isWakeUp kws undef1 undef2 s = (s, s.iswakeup_)) ∧
    (∀ v1 v2 : Int → Int → α,
      isWakeUp kws v1 v2 (isWakeUp kws undef1 undef2 s).1 = isWakeUp kws undef1 undef2 s) := by
  refine ⟨isWakeUp_noop kws undef1 undef2 s, ?_⟩
  intro v1 v2
  rw [isWakeUp_noop kws v1 v2 _ (isWakeUp_cursors kws undef1 undef2 s)]
  exact Prod.ext rfl (isWakeUp_snd kws undef1 undef2 s).symm

theorem loopRange_nodup (lo hi : Int) : (loopRange lo hi).Nodup := by
  unfold loopRange
  apply List.Nodup.map _ (List.nodup_range _)
  intro a b h
  simp only at h
  omega

theorem loopRange_toFinset_Icc (lo hi : Int) : (loopRange lo (hi + 1)).toFinset = Finset.Icc lo hi := by
  ext x
  simp only [List.mem_toFinset, mem_loopRange, Finset.mem_Icc]
  omega

theorem foldl_add_eq_sum (g : Int → α) (L : List Int) (a : α) :
    L.foldl (fun s m => s + g m) a = a + (L.map g).sum := by
  induction L generalizing a with
  | nil => simp
  | cons m L ih =>
    rw [List.foldl_cons, ih, List.map_cons, List.sum_cons, add_assoc]

theorem smoothSum_eq_sum (A : Matrix α) (kw : List Int) (hs j : Int) :
    smoothSum A kw hs j = ∑ f ∈ Finset.Icc hs j, (kw.map (fun c => A.data f c)).sum := by
  rw [← loopRange_toFinset_Icc, List.sum_toFinset _ (loopRange_nodup _ _)]
  unfold smoothSum
  generalize loopRange hs (j + 1) = L
  have key : ∀ (L : List Int) (a : α),
      L.foldl (fun sum k => kw.foldl (fun sum m => sum + A.data k m) sum) a =
        a + (L.map (fun f => (kw.map (fun c => A.data f c)).sum)).sum := by
    intro L
    induction L with
    | nil => intro a; simp
    | cons f L ih =>
      intro a
      rw [List.foldl_cons, ih, foldl_add_eq_sum (fun c => A.data f c), List.map_cons,
        List.sum_cons, add_assoc]
  rw [key, zero_add]

theorem smoothStart_eq_max (kws : Kws α) (j : Int) :
    smoothStart kws j = max 0 (j - kws.smooth_window + 1) := by
  unfold smoothStart
  split_ifs <;> omega

theorem maxStart_eq_max (kws : Kws α) (j : Int) :
    maxStart kws j = max 0 (j - kws.sliding_window + 1) := by
  unfold maxStart
  split_ifs <;> omega

theorem isWakeUp_posterior (kws : Kws α) (undef1 undef2 : Int → Int → α) (s : State α) :
    (isWakeUp kws undef1 undef2 s).1.posterior_ = s.posterior_ := by
  by_cases hn : s.post_offset_ < s.frame_offset_
  · rw [isWakeUp_eq kws undef1 undef2 s hn _ _ rfl rfl]
  · rw [isWakeUp_noop kws undef1 undef2 s (by omega)]

/-- The smoothed entry of a newly scored frame. -/
theorem isWakeUp_smooth_new (kws : Kws α) (undef1 undef2 : Int → Int → α) (s : State α)
    (j k : Int) (hj1 : s.post_offset_ ≤ j) (hj2 : j < s.frame_offset_)
    (hk1 : 1 ≤ k) (hk2 : k < kws.cols) :
    (isWakeUp kws undef1 undef2 s).1.post_smooth_.data j k = smoothEntry kws s.posterior_ j k := by
  rw [isWakeUp_eq kws undef1 undef2 s (by omega) _ _ rfl rfl]
  simp only
  rw [smoothPass_data, if_pos ⟨mem_loopRange.2 ⟨hj1, hj2⟩, hk1, hk2⟩]

/-- The confidence entry of a newly scored frame. -/
theorem isWakeUp_conf_new (kws : Kws α) (undef1 undef2 : Int → Int → α) (s : State α)
    (j c : Int) (hj1 : s.post_offset_ ≤ j) (hj2 : j < s.frame_offset_)
    (hc1 : 0 ≤ c) (hc2 : c < 2 * kws.cols) :
    (isWakeUp kws undef1 undef2 s).1.confidence_.data j c =
      confEntry kws (isWakeUp kws undef1 undef2 s).1.post_smooth_ j c := by
  rw [isWakeUp_eq kws undef1 undef2 s (by omega) _ _ rfl rfl]
  simp only
  rw [confPass_data, if_pos ⟨mem_loopRange.2 ⟨hj1, hj2⟩, hc1, hc2⟩]

/-- Claim C3 (smoothing is a trailing mean): with `smooth_window ≥ 1`, for every
newly scored frame `j` and keyword `k = 1..K`, after `isWakeUp` the entry
`post_smooth_(j,k)` is the sum over the frames `f` of `[lo, j]` of the sum over
the class ids `c` of keyword `k` of `posterior_(f,c)`, divided by `j - lo + 1`,
with `lo = max 0 (j - smooth_window + 1)`; the number of frames averaged,
`j - lo + 1`, is `min smooth_window (j+1)` and is at least 1 for `j ≥ 0`; the
posterior table is not changed by the pass. -/
theorem smoothing_trailing_mean (kws : Kws α) (undef1 undef2 : Int → Int → α) (s : State α)
    (hW : 1 ≤ kws.smooth_window) (j k : Int)
    (hj1 : s.post_offset_ ≤ j) (hj2 : j < s.frame_offset_)
    (hk1 : 1 ≤ k) (hk2 : k ≤ (kws.keywords_.length : Int)) :
    (isWakeUp kws undef1 undef2 s).1.post_smooth_.data j k =
      (∑ f ∈ Finset.Icc (max 0 (j - kws.smooth_window + 1)) j,
        ((kws.keywords_.getD (k - 1).toNat []).map (fun c => s.posterior_.data f c)).sum) /
        ((j - max 0 (j - kws.smooth_window + 1) + 1 : Int) : α) ∧
    j - max 0 (j - kws.smooth_window + 1) + 1 = min kws.smooth_window (j + 1) ∧
    (0 ≤ j → 1 ≤ j - max 0 (j - kws.smooth_window + 1) + 1) ∧
    (isWakeUp kws undef1 undef2 s).1.posterior_ = s.posterior_ := by
  refine ⟨?_, by omega, by omega, isWakeUp_posterior kws undef1 undef2 s⟩
  rw [isWakeUp_smooth_new kws undef1 undef2 s j k hj1 hj2 hk1 (by unfold Kws.cols; omega)]
  unfold smoothEntry
  simp only [smoothSum_eq_sum, smoothStart_eq_max]
  rfl

theorem slidingMax_fst_nonneg (ps : Matrix α) (i hm j : Int) :
    0 ≤ (slidingMax ps i hm j).1 := by
  unfold slidingMax
  have key : ∀ (L : List Int) (p : α × α), 0 ≤ p.1 →
      0 ≤ (L.foldl (fun (p : α × α) k =>
        if p.1 < ps.data k i then (ps.data k i, (k : α)) else p) p).1 := by
    intro L
    induction L with
    | nil => intro p hp; exact hp
    | cons k L ih =>
      intro p hp
      rw [List.foldl_cons]
      apply ih
      split_ifs with h
      · exact le_of_lt (lt_of_le_of_lt hp h)
      · exact hp
  exact key _ _ (le_refl 0)

theorem winMax_nonneg (kws : Kws α) (ps : Matrix α) (j i : Int) : 0 ≤ winMax kws ps j i :=
  slidingMax_fst_nonneg ps i _ j

theorem loopRange_toFinset_Ico (lo hi : Int) : (loopRange lo hi).toFinset = Finset.Ico lo hi := by
  ext x
  simp only [List.mem_toFinset, mem_loopRange, Finset.mem_Ico]

theorem mulAll_eq_prod (kws : Kws α) (ps : Matrix α) (j : Int) :
    mulAll kws ps j = ∏ k ∈ Finset.Icc (1 : Int) (kws.keywords_.length : Int), winMax kws ps j k := by
  unfold mulAll
  rw [one_mul, ← List.prod_toFinset _ (loopRange_nodup _ _)]
  have : kws.cols = (kws.keywords_.length : Int) + 1 := rfl
  rw [this, loopRange_toFinset_Icc]

theorem mulAll_nonneg (kws : Kws α) (ps : Matrix α) (j : Int) : 0 ≤ mulAll kws ps j := by
  rw [mulAll_eq_prod]
  exact Finset.prod_nonneg (fun k _ => winMax_nonneg kws ps j k)

/-- Claim C5 (combined score): for `K ≥ 1`, when `pow x (1/K)` is the
non-negative `K`-th root of every `x ≥ 0`, for every newly scored frame `j` the
entry `confidence_(j,0)` is non-negative and its `K`-th power is the product
over `k = 1..K` of the window maxima `confidence_(j,2k)`; `confidence_(j,1)` is
`j`; and if some keyword's window maximum at `j` is 0 the combined score at `j`
is 0. -/
theorem combined_score_geometric_mean (kws : Kws α) (undef1 undef2 : Int → Int → α)
    (s : State α) (hK : 1 ≤ kws.keywords_.length)
    (hpow : ∀ x : α, 0 ≤ x →
      0 ≤ kws.pow x (1 / (kws.keywords_.length : α)) ∧
      (kws.pow x (1 / (kws.keywords_.length : α))) ^ kws.keywords_.length = x)
    (j : Int) (hj1 : s.post_offset_ ≤ j) (hj2 : j < s.frame_offset_) :
    0 ≤ (isWakeUp kws undef1 undef2 s).1.confidence_.data j 0 ∧
    ((isWakeUp kws undef1 undef2 s).1.confidence_.data j 0) ^ kws.keywords_.length =
      ∏ k ∈ Finset.Icc (1 : Int) (kws.keywords_.length : Int),
        (isWakeUp kws undef1 undef2 s).1.confidence_.data j (2 * k) ∧
    (isWakeUp kws undef1 undef2 s).1.confidence_.data j 1 = (j : α) ∧
    ((∃ k : Int, 1 ≤ k ∧ k ≤ (kws.keywords_.length : Int) ∧
        (isWakeUp kws undef1 undef2 s).1.confidence_.data j (2 * k) = 0) →
      (isWakeUp kws undef1 undef2 s).1.confidence_.data j 0 = 0) := by
  have hcols : kws.cols = (kws.keywords_.length : Int) + 1 := rfl
  have hK' : (1 : Int) ≤ (kws.keywords_.length : Int) := by exact_mod_cast hK
  have h0 : (isWakeUp kws undef1 undef2 s).1.confidence_.data j 0 =
      kws.pow (mulAll kws (isWakeUp kws undef1 undef2 s).1.post_smooth_ j)
        (1 / (kws.keywords_.length : α)) := by
    rw [isWakeUp_conf_new kws undef1 undef2 s j 0 hj1 hj2 (le_refl 0) (by omega)]
    simp only [confEntry, hcols]
    norm_num
  have h1 : (isWakeUp kws undef1 undef2 s).1.confidence_.data j 1 = (j : α) := by
    rw [isWakeUp_conf_new kws undef1 undef2 s j 1 hj1 hj2 (by omega) (by omega)]
    simp [confEntry]
  have h2 : ∀ k : Int, 1 ≤ k → k ≤ (kws.keywords_.length : Int) →
      (isWakeUp kws undef1 undef2 s).1.confidence_.data j (2 * k) =
        winMax kws (isWakeUp kws undef1 undef2 s).1.post_smooth_ j k := by
    intro k hk1 hk2
    rw [isWakeUp_conf_new kws undef1 undef2 s j (2 * k) hj1 hj2 (by omega) (by omega)]
    exact confEntry_max kws _ j k hk1
  have hprod : ∏ k ∈ Finset.Icc (1 : Int) (kws.keywords_.length : Int),
        (isWakeUp kws undef1 undef2 s).1.confidence_.data j (2 * k) =
      mulAll kws (isWakeUp kws undef1 undef2 s).1.post_smooth_ j := by
    rw [mulAll_eq_prod]
    apply Finset.prod_congr rfl
    intro k hk
    rw [Finset.mem_Icc] at hk
    exact h2 k hk.1 hk.2
  have hroot := hpow _ (mulAll_nonneg kws (isWakeUp kws undef1 undef2 s).1.post_smooth_ j)
  refine ⟨by rw [h0]; exact hroot.1, by rw [h0, hprod]; exact hroot.2, h1, ?_⟩
  rintro ⟨k, hk1, hk2, hk3⟩
  have hz : mulAll kws (isWakeUp kws undef1 undef2 s).1.post_smooth_ j = 0 := by
    rw [← hprod]
    exact Finset.prod_eq_zero (Finset.mem_Icc.2 ⟨hk1, hk2⟩) hk3
  have hp := hroot.2
  rw [hz] at hp
  rw [h0, hz]
  exact pow_eq_zero_iff (by omega) |>.1 hp

/-- Claim C6 (causality): if a posterior table `Q` agrees with `posterior_` on
all rows `≤ j`, then scoring with `Q` in place of `posterior_` stores the same
row `j` of the smoothed table and the same row `j` of the confidence table
(window maxima, argmax frames, combined score): rows after `j` have no effect
on what is stored for frame `j`. -/
theorem scoring_causal (kws : Kws α) (undef1 undef2 : Int → Int → α) (s : State α)
    (Q : Matrix α) (j : Int)
    (hagree : ∀ r c, r ≤ j → Q.data r c = s.posterior_.data r c) :
    (∀ k, (isWakeUp kws undef1 undef2 { s with posterior_ := Q }).1.post_smooth_.data j k =
      (isWakeUp kws undef1 undef2 s).1.post_smooth_.data j k) ∧
    (∀ c, (isWakeUp kws undef1 undef2 { s with posterior_ := Q }).1.confidence_.data j c =
      (isWakeUp kws undef1 undef2 s).1.confidence_.data j c) := by
  by_cases hn : s.post_offset_ < s.frame_offset_
  · rw [isWakeUp_eq kws undef1 undef2 s hn _ _ rfl rfl,
      isWakeUp_eq kws undef1 undef2 { s with posterior_ := Q } hn _ _ rfl rfl]
    simp only
    have hsm : ∀ r c, r ≤ j →
        ((loopRange s.post_offset_ s.frame_offset_).foldl (smoothFrame kws Q)
          (Resize kws undef1 s.post_smooth_ s.post_offset_
            (s.frame_offset_ - s.post_offset_))).data r c =
        ((loopRange s.post_offset_ s.frame_offset_).foldl (smoothFrame kws s.posterior_)
          (Resize kws undef1 s.post_smooth_ s.post_offset_
            (s.frame_offset_ - s.post_offset_))).data r c := by
      intro r c hr
      rw [smoothPass_data, smoothPass_data]
      split_ifs with h1
      · exact smoothEntry_congr kws _ _ r c
          (fun f _ hf2 m _ => hagree f m (by omega))
      · rfl
    refine ⟨fun k => hsm j k (le_refl j), ?_⟩
    intro c
    rw [confPass_data, confPass_data]
    split_ifs with h1
    · exact confEntry_congr kws _ _ j (fun f _ hf2 i _ _ => hsm f i hf2) c h1.2.1 h1.2.2
    · rfl
  · rw [isWakeUp_noop kws undef1 undef2 s (by omega),
      isWakeUp_noop kws undef1 undef2 { s with posterior_ := Q } (by simp only; omega)]
    exact ⟨fun _ => rfl, fun _ => rfl⟩

theorem slidingMax_spec (ps : Matrix α) (i hm j : Int) :
    (∀ k, hm ≤ k → k ≤ j → ps.data k i ≤ (slidingMax ps i hm j).1) ∧
    (slidingMax ps i hm j = (0, (hm : α)) ∨
      ∃ k, hm ≤ k ∧ k ≤ j ∧ slidingMax ps i hm j = (ps.data k i, (k : α))) := by
  have key : ∀ (L : List Int) (p : α × α),
      p.1 ≤ (L.foldl (fun (p : α × α) k =>
        if p.1 < ps.data k i then (ps.data k i, (k : α)) else p) p).1 ∧
      (∀ k ∈ L, ps.data k i ≤ (L.foldl (fun (p : α × α) k =>
        if p.1 < ps.data k i then (ps.data k i, (k : α)) else p) p).1) ∧
      (L.foldl (fun (p : α × α) k =>
        if p.1 < ps.data k i then (ps.data k i, (k : α)) else p) p = p ∨
       ∃ k ∈ L, L.foldl (fun (p : α × α) k =>
        if p.1 < ps.data k i then (ps.data k i, (k : α)) else p) p = (ps.data k i, (k : α))) := by
    intro L
    induction L with
    | nil => intro p; simp
    | cons k L ih =>
      intro p
      rw [List.foldl_cons]
      obtain ⟨h1, h2, h3⟩ := ih (if p.1 < ps.data k i then (ps.data k i, (k : α)) else p)
      by_cases hlt : p.1 < ps.data k i
      · rw [if_pos hlt] at h1 h2 h3 ⊢
        refine ⟨le_trans (le_of_lt hlt) h1, ?_, ?_⟩
        · intro k' hk'
          rcases List.mem_cons.1 hk' with rfl | hk'
          · exact h1
          · exact h2 k' hk'
        · right
          rcases h3 with h3 | ⟨k', hk', h3⟩
          · exact ⟨k, List.mem_cons_self _ _, h3⟩
          · exact ⟨k', List.mem_cons_of_mem _ hk', h3⟩
      · rw [if_neg hlt] at h1 h2 h3 ⊢
        refine ⟨h1, ?_, ?_⟩
        · intro k' hk'
          rcases List.mem_cons.1 hk' with rfl | hk'
          · exact le_trans (not_lt.1 hlt) h1
          · exact h2 k' hk'
        · rcases h3 with h3 | ⟨k', hk', h3⟩
          · exact Or.inl h3
          · exact Or.inr ⟨k', List.mem_cons_of_mem _ hk', h3⟩
  obtain ⟨-, h2, h3⟩ := key (loopRange hm (j + 1)) (0, (hm : α))
  refine ⟨fun k hk1 hk2 => h2 k (mem_loopRange.2 ⟨hk1, by omega⟩), ?_⟩
  rcases h3 with h3 | ⟨k, hk, h3⟩
  · exact Or.inl h3
  · rw [mem_loopRange] at hk
    exact Or.inr ⟨k, hk.1, by omega, h3⟩

theorem smoothEntry_nonneg (kws : Kws α) (A : Matrix α) (hA : ∀ f c, 0 ≤ A.data f c)
    (j i : Int) : 0 ≤ smoothEntry kws A j i := by
  unfold smoothEntry
  simp only [smoothSum_eq_sum]
  by_cases h : smoothStart kws j ≤ j
  · apply div_nonneg
    · exact Finset.sum_nonneg (fun f _ => List.sum_nonneg (by
        intro x hx
        rw [List.mem_map] at hx
        obtain ⟨c, -, rfl⟩ := hx
        exact hA f c))
    · have : (0 : Int) ≤ j - smoothStart kws j + 1 := by omega
      exact_mod_cast this
  · rw [Finset.Icc_eq_empty (by omega), Finset.sum_empty, zero_div]

/-- Claim C4 (sliding max): with `sliding_window ≥ 1`, a non-negative posterior
stream and keyword class ids inside the classifier output, in a session that
has scored the stream in any batches since `Reset`, for every scored frame `j`
and keyword `k = 1..K` the entry `confidence_(j,2k)` is the maximum of
`post_smooth_(f,k)` over `hm ≤ f ≤ j`, `hm = max 0 (j - sliding_window + 1)`: it
bounds every value of the window, and `confidence_(j,2k+1)` is a frame index
`f` of the window at which `post_smooth_(f,k)` equals it. -/
theorem sliding_max_spec (kws : Kws α) (P : Int → Int → α) (s0 : State α)
    (chs : List (Chunk α)) (hW : 1 ≤ kws.sliding_window)
    (hP : ∀ f c, 0 ≤ P f c)
    (hids : ∀ kw ∈ kws.keywords_, ∀ c ∈ kw, 0 ≤ c ∧ c < kws.OutputDim)
    (j k : Int) (hj0 : 0 ≤ j) (hj : j < ((chs.map Chunk.frames).sum : Nat))
    (hk1 : 1 ≤ k) (hk : k ≤ (kws.keywords_.length : Int)) :
    (∀ f, max 0 (j - kws.sliding_window + 1) ≤ f → f ≤ j →
      (runChunks kws P (Reset kws s0) chs).post_smooth_.data f k ≤
        (runChunks kws P (Reset kws s0) chs).confidence_.data j (2 * k)) ∧
    ∃ f : Int, (runChunks kws P (Reset kws s0) chs).confidence_.data j (2 * k + 1) = (f : α) ∧
      max 0 (j - kws.sliding_window + 1) ≤ f ∧ f ≤ j ∧
      (runChunks kws P (Reset kws s0) chs).post_smooth_.data f k =
        (runChunks kws P (Reset kws s0) chs).confidence_.data j (2 * k) := by
  have hsc := Scored_runChunks kws P hids chs 0 (Reset kws s0) (le_refl 0) (Scored_Reset kws P s0)
  rw [zero_add] at hsc
  have hcols : kws.cols = (kws.keywords_.length : Int) + 1 := rfl
  have hmax : (runChunks kws P (Reset kws s0) chs).confidence_.data j (2 * k) =
      (slidingMax (streamSmooth kws P) k (maxStart kws j) j).1 := by
    rw [hsc.confidence_rows j (2 * k) hj0 hj (by omega) (by omega), confEntry_max kws _ j k hk1]
    rfl
  have harg : (runChunks kws P (Reset kws s0) chs).confidence_.data j (2 * k + 1) =
      (slidingMax (streamSmooth kws P) k (maxStart kws j) j).2 := by
    rw [hsc.confidence_rows j (2 * k + 1) hj0 hj (by omega) (by omega),
      confEntry_arg kws _ j k hk1]
    rfl
  have hsm : ∀ f, 0 ≤ f → f ≤ j → (runChunks kws P (Reset kws s0) chs).post_smooth_.data f k =
      (streamSmooth kws P).data f k :=
    fun f hf0 hf => hsc.smooth_rows f k hf0 (by omega) hk1 (by omega)
  have hnn : ∀ f, 0 ≤ (streamSmooth kws P).data f k :=
    fun f => smoothEntry_nonneg kws ⟨0, 0, P⟩ hP f k
  have hm0 := maxStart_nonneg kws j
  have hmle : maxStart kws j ≤ j := by rw [maxStart_eq_max]; omega
  obtain ⟨hle, hcase⟩ := slidingMax_spec (streamSmooth kws P) k (maxStart kws j) j
  rw [hmax, harg, ← maxStart_eq_max]
  refine ⟨fun f hf1 hf2 => by rw [hsm f (by omega) hf2]; exact hle f hf1 hf2, ?_⟩
  rcases hcase with h0 | ⟨f, hf1, hf2, hf3⟩
  · refine ⟨maxStart kws j, by rw [h0], le_refl _, hmle, ?_⟩
    rw [hsm _ hm0 hmle, h0]
    have h1 := hle (maxStart kws j) (le_refl _) hmle
    rw [h0] at h1
    exact le_antisymm h1 (hnn _)
  · refine ⟨f, by rw [hf3], hf1, hf2, ?_⟩
    rw [hsm f (by omega) hf2, hf3]

/-- Claim C7 (chunking independence): for a posterior stream `P`, keyword class
ids inside the classifier output, and any list of batches whose sizes add up to
`N`, storing and scoring the batches one after the other from a `Reset` state
gives the same first `N` posterior rows, the same first `N` rows of the smoothed
table (columns `1..K`) and of the confidence table, and the same `iswakeup_`,
`score_` and `wakeup_frame_` as storing all `N` rows and scoring them in one
pass. -/
theorem chunking_independence (kws : Kws α) (P : Int → Int → α) (s0 : State α)
    (chs : List (Chunk α)) (one : Chunk α)
    (hids : ∀ kw ∈ kws.keywords_, ∀ c ∈ kw, 0 ≤ c ∧ c < kws.OutputDim)
    (hone : one.frames = (chs.map Chunk.frames).sum) :
    (∀ r c, 0 ≤ r → r < (one.frames : Int) → 0 ≤ c → c < kws.OutputDim →
      (runChunks kws P (Reset kws s0) chs).posterior_.data r c =
        (scoreChunk kws P (Reset kws s0) one).posterior_.data r c) ∧
    (∀ r c, 0 ≤ r → r < (one.frames : Int) → 1 ≤ c → c ≤ (kws.keywords_.length : Int) →
      (runChunks kws P (Reset kws s0) chs).post_smooth_.data r c =
        (scoreChunk kws P (Reset kws s0) one).post_smooth_.data r c) ∧
    (∀ r c, 0 ≤ r → r < (one.frames : Int) → 0 ≤ c →
        c < 2 * ((kws.keywords_.length : Int) + 1) →
      (runChunks kws P (Reset kws s0) chs).confidence_.data r c =
        (scoreChunk kws P (Reset kws s0) one).confidence_.data r c) ∧
    (runChunks kws P (Reset kws s0) chs).iswakeup_ =
      (scoreChunk kws P (Reset kws s0) one).iswakeup_ ∧
    (runChunks kws P (Reset kws s0) chs).score_ =
      (scoreChunk kws P (Reset kws s0) one).score_ ∧
    (runChunks kws P (Reset kws s0) chs).wakeup_frame_ =
      (scoreChunk kws P (Reset kws s0) one).wakeup_frame_ := by
  have ha := Scored_runChunks kws P hids chs 0 (Reset kws s0) (le_refl 0) (Scored_Reset kws P s0)
  have hb := Scored_scoreChunk kws P 0 (Reset kws s0) one (le_refl 0) hids (Scored_Reset kws P s0)
  rw [zero_add, ← hone] at ha
  rw [zero_add] at hb
  have hcols : kws.cols = (kws.keywords_.length : Int) + 1 := rfl
  refine ⟨?_, ?_, ?_, ?_, ?_, ?_⟩
  · intro r c hr0 hr hc0 hc
    rw [ha.posterior_rows r c hr0 hr hc0 hc, hb.posterior_rows r c hr0 hr hc0 hc]
  · intro r c hr0 hr hc1 hc
    rw [ha.smooth_rows r c hr0 hr hc1 (by omega), hb.smooth_rows r c hr0 hr hc1 (by omega)]
  · intro r c hr0 hr hc0 hc
    rw [ha.confidence_rows r c hr0 hr hc0 (by omega),
      hb.confidence_rows r c hr0 hr hc0 (by omega)]
  · rw [ha.woken, hb.woken]
  · have h1 := congrArg Prod.fst ha.best
    have h2 := congrArg Prod.fst hb.best
    simp only at h1 h2
    rw [h1, h2]
  · have h1 := congrArg Prod.snd ha.best
    have h2 := congrArg Prod.snd hb.best
    simp only at h1 h2
    rw [h1, h2]

theorem exStream_nonneg (f c : Int) : (0 : ℚ) ≤ exStream ℚ f c := by
  unfold exStream
  split_ifs <;> norm_num

theorem real_rpow_root (n : Nat) (hn : 1 ≤ n) (x : ℝ) (hx : 0 ≤ x) :
    0 ≤ x ^ (1 / (n : ℝ)) ∧ (x ^ (1 / (n : ℝ))) ^ n = x := by
  refine ⟨Real.rpow_nonneg hx _, ?_⟩
  rw [one_div]
  exact Real.rpow_inv_natCast_pow hx (by omega)

/-- Claim C3 at frame 1, keyword 2 of the example state. -/
theorem smoothing_trailing_mean_witness :
    (1 ≤ (exKws ℚ (fun x _ => x)).smooth_window ∧ (exState ℚ).post_offset_ ≤ 1 ∧
      (1 : Int) < (exState ℚ).frame_offset_) ∧
    (isWakeUp (exKws ℚ (fun x _ => x)) (exUndef ℚ) (exUndef ℚ) (exState ℚ)).1.post_smooth_.data
        1 2 =
      (∑ f ∈ Finset.Icc (max 0 (1 - (exKws ℚ (fun x _ => x)).smooth_window + 1)) 1,
        (((exKws ℚ (fun x _ => x)).keywords_.getD (2 - 1 : Int).toNat []).map
          (fun c => (exState ℚ).posterior_.data f c)).sum) /
        ((1 - max 0 (1 - (exKws ℚ (fun x _ => x)).smooth_window + 1) + 1 : Int) : ℚ) :=
  ⟨⟨by decide, by decide, by decide⟩,
    (smoothing_trailing_mean (exKws ℚ (fun x _ => x)) (exUndef ℚ) (exUndef ℚ) (exState ℚ)
      (by decide) 1 2 (by decide) (by decide) (by decide) (by decide)).1⟩

/-- Claim C4 at frame 1, keyword 2 of the example session. -/
theorem sliding_max_spec_witness :
    (1 ≤ (exKws ℚ (fun x _ => x)).sliding_window ∧
      (1 : Int) < ((((exChunks ℚ).map Chunk.frames).sum : Nat) : Int)) ∧
    ∃ f : Int,
      (runChunks (exKws ℚ (fun x _ => x)) (exStream ℚ)
        (Reset (exKws ℚ (fun x _ => x)) (exState ℚ)) (exChunks ℚ)).confidence_.data 1
          (2 * 2 + 1) = (f : ℚ) ∧
      max 0 (1 - (exKws ℚ (fun x _ => x)).sliding_window + 1) ≤ f ∧ f ≤ 1 ∧
      (runChunks (exKws ℚ (fun x _ => x)) (exStream ℚ)
        (Reset (exKws ℚ (fun x _ => x)) (exState ℚ)) (exChunks ℚ)).post_smooth_.data f 2 =
      (runChunks (exKws ℚ (fun x _ => x)) (exStream ℚ)
        (Reset (exKws ℚ (fun x _ => x)) (exState ℚ)) (exChunks ℚ)).confidence_.data 1 (2 * 2) :=
  ⟨⟨by decide, by decide⟩,
    (sliding_max_spec (exKws ℚ (fun x _ => x)) (exStream ℚ) (exState ℚ) (exChunks ℚ)
      (by decide) exStream_nonneg (by decide) 1 2 (by decide) (by decide) (by decide)
      (by decide)).2⟩

/-- Claim C5 over the reals, with `pow` the real power, at frame 1 of the example state. -/
theorem combined_score_geometric_mean_witness :
    (1 ≤ (exKws ℝ (fun x y => x ^ y)).keywords_.length ∧ (exState ℝ).post_offset_ ≤ 1 ∧
      (1 : Int) < (exState ℝ).frame_offset_) ∧
    ((isWakeUp (exKws ℝ (fun x y => x ^ y)) (exUndef ℝ) (exUndef ℝ)
        (exState ℝ)).1.confidence_.data 1 0) ^ (exKws ℝ (fun x y => x ^ y)).keywords_.length =
      ∏ k ∈ Finset.Icc (1 : Int) ((exKws ℝ (fun x y => x ^ y)).keywords_.length : Int),
        (isWakeUp (exKws ℝ (fun x y => x ^ y)) (exUndef ℝ) (exUndef ℝ)
          (exState ℝ)).1.confidence_.data 1 (2 * k) :=
  ⟨⟨by decide, by decide, by decide⟩,
    (combined_score_geometric_mean (exKws ℝ (fun x y => x ^ y)) (exUndef ℝ) (exUndef ℝ)
      (exState ℝ) (by decide) (fun x hx => real_rpow_root 2 (by decide) x hx) 1
      (by decide) (by decide)).2.1⟩

/-- Claim C6 at frame 1 of the example state, the posterior rows after frame 1 replaced by 9. -/
theorem scoring_causal_witness :
    (∀ r c : Int, r ≤ 1 →
      (if r ≤ 1 then (exState ℚ).posterior_.data r c else 9) =
        (exState ℚ).posterior_.data r c) ∧
    (isWakeUp (exKws ℚ (fun x _ => x)) (exUndef ℚ) (exUndef ℚ)
      { exState ℚ with
        posterior_ := ⟨4, 3, fun r c => if r ≤ 1 then (exState ℚ).posterior_.data r c else 9⟩ }
      ).1.confidence_.data 1 0 =
    (isWakeUp (exKws ℚ (fun x _ => x)) (exUndef ℚ) (exUndef ℚ) (exState ℚ)).1.confidence_.data
      1 0 :=
  ⟨fun _ _ h => if_pos h,
    (scoring_causal (exKws ℚ (fun x _ => x)) (exUndef ℚ) (exUndef ℚ) (exState ℚ)
      ⟨4, 3, fun r c => if r ≤ 1 then (exState ℚ).posterior_.data r c else 9⟩ 1
      (fun _ _ h => if_pos h)).2 0⟩

/-- Claim C7 for the example stream, batches of one and two frames against one batch of three. -/
theorem chunking_independence_witness :
    ((∀ kw ∈ (exKws ℚ (fun x _ => x)).keywords_, ∀ c ∈ kw,
        0 ≤ c ∧ c < (exKws ℚ (fun x _ => x)).OutputDim) ∧
      (exOne ℚ).frames = ((exChunks ℚ).map Chunk.frames).sum) ∧
    (runChunks (exKws ℚ (fun x _ => x)) (exStream ℚ)
        (Reset (exKws ℚ (fun x _ => x)) (exState ℚ)) (exChunks ℚ)).iswakeup_ =
      (scoreChunk (exKws ℚ (fun x _ => x)) (exStream ℚ)
        (Reset (exKws ℚ (fun x _ => x)) (exState ℚ)) (exOne ℚ)).iswakeup_ ∧
    (runChunks (exKws ℚ (fun x _ => x)) (exStream ℚ)
        (Reset (exKws ℚ (fun x _ => x)) (exState ℚ)) (exChunks ℚ)).score_ =
      (scoreChunk (exKws ℚ (fun x _ => x)) (exStream ℚ)
        (Reset (exKws ℚ (fun x _ => x)) (exState ℚ)) (exOne ℚ)).score_ :=
  ⟨⟨by decide, by decide⟩,
    (chunking_independence (exKws ℚ (fun x _ => x)) (exStream ℚ) (exState ℚ) (exChunks ℚ)
      (exOne ℚ) (by decide) (by decide)).2.2.2.1,
    (chunking_independence (exKws ℚ (fun x _ => x)) (exStream ℚ) (exState ℚ) (exChunks ℚ)
      (exOne ℚ) (by decide) (by decide)).2.2.2.2.1⟩

/-- Claim C9 for a table of 4 rows, 3 valid rows and 5 new rows. -/
theorem Resize_capacity_witness :
    ((0 : Int) ≤ 3 ∧ 3 ≤ (Matrix.zero 4 6 : Matrix ℚ).NumRows) ∧
    3 + 5 ≤ (Resize (exKws ℚ (fun x _ => x)) (exUndef ℚ) (Matrix.zero 4 6) 3 5).NumRows ∧
    ((Matrix.zero 4 6 : Matrix ℚ).NumRows < 3 + 5 →
      (Resize (exKws ℚ (fun x _ => x)) (exUndef ℚ) (Matrix.zero 4 6) 3 5).NumRows =
        (Matrix.zero 4 6 : Matrix ℚ).NumRows + max 5 (exKws ℚ (fun x _ => x)).MATRIX_INC_STEP) ∧
    (Resize (exKws ℚ (fun x _ => x)) (exUndef ℚ) (Matrix.zero 4 6) 3 5).NumCols =
      (Matrix.zero 4 6 : Matrix ℚ).NumCols :=
  ⟨⟨by decide, by decide⟩,
    Resize_capacity (exKws ℚ (fun x _ => x)) (exUndef ℚ) (Matrix.zero 4 6) 3 5
      (by decide) (by decide)⟩

/-- Claim C10 for the example posterior table, 3 valid rows and 5 new rows. -/
theorem Resize_keeps_valid_rows_witness :
    (3 ≤ (exState ℚ).posterior_.NumRows) ∧
    (Resize (exKws ℚ (fun x _ => x)) (exUndef ℚ) (exState ℚ).posterior_ 3 5).data 1 1 =
      (exState ℚ).posterior_.data 1 1 ∧
    (exState ℚ).posterior_.NumRows ≤
      (Resize (exKws ℚ (fun x _ => x)) (exUndef ℚ) (exState ℚ).posterior_ 3 5).NumRows :=
  ⟨by decide,
    (Resize_keeps_valid_rows (exKws ℚ (fun x _ => x)) (exUndef ℚ) (exState ℚ).posterior_ 3 5
      (by decide)).1 1 1 (by decide) (by decide) (by decide) (by decide),
    (Resize_keeps_valid_rows (exKws ℚ (fun x _ => x)) (exUndef ℚ) (exState ℚ).posterior_ 3 5
      (by decide)).2.2⟩

/-- The model evaluated on the example state: the pass over frames 0, 1, 2
returns 1; frame 1 has smoothed values 1/2 and 1/2, window maxima 1 and 1/2 at
frames 0 and 1, and is the best frame. -/
theorem isWakeUp_exState :
    (isWakeUp (exKws ℚ (fun x _ => x)) (exUndef ℚ) (exUndef ℚ) (exState ℚ)).2 = 1 ∧
    (isWakeUp (exKws ℚ (fun x _ => x)) (exUndef ℚ) (exUndef ℚ) (exState ℚ)).1.post_smooth_.data
      1 1 = 1 / 2 ∧
    (isWakeUp (exKws ℚ (fun x _ => x)) (exUndef ℚ) (exUndef ℚ) (exState ℚ)).1.post_smooth_.data
      1 2 = 1 / 2 ∧
    (isWakeUp (exKws ℚ (fun x _ => x)) (exUndef ℚ) (exUndef ℚ) (exState ℚ)).1.confidence_.data
      1 2 = 1 ∧
    (isWakeUp (exKws ℚ (fun x _ => x)) (exUndef ℚ) (exUndef ℚ) (exState ℚ)).1.confidence_.data
      1 3 = 0 ∧
    (isWakeUp (exKws ℚ (fun x _ => x)) (exUndef ℚ) (exUndef ℚ) (exState ℚ)).1.confidence_.data
      1 4 = 1 / 2 ∧
    (isWakeUp (exKws ℚ (fun x _ => x)) (exUndef ℚ) (exUndef ℚ) (exState ℚ)).1.confidence_.data
      1 5 = 1 ∧
    (isWakeUp (exKws ℚ (fun x _ => x)) (exUndef ℚ) (exUndef ℚ) (exState ℚ)).1.wakeup_frame_ = 1 ∧
    (isWakeUp (exKws ℚ (fun x _ => x)) (exUndef ℚ) (exUndef ℚ) (exState ℚ)).1.post_offset_ = 3 := by
  decide!

/-- The example session fed in batches of one and two frames ends woken, with
the cursors at 3. -/
theorem runChunks_exChunks :
    (runChunks (exKws ℚ (fun x _ => x)) (exStream ℚ)
      (Reset (exKws ℚ (fun x _ => x)) (exState ℚ)) (exChunks ℚ)).iswakeup_ = 1 ∧
    (runChunks (exKws ℚ (fun x _ => x)) (exStream ℚ)
      (Reset (exKws ℚ (fun x _ => x)) (exState ℚ)) (exChunks ℚ)).post_offset_ = 3 ∧
    (runChunks (exKws ℚ (fun x _ => x)) (exStream ℚ)
      (Reset (exKws ℚ (fun x _ => x)) (exState ℚ)) (exChunks ℚ)).confidence_.data 2 5 = 1 := by
  decide!

/-- The scan of lines 144-151 over any window: the result is floored at 0, bounds
the window, and is either the initial pair (no positive value) or the first
frame of the window holding the positive maximum. -/
theorem slidingMax_floor_earliest (ps : Matrix α) (i hm j : Int) :
    0 ≤ (slidingMax ps i hm j).1 ∧
    (∀ k, hm ≤ k → k ≤ j → ps.data k i ≤ (slidingMax ps i hm j).1) ∧
    ((slidingMax ps i hm j = (0, (hm : α)) ∧ ∀ k, hm ≤ k → k ≤ j → ps.data k i ≤ 0) ∨
      (0 < (slidingMax ps i hm j).1 ∧ ∃ f : Int, hm ≤ f ∧ f ≤ j ∧
        slidingMax ps i hm j = (ps.data f i, (f : α)) ∧
        ∀ k, hm ≤ k → k < f → ps.data k i < ps.data f i)) := by
  have key : ∀ n : Nat,
      0 ≤ ((loopRange hm (hm + n)).foldl (fun (p : α × α) k =>
        if p.1 < ps.data k i then (ps.data k i, (k : α)) else p) (0, (hm : α))).1 ∧
      (∀ k, hm ≤ k → k < hm + n → ps.data k i ≤
        ((loopRange hm (hm + n)).foldl (fun (p : α × α) k =>
          if p.1 < ps.data k i then (ps.data k i, (k : α)) else p) (0, (hm : α))).1) ∧
      (((loopRange hm (hm + n)).foldl (fun (p : α × α) k =>
          if p.1 < ps.data k i then (ps.data k i, (k : α)) else p) (0, (hm : α)) = (0, (hm : α)) ∧
          ∀ k, hm ≤ k → k < hm + n → ps.data k i ≤ 0) ∨
        (0 < ((loopRange hm (hm + n)).foldl (fun (p : α × α) k =>
          if p.1 < ps.data k i then (ps.data k i, (k : α)) else p) (0, (hm : α))).1 ∧
          ∃ f : Int, hm ≤ f ∧ f < hm + n ∧
          (loopRange hm (hm + n)).foldl (fun (p : α × α) k =>
            if p.1 < ps.data k i then (ps.data k i, (k : α)) else p) (0, (hm : α)) =
            (ps.data f i, (f : α)) ∧
          ∀ k, hm ≤ k → k < f → ps.data k i < ps.data f i)) := by
    intro n
    induction n with
    | zero =>
      simp only [Nat.cast_zero, add_zero, loopRange_eq_nil (le_refl hm), List.foldl_nil]
      exact ⟨le_refl 0, fun k h1 h2 => by omega, Or.inl ⟨trivial, fun k h1 h2 => by omega⟩⟩
    | succ n ih =>
      have e : hm + ((n + 1 : Nat) : Int) = (hm + (n : Int)) + 1 := by push_cast; ring
      rw [e, loopRange_succ_right (by omega), List.foldl_append]
      generalize (loopRange hm (hm + n)).foldl (fun (p : α × α) k =>
        if p.1 < ps.data k i then (ps.data k i, (k : α)) else p) (0, (hm : α)) = r at ih ⊢
      obtain ⟨h0, hle, hcase⟩ := ih
      simp only [List.foldl_cons, List.foldl_nil]
      by_cases hlt : r.1 < ps.data (hm + n) i
      · rw [if_pos hlt]
        have hpos : 0 < ps.data (hm + n) i := lt_of_le_of_lt h0 hlt
        refine ⟨le_of_lt hpos, ?_, Or.inr ⟨hpos, hm + n, by omega, by omega, rfl, ?_⟩⟩
        · intro k hk1 hk2
          by_cases hk : k = hm + n
          · rw [hk]
          · exact le_of_lt (lt_of_le_of_lt (hle k hk1 (by omega)) hlt)
        · intro k hk1 hk2
          exact lt_of_le_of_lt (hle k hk1 hk2) hlt
      · rw [if_neg hlt]
        have hge : ps.data (hm + n) i ≤ r.1 := not_lt.1 hlt
        refine ⟨h0, ?_, ?_⟩
        · intro k hk1 hk2
          by_cases hk : k = hm + n
          · rw [hk]; exact hge
          · exact hle k hk1 (by omega)
        · rcases hcase with ⟨hr, hz⟩ | ⟨hp, f, hf1, hf2, hr, hfirst⟩
          · refine Or.inl ⟨hr, ?_⟩
            intro k hk1 hk2
            by_cases hk : k = hm + n
            · rw [hk]
              rw [hr] at hge
              exact hge
            · exact hz k hk1 (by omega)
          · exact Or.inr ⟨hp, f, hf1, by omega, hr, hfirst⟩
  unfold slidingMax
  by_cases hwin : hm ≤ j + 1
  · obtain ⟨h0, hle, hcase⟩ := key (j + 1 - hm).toNat
    have e : hm + (((j + 1 - hm).toNat : Nat) : Int) = j + 1 := by omega
    rw [e] at h0 hle hcase
    refine ⟨h0, fun k h1 h2 => hle k h1 (by omega), ?_⟩
    rcases hcase with ⟨hr, hz⟩ | ⟨hp, f, hf1, hf2, hr, hfirst⟩
    · exact Or.inl ⟨hr, fun k h1 h2 => hz k h1 (by omega)⟩
    · exact Or.inr ⟨hp, f, hf1, by omega, hr, hfirst⟩
  · rw [loopRange_eq_nil (by omega)]
    simp only [List.foldl_nil]
    exact ⟨le_refl 0, fun k h1 h2 => by omega, Or.inl ⟨trivial, fun k h1 h2 => by omega⟩⟩

theorem Resize_NumRows (kws : Kws α) (undef : Int → Int → α) (mat : Matrix α) (v n : Int) :
    (Resize kws undef mat v n).NumRows =
      if mat.NumRows < v + n then mat.NumRows + max n kws.MATRIX_INC_STEP else mat.NumRows := by
  simp only [Resize]
  split_ifs <;> first | rfl | omega | (simp only [Matrix.CopyRowRange]; omega)

/-- The capacity and the count after `i` single-frame appends, for a positive step `s`. -/
theorem appendOneByOne_inv (kws : Kws α) (undef : Int → Int → α) (cols : Int) (s : Nat)
    (hs : 1 ≤ s) (hS : kws.MATRIX_INC_STEP = (s : Int)) (i : Nat) :
    (appendOneByOne kws undef cols i).1.NumRows =
      ((s * ((appendOneByOne kws undef cols i).2 + 1) : Nat) : Int) ∧
    ((i = 0 ∧ (appendOneByOne kws undef cols i).2 = 0) ∨
      (s * (appendOneByOne kws undef cols i).2 < i ∧
        i ≤ s * ((appendOneByOne kws undef cols i).2 + 1))) := by
  induction i with
  | zero => simp [appendOneByOne, Matrix.zero, hS]
  | succ i ih =>
    obtain ⟨h1, h2⟩ := ih
    simp only [appendOneByOne, reallocates, decide_eq_true_eq, Resize_NumRows, hS]
    generalize (appendOneByOne kws undef cols i).2 = c at h1 h2 ⊢
    generalize (appendOneByOne kws undef cols i).1.NumRows = rows at h1 ⊢
    have e1 : s * (c + 1) = s * c + s := by ring
    have e2 : s * (c + 1 + 1) = s * c + s + s := by ring
    rw [e1] at h1 h2
    subst h1
    have h2b : s * c < i + 1 ∧ i ≤ s * c + s := by
      rcases h2 with ⟨hi, hc⟩ | h
      · subst hi hc
        simp
      · omega
    clear h2
    by_cases hr : ((s * c + s : Nat) : Int) < (i : Int) + 1
    · rw [if_pos hr, if_pos hr]
      have hr2 : s * c + s < i + 1 := by exact_mod_cast hr
      refine ⟨?_, Or.inr ?_⟩
      · rw [e2]
        clear e1 e2
        push_cast
        omega
      · rw [e2, e1]
        clear e1 e2
        omega
    · rw [if_neg hr, if_neg hr]
      have hr2 : ¬ s * c + s < i + 1 := by exact_mod_cast hr
      refine ⟨?_, Or.inr ?_⟩
      · rw [e1]
      · rw [e1]
        clear e1 e2
        omega

theorem appendOneByOne_count (kws : Kws α) (undef : Int → Int → α) (cols : Int) (s : Nat)
    (hs : 1 ≤ s) (hS : kws.MATRIX_INC_STEP = (s : Int)) (N : Nat) :
    (appendOneByOne kws undef cols N).2 = (N - 1) / s := by
  obtain ⟨-, h2⟩ := appendOneByOne_inv kws undef cols s hs hS N
  rcases h2 with ⟨h0, hc⟩ | ⟨h3, h4⟩
  · subst h0
    simp [hc]
  · symm
    apply Nat.div_eq_of_lt_le
    · rw [Nat.mul_comm]; omega
    · rw [Nat.succ_mul, Nat.mul_comm]
      have e1 : s * ((appendOneByOne kws undef cols N).2 + 1) =
          s * (appendOneByOne kws undef cols N).2 + s := by ring
      omega

/-- Claim C11, as the code has it: starting from a table of `MATRIX_INC_STEP ≥ 1`
rows and appending `N` frames one at a time (`Resize(buffer, i, 1)` for
`i = 0 .. N-1`), the number of calls that allocate is exactly
`(N - 1) / MATRIX_INC_STEP` (one for every `MATRIX_INC_STEP` frames, so at most
`N / MATRIX_INC_STEP`: linear in `N`), and the table then has
`MATRIX_INC_STEP * (count + 1)` rows. -/
theorem append_realloc_count (kws : Kws α) (undef : Int → Int → α) (cols : Int) (N : Nat)
    (hS : 1 ≤ kws.MATRIX_INC_STEP) :
    (appendOneByOne kws undef cols N).2 = (N - 1) / kws.MATRIX_INC_STEP.toNat ∧
    (appendOneByOne kws undef cols N).2 ≤ N / kws.MATRIX_INC_STEP.toNat ∧
    (appendOneByOne kws undef cols N).1.NumRows =
      kws.MATRIX_INC_STEP * (((appendOneByOne kws undef cols N).2 : Int) + 1) := by
  have hs : 1 ≤ kws.MATRIX_INC_STEP.toNat := by omega
  have hSe : kws.MATRIX_INC_STEP = ((kws.MATRIX_INC_STEP.toNat : Nat) : Int) := by omega
  have hc := appendOneByOne_count kws undef cols _ hs hSe N
  refine ⟨hc, ?_, ?_⟩
  · rw [hc]
    exact Nat.div_le_div_right (Nat.sub_le N 1)
  · have h1 := (appendOneByOne_inv kws undef cols _ hs hSe N).1
    rw [h1]
    push_cast
    rw [← hSe]

/-- Claim C11, as the code has it, for a step of 4 and 9 appended frames: two
calls allocate. -/
theorem append_realloc_count_witness :
    1 ≤ (exKws ℚ (fun x _ => x)).MATRIX_INC_STEP ∧
    (appendOneByOne (exKws ℚ (fun x _ => x)) (exUndef ℚ) 3 9).2 =
      (9 - 1) / (exKws ℚ (fun x _ => x)).MATRIX_INC_STEP.toNat ∧
    (appendOneByOne (exKws ℚ (fun x _ => x)) (exUndef ℚ) 3 9).2 = 2 :=
  ⟨by decide,
    (append_realloc_count (exKws ℚ (fun x _ => x)) (exUndef ℚ) 3 9 (by decide)).1,
    by decide!⟩

theorem two_pow_beats_linear (M : Nat) : M * (2 * M + 2) + 2 ≤ 2 ^ (2 * M + 1) := by
  have h1 : M + 1 ≤ 2 ^ M := Nat.lt_two_pow M
  have h2 : 2 ^ (2 * M + 1) = 2 * (2 ^ M * 2 ^ M) := by ring
  have h3 : (M + 1) * (M + 1) ≤ 2 ^ M * 2 ^ M := Nat.mul_le_mul h1 h1
  rw [h2]
  nlinarith

/-- Claim C11 as stated fails: for no step `s ≥ 1` and no constant `C` is the
number of allocating calls at most `C * ⌈log2 N⌉` for every `N ≥ 2`. -/
theorem append_realloc_not_logarithmic :
    ¬ ∃ s C : Nat, 1 ≤ s ∧ ∀ N : Nat, 2 ≤ N →
      (appendOneByOne { exKws ℚ (fun x _ => x) with MATRIX_INC_STEP := (s : Int) }
        (exUndef ℚ) 3 N).2 ≤ C * Nat.clog 2 N := by
  rintro ⟨s, C, hs, h⟩
  have hN : 2 ≤ 2 ^ (2 * (s * (C + 1)) + 1) := by
    calc 2 = 2 ^ 1 := by norm_num
      _ ≤ 2 ^ (2 * (s * (C + 1)) + 1) := Nat.pow_le_pow_right (by norm_num) (by omega)
  have h1 := h _ hN
  rw [appendOneByOne_count _ _ _ s hs rfl, Nat.clog_pow 2 _ (by norm_num)] at h1
  have h2 := two_pow_beats_linear (s * (C + 1))
  have h3 : C * (2 * (s * (C + 1)) + 1) + 1 ≤ (2 ^ (2 * (s * (C + 1)) + 1) - 1) / s := by
    rw [Nat.le_div_iff_mul_le (by omega)]
    have h4 : (C * (2 * (s * (C + 1)) + 1) + 1) * s + 1 ≤
        s * (C + 1) * (2 * (s * (C + 1)) + 2) + 2 := by
      have : 1 ≤ s * s := Nat.mul_le_mul hs hs
      nlinarith
    omega
  omega

theorem Scored_of_runChunks (kws : Kws α) (P : Int → Int → α) (s0 : State α)
    (chs : List (Chunk α))
    (hids : ∀ kw ∈ kws.keywords_, ∀ c ∈ kw, 0 ≤ c ∧ c < kws.OutputDim) :
    Scored kws P ((((chs.map Chunk.frames).sum : Nat) : Int))
      (runChunks kws P (Reset kws s0) chs) := by
  have h := Scored_runChunks kws P hids chs 0 (Reset kws s0) (le_refl 0) (Scored_Reset kws P s0)
  rw [zero_add] at h
  exact h

/-- With a smoothing window of 1 and the single class `c`, the smoothed value of
frame `j ≥ 0` is the posterior of `c` at `j`. -/
theorem smoothEntry_window_one (kws : Kws α) (A : Matrix α) (c j : Int)
    (hkw : kws.keywords_ = [[c]]) (hWs : kws.smooth_window = 1) (hj : 0 ≤ j) :
    smoothEntry kws A j 1 = A.data j c := by
  have hs : smoothStart kws j = j := by
    unfold smoothStart
    rw [hWs]
    split_ifs <;> omega
  unfold smoothEntry
  simp only [hs, smoothSum_eq_sum, Finset.Icc_self, Finset.sum_singleton, Kws.keyword, hkw]
  simp

/-- With a sliding window of 1, the window maximum of frame `j ≥ 0` is the
smoothed value at `j` floored at 0. -/
theorem slidingMax_window_one (kws : Kws α) (ps : Matrix α) (i j : Int)
    (hWm : kws.sliding_window = 1) (hj : 0 ≤ j) :
    slidingMax ps i (maxStart kws j) j =
      if 0 < ps.data j i then (ps.data j i, (j : α)) else (0, (j : α)) := by
  have hm : maxStart kws j = j := by
    unfold maxStart
    rw [hWm]
    split_ifs <;> omega
  rw [hm]
  unfold slidingMax
  rw [loopRange_succ_right (le_refl j), loopRange_eq_nil (le_refl j)]
  simp

/-- Claim C12 (single keyword, windows of 1): with `K = 1`, the keyword made of
one class `c` of the classifier output, `smooth_window = sliding_window = 1`,
`pow x 1 = x`, and non-negative posteriors of `c` on the `N` frames scored since
`Reset` (in any batches), every frame `j < N` has `post_smooth_(j,1) = p[j]` and
combined score `confidence_(j,0) = p[j]`, and the flag is 1 exactly when some
frame `i < N` has `p[i] ≥ wakeup_threshold`. -/
theorem single_keyword_identity (kws : Kws α) (P : Int → Int → α) (s0 : State α)
    (chs : List (Chunk α)) (c : Int)
    (hkw : kws.keywords_ = [[c]]) (hc : 0 ≤ c ∧ c < kws.OutputDim)
    (hWs : kws.smooth_window = 1) (hWm : kws.sliding_window = 1)
    (hP : ∀ f : Int, 0 ≤ f → f < (((chs.map Chunk.frames).sum : Nat) : Int) → 0 ≤ P f c)
    (hpow : ∀ x, kws.pow x 1 = x) :
    (∀ j : Int, 0 ≤ j → j < (((chs.map Chunk.frames).sum : Nat) : Int) →
      (runChunks kws P (Reset kws s0) chs).post_smooth_.data j 1 = P j c ∧
      (runChunks kws P (Reset kws s0) chs).confidence_.data j 0 = P j c) ∧
    ((runChunks kws P (Reset kws s0) chs).iswakeup_ = 1 ↔
      ∃ i : Int, 0 ≤ i ∧ i < (((chs.map Chunk.frames).sum : Nat) : Int) ∧
        kws.wakeup_threshold ≤ P i c) := by
  have hids : ∀ kw ∈ kws.keywords_, ∀ m ∈ kw, 0 ≤ m ∧ m < kws.OutputDim := by
    intro kw hk m hm
    rw [hkw, List.mem_singleton] at hk
    subst hk
    rw [List.mem_singleton] at hm
    subst hm
    exact hc
  have hsc := Scored_of_runChunks kws P s0 chs hids
  have hcols : kws.cols = 2 := by simp [Kws.cols, hkw]
  have hsm : ∀ j : Int, 0 ≤ j → (streamSmooth kws P).data j 1 = P j c :=
    fun j hj => smoothEntry_window_one kws ⟨0, 0, P⟩ c j hkw hWs hj
  have hcomb : ∀ j : Int, 0 ≤ j → j < (((chs.map Chunk.frames).sum : Nat) : Int) →
      confEntry kws (streamSmooth kws P) j 0 = P j c := by
    intro j hj hjN
    have hmax : winMax kws (streamSmooth kws P) j 1 = P j c := by
      unfold winMax
      rw [slidingMax_window_one kws _ 1 j hWm hj, hsm j hj]
      split_ifs with h
      · rfl
      · exact le_antisymm (hP j hj hjN) (not_lt.1 h) |>.symm ▸ rfl
    unfold confEntry
    rw [if_neg (by omega), if_pos rfl]
    have hl : loopRange 1 2 = [1] := by
      rw [loopRange_cons (by omega), loopRange_eq_nil (by omega)]
    simp only [mulAll, hcols, hl, List.map_cons, List.map_nil, List.prod_cons, List.prod_nil, hmax,
      hcols]
    norm_num
    exact hpow _
  refine ⟨?_, ?_⟩
  · intro j hj0 hj
    constructor
    · rw [hsc.smooth_rows j 1 hj0 hj (by omega) (by omega), hsm j hj0]
    · rw [hsc.confidence_rows j 0 hj0 hj (by omega) (by omega), hcomb j hj0 hj]
  · rw [hsc.woken, foldl_wakeStep_one]
    constructor
    · rintro (h | ⟨j, hj, hw⟩)
      · omega
      · rw [mem_loopRange] at hj
        rw [frameWakes_iff, hcomb j hj.1 hj.2] at hw
        exact ⟨j, hj.1, hj.2, hw.1⟩
    · rintro ⟨i, hi0, hi, ht⟩
      refine Or.inr ⟨i, mem_loopRange.2 ⟨hi0, hi⟩, ?_⟩
      rw [frameWakes_iff, hcomb i hi0 hi]
      exact ⟨ht, fun k hk1 hk2 => by omega⟩

theorem oneStream_nonneg (f : Int) : 0 ≤ oneStream f 0 := by
  unfold oneStream
  split_ifs <;> norm_num

/-- Claim C12 on the posteriors 0.1, 0.9, 0.2 with threshold 0.5, one frame per
batch: the smoothed and the combined values are 0.1, 0.9, 0.2, and the flag is
0 after frame 0, 1 after frame 1 and 1 after frame 2. -/
theorem single_keyword_identity_witness :
    (oneKws.keywords_ = [[0]] ∧ oneKws.smooth_window = 1 ∧ oneKws.sliding_window = 1 ∧
      ∀ x : ℚ, oneKws.pow x 1 = x) ∧
    ((runChunks oneKws oneStream (Reset oneKws (exState ℚ))
        [oneFrame, oneFrame, oneFrame]).iswakeup_ = 1 ↔
      ∃ i : Int, 0 ≤ i ∧ i < ((([oneFrame, oneFrame, oneFrame].map Chunk.frames).sum : Nat) : Int) ∧
        oneKws.wakeup_threshold ≤ oneStream i 0) ∧
    ((List.range 3).map (fun j : Nat =>
      (runChunks oneKws oneStream (Reset oneKws (exState ℚ))
        [oneFrame, oneFrame, oneFrame]).post_smooth_.data j 1)) = [1 / 10, 9 / 10, 2 / 10] ∧
    ((List.range 3).map (fun j : Nat =>
      (runChunks oneKws oneStream (Reset oneKws (exState ℚ))
        [oneFrame, oneFrame, oneFrame]).confidence_.data j 0)) = [1 / 10, 9 / 10, 2 / 10] ∧
    (runChunks oneKws oneStream (Reset oneKws (exState ℚ)) [oneFrame]).iswakeup_ = 0 ∧
    (runChunks oneKws oneStream (Reset oneKws (exState ℚ)) [oneFrame, oneFrame]).iswakeup_ = 1 ∧
    (runChunks oneKws oneStream (Reset oneKws (exState ℚ))
      [oneFrame, oneFrame, oneFrame]).iswakeup_ = 1 :=
  ⟨⟨rfl, rfl, rfl, fun _ => rfl⟩,
    (single_keyword_identity oneKws oneStream (exState ℚ) [oneFrame, oneFrame, oneFrame] 0
      rfl (by decide) rfl rfl (fun f _ _ => oneStream_nonneg f) (fun _ => rfl)).2,
    by decide!, by decide!, by decide!, by decide!, by decide!⟩

/-- A first positive peak of the window is the stored pair `(max, maxid)`. -/
theorem slidingMax_of_FirstPeak (kws : Kws α) (ps : Matrix α) (j i a : Int)
    (h : FirstPeak kws ps j i a) :
    slidingMax ps i (maxStart kws j) j = (ps.data a i, (a : α)) := by
  obtain ⟨ha1, ha2, hpos, hbefore, hafter⟩ := h
  obtain ⟨-, hle, hcase⟩ := slidingMax_floor_earliest ps i (maxStart kws j) j
  rcases hcase with ⟨-, hz⟩ | ⟨-, f, hf1, hf2, hr, hfirst⟩
  · exact absurd hpos (not_lt.2 (hz a ha1 ha2))
  · have hbound := hle a ha1 ha2
    rw [hr] at hbound
    simp only at hbound
    rcases lt_trichotomy f a with hlt | heq | hgt
    · exact absurd (hbefore f (mem_loopRange.2 ⟨hf1, hlt⟩)) (not_lt.2 hbound)
    · rw [hr, heq]
    · have h1 := hfirst a ha1 hgt
      have h2 := hafter f (mem_loopRange.2 ⟨by omega, by omega⟩)
      exact absurd h1 (not_lt.2 h2)

theorem foldl_wakeStep_of_false (kws : Kws α) (ps : Matrix α) (L : List Int) (w : Int)
    (h : ∀ j ∈ L, frameWakes kws ps j = false) : L.foldl (wakeStep kws ps) w = w := by
  induction L generalizing w with
  | nil => rfl
  | cons j L ih =>
    rw [List.foldl_cons, ih _ (fun k hk => h k (List.mem_cons_of_mem j hk))]
    unfold wakeStep
    rw [h j (List.mem_cons_self j L)]
    simp

/-- Claim C13, as the code has it: with `K = 2` (and any `word_interval`, windows
and threshold), a newly scored frame `j` in whose max-window keyword 1 has its
positive maximum first at frame 10 and keyword 2 at frame 3 stores the argmax
frames 10 and 3 and is order-invalid; and a pass all of whose new frames are such
frames returns the flag as it was, whatever the combined scores. -/
theorem out_of_order_peaks (kws : Kws α) (undef1 undef2 : Int → Int → α) (s : State α)
    (hK : kws.keywords_.length = 2) :
    (∀ j : Int, s.post_offset_ ≤ j → j < s.frame_offset_ →
      FirstPeak kws (isWakeUp kws undef1 undef2 s).1.post_smooth_ j 1 10 →
      FirstPeak kws (isWakeUp kws undef1 undef2 s).1.post_smooth_ j 2 3 →
      (isWakeUp kws undef1 undef2 s).1.confidence_.data j 3 = 10 ∧
      (isWakeUp kws undef1 undef2 s).1.confidence_.data j 5 = 3 ∧
      orderFlag (isWakeUp kws undef1 undef2 s).1.confidence_ kws.word_interval j
        (loopRange 2 kws.cols) = false) ∧
    ((∀ j : Int, s.post_offset_ ≤ j → j < s.frame_offset_ →
        FirstPeak kws (isWakeUp kws undef1 undef2 s).1.post_smooth_ j 1 10 ∧
        FirstPeak kws (isWakeUp kws undef1 undef2 s).1.post_smooth_ j 2 3) →
      (isWakeUp kws undef1 undef2 s).2 = s.iswakeup_) := by
  have hcols : kws.cols = 3 := by simp [Kws.cols, hK]
  have hargs : ∀ j : Int, s.post_offset_ ≤ j → j < s.frame_offset_ →
      FirstPeak kws (isWakeUp kws undef1 undef2 s).1.post_smooth_ j 1 10 →
      FirstPeak kws (isWakeUp kws undef1 undef2 s).1.post_smooth_ j 2 3 →
      confEntry kws (isWakeUp kws undef1 undef2 s).1.post_smooth_ j 3 = 10 ∧
      confEntry kws (isWakeUp kws undef1 undef2 s).1.post_smooth_ j 5 = 3 := by
    intro j _ _ h1 h2
    have e3 := confEntry_arg kws (isWakeUp kws undef1 undef2 s).1.post_smooth_ j 1 (le_refl 1)
    have e5 := confEntry_arg kws (isWakeUp kws undef1 undef2 s).1.post_smooth_ j 2 (by omega)
    norm_num at e3 e5
    rw [e3, e5]
    unfold winArg
    rw [slidingMax_of_FirstPeak kws _ j 1 10 h1, slidingMax_of_FirstPeak kws _ j 2 3 h2]
    norm_num
  have hframe : ∀ j : Int, s.post_offset_ ≤ j → j < s.frame_offset_ →
      FirstPeak kws (isWakeUp kws undef1 undef2 s).1.post_smooth_ j 1 10 →
      FirstPeak kws (isWakeUp kws undef1 undef2 s).1.post_smooth_ j 2 3 →
      frameWakes kws (isWakeUp kws undef1 undef2 s).1.post_smooth_ j = false := by
    intro j hj1 hj2 h1 h2
    obtain ⟨e3, e5⟩ := hargs j hj1 hj2 h1 h2
    cases hw : frameWakes kws (isWakeUp kws undef1 undef2 s).1.post_smooth_ j
    · rfl
    · have h3 := ((frameWakes_iff kws _ j).1 hw).2 2 (le_refl 2) (by omega)
      norm_num at h3
      rw [e3, e5] at h3
      norm_num at h3
  refine ⟨?_, ?_⟩
  · intro j hj1 hj2 h1 h2
    obtain ⟨e3, e5⟩ := hargs j hj1 hj2 h1 h2
    refine ⟨?_, ?_, ?_⟩
    · rw [isWakeUp_conf_new kws undef1 undef2 s j 3 hj1 hj2 (by omega) (by omega), e3]
    · rw [isWakeUp_conf_new kws undef1 undef2 s j 5 hj1 hj2 (by omega) (by omega), e5]
    · have hw := hframe j hj1 hj2 h1 h2
      by_contra hne
      have htrue : orderFlag (isWakeUp kws undef1 undef2 s).1.confidence_ kws.word_interval j
          (loopRange 2 kws.cols) = true := by
        cases h : orderFlag (isWakeUp kws undef1 undef2 s).1.confidence_ kws.word_interval j
          (loopRange 2 kws.cols)
        · exact absurd h hne
        · rfl
      have h3 := (orderFlag_iff _ _ _ _).1 htrue 2 (mem_loopRange.2 ⟨le_refl 2, by omega⟩)
      norm_num at h3
      rw [isWakeUp_conf_new kws undef1 undef2 s j 5 hj1 hj2 (by omega) (by omega),
        isWakeUp_conf_new kws undef1 undef2 s j 3 hj1 hj2 (by omega) (by omega), e3, e5] at h3
      have h4 : truncToInt ((3 : α) - 10) = -7 := by
        have := truncToInt_intCast (α := α) (-7)
        norm_num at this ⊢
        exact this
      rw [h4] at h3
      omega
  · intro hall
    by_cases hn : s.post_offset_ < s.frame_offset_
    · have hall2 : ∀ j ∈ loopRange s.post_offset_ s.frame_offset_,
          frameWakes kws (isWakeUp kws undef1 undef2 s).1.post_smooth_ j = false := by
        intro j hj
        rw [mem_loopRange] at hj
        exact hframe j hj.1 hj.2 (hall j hj.1 hj.2).1 (hall j hj.1 hj.2).2
      rw [isWakeUp_eq kws undef1 undef2 s hn _ _ rfl rfl] at hall2 ⊢
      exact foldl_wakeStep_of_false kws _ _ _ hall2
    · rw [isWakeUp_noop kws undef1 undef2 s (by omega)]

/-- Claim C13 as stated fails: with `K = 2` and `word_interval = 5`, on a stream
whose smoothed keyword 1 has its maximum over the stream at frame 10 and whose
smoothed keyword 2 has it at frame 3, frame 3 stores the argmax frames 2 and 3,
is order-valid, and `isWakeUp` returns 1.  On every frame the stored combined
score is the non-negative square root of the product of the two maxima. -/
theorem out_of_order_peaks_can_wake :
    peakKws.keywords_.length = 2 ∧ peakKws.word_interval = 5 ∧
    (∀ f ∈ loopRange 0 11,
      (isWakeUp peakKws (exUndef ℚ) (exUndef ℚ) peakState).1.post_smooth_.data f 1 ≤
        (isWakeUp peakKws (exUndef ℚ) (exUndef ℚ) peakState).1.post_smooth_.data 10 1) ∧
    (∀ f ∈ loopRange 0 11,
      (isWakeUp peakKws (exUndef ℚ) (exUndef ℚ) peakState).1.post_smooth_.data f 2 ≤
        (isWakeUp peakKws (exUndef ℚ) (exUndef ℚ) peakState).1.post_smooth_.data 3 2) ∧
    (∀ j ∈ loopRange 0 11,
      0 ≤ (isWakeUp peakKws (exUndef ℚ) (exUndef ℚ) peakState).1.confidence_.data j 0 ∧
      (isWakeUp peakKws (exUndef ℚ) (exUndef ℚ) peakState).1.confidence_.data j 0 ^ 2 =
        (isWakeUp peakKws (exUndef ℚ) (exUndef ℚ) peakState).1.confidence_.data j 2 *
          (isWakeUp peakKws (exUndef ℚ) (exUndef ℚ) peakState).1.confidence_.data j 4) ∧
    (isWakeUp peakKws (exUndef ℚ) (exUndef ℚ) peakState).1.confidence_.data 3 3 = 2 ∧
    (isWakeUp peakKws (exUndef ℚ) (exUndef ℚ) peakState).1.confidence_.data 3 5 = 3 ∧
    orderFlag (isWakeUp peakKws (exUndef ℚ) (exUndef ℚ) peakState).1.confidence_
      peakKws.word_interval 3 (loopRange 2 peakKws.cols) = true ∧
    (isWakeUp peakKws (exUndef ℚ) (exUndef ℚ) peakState).2 = 1 := by
  decide!

/-- Claim C13, as the code has it, at frame 10 of the same stream. -/
theorem out_of_order_peaks_witness :
    peakKws.keywords_.length = 2 ∧
    FirstPeak peakKws (isWakeUp peakKws (exUndef ℚ) (exUndef ℚ) peakState).1.post_smooth_
      10 1 10 ∧
    FirstPeak peakKws (isWakeUp peakKws (exUndef ℚ) (exUndef ℚ) peakState).1.post_smooth_
      10 2 3 ∧
    orderFlag (isWakeUp peakKws (exUndef ℚ) (exUndef ℚ) peakState).1.confidence_
      peakKws.word_interval 10 (loopRange 2 peakKws.cols) = false :=
  ⟨rfl, by unfold FirstPeak; decide!, by unfold FirstPeak; decide!,
    ((out_of_order_peaks peakKws (exUndef ℚ) (exUndef ℚ) peakState rfl).1 10
      (by decide) (by decide) (by unfold FirstPeak; decide!)
      (by unfold FirstPeak; decide!)).2.2⟩

theorem FeedData_cursors (kws : Kws α) (env : FeedEnv α) (data : Int → α) (nbytes : Int)
    (state : FeatState) (s : State α) (h : CursorInv s)
    (hready : 0 ≤ nbytes → s.frame_ready_ ≤ env.NumFramesReady) :
    CursorInv (FeedData kws env data nbytes state s).1 := by
  obtain ⟨h1, h2⟩ := h
  unfold CursorInv
  simp only [FeedData, storePosterior]
  by_cases hn : nbytes ≥ 0
  · have hr := hready hn
    rw [if_pos hn]
    split_ifs <;> simp only <;> omega
  · rw [if_neg hn]
    split_ifs <;> simp only <;> omega

theorem isWakeUp_cursor_fields (kws : Kws α) (undef1 undef2 : Int → Int → α) (s : State α) :
    (isWakeUp kws undef1 undef2 s).1.frame_offset_ = s.frame_offset_ ∧
    (isWakeUp kws undef1 undef2 s).1.frame_ready_ = s.frame_ready_ ∧
    (isWakeUp kws undef1 undef2 s).1.post_offset_ = max s.post_offset_ s.frame_offset_ := by
  by_cases hn : s.post_offset_ < s.frame_offset_
  · rw [isWakeUp_eq kws undef1 undef2 s hn _ _ rfl rfl]
    refine ⟨rfl, rfl, ?_⟩
    show s.frame_offset_ = max s.post_offset_ s.frame_offset_
    omega
  · rw [isWakeUp_noop kws undef1 undef2 s (by omega)]
    refine ⟨rfl, rfl, ?_⟩
    show s.post_offset_ = max s.post_offset_ s.frame_offset_
    omega

theorem isWakeUp_CursorInv (kws : Kws α) (undef1 undef2 : Int → Int → α) (s : State α)
    (h : CursorInv s) :
    CursorInv (isWakeUp kws undef1 undef2 s).1 ∧
    (isWakeUp kws undef1 undef2 s).1.post_offset_ =
      (isWakeUp kws undef1 undef2 s).1.frame_offset_ := by
  obtain ⟨h1, h2⟩ := h
  obtain ⟨e1, e2, e3⟩ := isWakeUp_cursor_fields kws undef1 undef2 s
  unfold CursorInv
  rw [e1, e2, e3]
  omega

/-- Claim C14 (cursor invariant): `post_offset_ ≤ frame_offset_ ≤ frame_ready_`
holds after `Reset`, is kept by every `FeedData` call (any `nbytes`, any chunk
state) in which the pipeline's frame count does not decrease, and by every
`isWakeUp` call, after which `post_offset_ = frame_offset_`; so it holds after
every sequence of calls following `Reset` along which the frame count never
decreases. -/
theorem cursor_invariant (kws : Kws α) (s0 : State α) :
    CursorInv (Reset kws s0) ∧
    (∀ (s : State α) (env : FeedEnv α) (data : Int → α) (nbytes : Int) (state : FeatState),
      CursorInv s → (0 ≤ nbytes → s.frame_ready_ ≤ env.NumFramesReady) →
      CursorInv (FeedData kws env data nbytes state s).1) ∧
    (∀ (s : State α) (undef1 undef2 : Int → Int → α), CursorInv s →
      CursorInv (isWakeUp kws undef1 undef2 s).1 ∧
      (isWakeUp kws undef1 undef2 s).1.post_offset_ =
        (isWakeUp kws undef1 undef2 s).1.frame_offset_) ∧
    (∀ cs : List (Call α), readyMonotone kws (Reset kws s0) cs →
      CursorInv (runCalls kws (Reset kws s0) cs)) := by
  have hreset : CursorInv (Reset kws s0) := ⟨le_refl _, le_refl _⟩
  refine ⟨hreset,
    fun s env data nbytes state h hr => FeedData_cursors kws env data nbytes state s h hr,
    fun s undef1 undef2 h => isWakeUp_CursorInv kws undef1 undef2 s h, ?_⟩
  have key : ∀ (cs : List (Call α)) (s : State α), CursorInv s → readyMonotone kws s cs →
      CursorInv (runCalls kws s cs) := by
    intro cs
    induction cs with
    | nil => intro s h _; exact h
    | cons c cs ih =>
      intro s h hm
      cases c with
      | FeedData env data nbytes state =>
        simp only [runCalls, readyMonotone] at hm ⊢
        exact ih _ (FeedData_cursors kws env data nbytes state s h hm.1) hm.2
      | isWakeUp undef1 undef2 =>
        simp only [runCalls, readyMonotone] at hm ⊢
        exact ih _ (isWakeUp_CursorInv kws undef1 undef2 s h).1 hm
  exact fun cs hm => key cs _ hreset hm

theorem forgetBuffers_isWakeUp (kws : Kws α) (undef1 undef2 : Int → Int → α) (a : State α)
    (w : Vector α) (m : Matrix α) :
    forgetBuffers (isWakeUp kws undef1 undef2 { a with wav_buffer_ := w, nnet_out_ := m }).1 =
      forgetBuffers (isWakeUp kws undef1 undef2 a).1 := by
  by_cases hn : a.post_offset_ < a.frame_offset_
  · rw [isWakeUp_eq kws undef1 undef2 a hn _ _ rfl rfl,
      isWakeUp_eq kws undef1 undef2 { a with wav_buffer_ := w, nnet_out_ := m } hn _ _ rfl rfl]
    rfl
  · rw [isWakeUp_noop kws undef1 undef2 a (by omega),
      isWakeUp_noop kws undef1 undef2 { a with wav_buffer_ := w, nnet_out_ := m }
        (by simp only; omega)]
    rfl

theorem forgetBuffers_scoreChunk (kws : Kws α) (P : Int → Int → α) (s : State α)
    (ch : Chunk α) :
    forgetBuffers (scoreChunk kws P s ch) =
      forgetBuffers (scoreChunk kws P (forgetBuffers s) ch) := by
  rw [scoreChunk_eq, scoreChunk_eq]
  by_cases hm : (ch.frames : Int) = 0
  · rw [if_pos hm, if_pos hm]
    exact (forgetBuffers_isWakeUp kws ch.undefSmooth ch.undefConf
      { s with state_ := FeatState.FEAT_APPEND, frame_ready_ := s.frame_offset_ + ch.frames }
      ⟨0, fun _ => 0⟩ (Matrix.zero 0 0)).symm
  · rw [if_neg hm, if_neg hm]
    exact (forgetBuffers_isWakeUp kws ch.undefSmooth ch.undefConf
      { s with
        state_ := FeatState.FEAT_APPEND
        frame_ready_ := s.frame_offset_ + ch.frames
        nnet_out_ := ⟨(ch.frames : Int), kws.OutputDim, fun r c => P (s.frame_offset_ + r) c⟩
        posterior_ :=
          (Resize kws ch.undefPost s.posterior_ s.frame_offset_ ch.frames).CopyRowRange
            s.frame_offset_ ch.frames
            ⟨(ch.frames : Int), kws.OutputDim, fun r c => P (s.frame_offset_ + r) c⟩ 0
        frame_offset_ := s.frame_offset_ + ch.frames }
      ⟨0, fun _ => 0⟩
      ⟨(ch.frames : Int), kws.OutputDim, fun r c => P (s.frame_offset_ + r) c⟩).symm

theorem forgetBuffers_runChunks (kws : Kws α) (P : Int → Int → α) (chs : List (Chunk α))
    (s : State α) :
    forgetBuffers (runChunks kws P s chs) =
      forgetBuffers (runChunks kws P (forgetBuffers s) chs) := by
  induction chs generalizing s with
  | nil => rfl
  | cons ch chs ih =>
    simp only [runChunks, List.foldl_cons] at ih ⊢
    rw [ih (scoreChunk kws P s ch), ih (scoreChunk kws P (forgetBuffers s) ch),
      forgetBuffers_scoreChunk]

/-- Claim C15 (`Reset` starts a fresh session): after `Reset` the cursors
`frame_ready_`, `frame_offset_`, `post_offset_` and `len_` are 0, `iswakeup_`,
`score_` and `wakeup_frame_` are 0, the three tables have `MATRIX_INC_STEP` rows
and `OutputDim`, `K+1` and `2(K+1)` columns; an `isWakeUp` right after `Reset`
returns 0; and the flag, the best score and frame, the three tables and the
cursors after scoring a posterior stream in batches do not depend on the state
`Reset` was called in. -/
theorem Reset_fresh_session (kws : Kws α) (s0 s1 : State α) (P : Int → Int → α)
    (chs : List (Chunk α)) :
    ((Reset kws s0).frame_ready_ = 0 ∧ (Reset kws s0).frame_offset_ = 0 ∧
      (Reset kws s0).post_offset_ = 0 ∧ (Reset kws s0).len_ = 0 ∧
      (Reset kws s0).iswakeup_ = 0 ∧ (Reset kws s0).score_ = 0 ∧
      (Reset kws s0).wakeup_frame_ = 0) ∧
    ((Reset kws s0).posterior_.NumRows = kws.MATRIX_INC_STEP ∧
      (Reset kws s0).posterior_.NumCols = kws.OutputDim ∧
      (Reset kws s0).post_smooth_.NumRows = kws.MATRIX_INC_STEP ∧
      (Reset kws s0).post_smooth_.NumCols = (kws.keywords_.length : Int) + 1 ∧
      (Reset kws s0).confidence_.NumRows = kws.MATRIX_INC_STEP ∧
      (Reset kws s0).confidence_.NumCols = 2 * ((kws.keywords_.length : Int) + 1)) ∧
    (∀ undef1 undef2 : Int → Int → α, (isWakeUp kws undef1 undef2 (Reset kws s0)).2 = 0) ∧
    ((runChunks kws P (Reset kws s0) chs).iswakeup_ =
        (runChunks kws P (Reset kws s1) chs).iswakeup_ ∧
      (runChunks kws P (Reset kws s0) chs).score_ =
        (runChunks kws P (Reset kws s1) chs).score_ ∧
      (runChunks kws P (Reset kws s0) chs).wakeup_frame_ =
        (runChunks kws P (Reset kws s1) chs).wakeup_frame_ ∧
      (runChunks kws P (Reset kws s0) chs).posterior_ =
        (runChunks kws P (Reset kws s1) chs).posterior_ ∧
      (runChunks kws P (Reset kws s0) chs).post_smooth_ =
        (runChunks kws P (Reset kws s1) chs).post_smooth_ ∧
      (runChunks kws P (Reset kws s0) chs).confidence_ =
        (runChunks kws P (Reset kws s1) chs).confidence_ ∧
      (runChunks kws P (Reset kws s0) chs).frame_offset_ =
        (runChunks kws P (Reset kws s1) chs).frame_offset_ ∧
      (runChunks kws P (Reset kws s0) chs).post_offset_ =
        (runChunks kws P (Reset kws s1) chs).post_offset_) := by
  refine ⟨⟨rfl, rfl, rfl, rfl, rfl, rfl, rfl⟩, ⟨rfl, rfl, rfl, rfl, rfl, rfl⟩, ?_, ?_⟩
  · intro undef1 undef2
    rw [isWakeUp_noop kws undef1 undef2 (Reset kws s0) (by simp [Reset])]
    rfl
  · have h : forgetBuffers (runChunks kws P (Reset kws s0) chs) =
        forgetBuffers (runChunks kws P (Reset kws s1) chs) := by
      rw [forgetBuffers_runChunks kws P chs (Reset kws s0),
        forgetBuffers_runChunks kws P chs (Reset kws s1)]
      rfl
    have hi := congrArg State.iswakeup_ h
    have hsc := congrArg State.score_ h
    have hwf := congrArg State.wakeup_frame_ h
    have hp := congrArg State.posterior_ h
    have hps := congrArg State.post_smooth_ h
    have hcf := congrArg State.confidence_ h
    have hfo := congrArg State.frame_offset_ h
    have hpo := congrArg State.post_offset_ h
    exact ⟨hi, hsc, hwf, hp, hps, hcf, hfo, hpo⟩

/-- What `FeedData` does with a negative `nbytes`: only `state_` is assigned, and
the value of the uninitialised local `num_frames` is returned. -/
theorem FeedData_negative (kws : Kws α) (env : FeedEnv α) (data : Int → α) (nbytes : Int)
    (state : FeatState) (s : State α) (h : nbytes < 0) :
    FeedData kws env data nbytes state s = ({ s with state_ := state }, env.num_frames) := by
  simp only [FeedData]
  rw [if_neg (by omega), if_neg (by omega)]

/-- Claim C16 at a failing input: `FeedData` called with `nbytes = -1` assigns
only `state_` (tables and cursors are untouched), but it returns the value its
uninitialised local `num_frames` happens to hold, here 7, which is not `≤ 0`. -/
theorem FeedData_negative_returns_uninitialised :
    (FeedData (exKws ℚ (fun x _ => x))
      { NumFramesReady := 3, nnet_out := Matrix.zero 0 0, undefWav := fun _ => 0,
        undefPost := exUndef ℚ, num_frames := 7 }
      (fun _ => 0) (-1) FeatState.FEAT_APPEND (exState ℚ)).2 = 7 ∧
    ¬ (FeedData (exKws ℚ (fun x _ => x))
      { NumFramesReady := 3, nnet_out := Matrix.zero 0 0, undefWav := fun _ => 0,
        undefPost := exUndef ℚ, num_frames := 7 }
      (fun _ => 0) (-1) FeatState.FEAT_APPEND (exState ℚ)).2 ≤ 0 ∧
    (FeedData (exKws ℚ (fun x _ => x))
      { NumFramesReady := 3, nnet_out := Matrix.zero 0 0, undefWav := fun _ => 0,
        undefPost := exUndef ℚ, num_frames := 7 }
      (fun _ => 0) (-1) FeatState.FEAT_APPEND (exState ℚ)).1 =
      { exState ℚ with state_ := FeatState.FEAT_APPEND } := by
  rw [FeedData_negative _ _ _ _ _ _ (by decide)]
  exact ⟨rfl, by decide, rfl⟩

/-- The sample buffer after a `FeedData` call with `nbytes > 0`: it has
`nbytes/4` elements, the chunk is written at offsets `len_ .. len_ + nbytes/4 - 1`,
and `len_` grows by `nbytes/4`. -/
theorem FeedData_samples (kws : Kws α) (env : FeedEnv α) (data : Int → α) (nbytes : Int)
    (state : FeatState) (s : State α) (h : 0 < nbytes) :
    (FeedData kws env data nbytes state s).1.wav_buffer_.Dim = nbytes / 4 ∧
    (FeedData kws env data nbytes state s).1.len_ = s.len_ + nbytes / 4 ∧
    (∀ i, s.len_ ≤ i → i < s.len_ + nbytes / 4 →
      (FeedData kws env data nbytes state s).1.wav_buffer_.data i = data (i - s.len_)) ∧
    (∀ i, i < s.len_ →
      (FeedData kws env data nbytes state s).1.wav_buffer_.data i = env.undefWav i) := by
  simp only [FeedData, storePosterior]
  rw [if_pos h, if_pos (by omega)]
  split_ifs
  · refine ⟨rfl, rfl, ?_, ?_⟩
    · intro i h1 h2
      simp [h1, h2]
    · intro i h1
      have : ¬ s.len_ ≤ i := by omega
      simp [this]
  · refine ⟨rfl, rfl, ?_, ?_⟩
    · intro i h1 h2
      simp [h1, h2]
    · intro i h1
      have : ¬ s.len_ ≤ i := by omega
      simp [this]

/-- Claim C17 at a failing input: after `Reset` and a first chunk of two samples
`len_` is 2; the second chunk of two samples resizes the buffer to 2 elements
and writes its samples at offsets 2 and 3, outside the buffer
(`len_ + 2 ≤ Dim` fails), while offsets 0 and 1 hold the contents of the fresh
storage. -/
theorem second_chunk_written_outside_buffer :
    afterChunkA.len_ = 2 ∧ afterChunkA.wav_buffer_.Dim = 2 ∧
    afterChunkB.wav_buffer_.Dim = 2 ∧
    ¬ (afterChunkA.len_ + 8 / 4 ≤ afterChunkB.wav_buffer_.Dim) ∧
    afterChunkB.wav_buffer_.data 2 = chunkB 0 ∧
    afterChunkB.wav_buffer_.data 3 = chunkB 1 ∧
    afterChunkB.wav_buffer_.data 0 = quietEnv.undefWav 0 ∧
    afterChunkB.wav_buffer_.data 1 = quietEnv.undefWav 1 ∧
    afterChunkB.len_ = 4 := by
  decide!

/-- The best-score loop over frames `0 .. n-1` from `(0, 0)`: the score is the
largest combined value floored at 0, and the frame is the first one holding a
positive maximum, or 0. -/
theorem foldl_bestStep_spec (kws : Kws α) (ps : Matrix α) (n : Nat) :
    0 ≤ ((loopRange 0 n).foldl (bestStep kws ps) (0, 0)).1 ∧
    (∀ j : Int, 0 ≤ j → j < n →
      confEntry kws ps j 0 ≤ ((loopRange 0 n).foldl (bestStep kws ps) (0, 0)).1) ∧
    (((loopRange 0 n).foldl (bestStep kws ps) (0, 0) = (0, 0)) ∨
      (0 < ((loopRange 0 n).foldl (bestStep kws ps) (0, 0)).1 ∧
        ∃ f : Int, 0 ≤ f ∧ f < n ∧
          (loopRange 0 n).foldl (bestStep kws ps) (0, 0) = (confEntry kws ps f 0, f) ∧
          ∀ j : Int, 0 ≤ j → j < f → confEntry kws ps j 0 < confEntry kws ps f 0)) := by
  induction n with
  | zero =>
    simp only [Nat.cast_zero, loopRange_eq_nil (le_refl (0 : Int)), List.foldl_nil]
    exact ⟨le_refl 0, fun j h1 h2 => by omega, Or.inl trivial⟩
  | succ n ih =>
    have e : ((n + 1 : Nat) : Int) = (n : Int) + 1 := by push_cast; ring
    rw [e, loopRange_succ_right (by omega), List.foldl_append]
    generalize (loopRange 0 n).foldl (bestStep kws ps) (0, 0) = r at ih ⊢
    obtain ⟨h0, hle, hcase⟩ := ih
    simp only [List.foldl_cons, List.foldl_nil, bestStep]
    by_cases hlt : r.1 < confEntry kws ps n 0
    · rw [if_pos hlt]
      have hpos : 0 < confEntry kws ps n 0 := lt_of_le_of_lt h0 hlt
      refine ⟨le_of_lt hpos, ?_, Or.inr ⟨hpos, n, by omega, by omega, rfl, ?_⟩⟩
      · intro j hj1 hj2
        by_cases hj : j = n
        · rw [hj]
        · exact le_of_lt (lt_of_le_of_lt (hle j hj1 (by omega)) hlt)
      · intro j hj1 hj2
        exact lt_of_le_of_lt (hle j hj1 hj2) hlt
    · rw [if_neg hlt]
      refine ⟨h0, ?_, ?_⟩
      · intro j hj1 hj2
        by_cases hj : j = n
        · rw [hj]; exact not_lt.1 hlt
        · exact hle j hj1 (by omega)
      · rcases hcase with hr | ⟨hp, f, hf1, hf2, hr, hfirst⟩
        · exact Or.inl hr
        · exact Or.inr ⟨hp, f, hf1, by omega, hr, hfirst⟩

/-- Claim C18 (best-score tracking): with keyword class ids inside the classifier
output, after scoring `N` frames in any batches since `Reset`, `score_` is the
largest combined score `confidence_(j,0)`, `j < N`, floored at 0; when it is
positive `wakeup_frame_` is the first frame holding it, otherwise
`wakeup_frame_ = 0`; and both are the same for every `wakeup_threshold` and
`word_interval`. -/
theorem best_score_tracking (kws : Kws α) (P : Int → Int → α) (s0 : State α)
    (chs : List (Chunk α))
    (hids : ∀ kw ∈ kws.keywords_, ∀ c ∈ kw, 0 ≤ c ∧ c < kws.OutputDim) :
    (0 ≤ (runChunks kws P (Reset kws s0) chs).score_ ∧
      (∀ j : Int, 0 ≤ j → j < (((chs.map Chunk.frames).sum : Nat) : Int) →
        (runChunks kws P (Reset kws s0) chs).confidence_.data j 0 ≤
          (runChunks kws P (Reset kws s0) chs).score_) ∧
      ((runChunks kws P (Reset kws s0) chs).score_ = 0 ∨
        ∃ j : Int, 0 ≤ j ∧ j < (((chs.map Chunk.frames).sum : Nat) : Int) ∧
          (runChunks kws P (Reset kws s0) chs).confidence_.data j 0 =
            (runChunks kws P (Reset kws s0) chs).score_)) ∧
    (0 < (runChunks kws P (Reset kws s0) chs).score_ →
      0 ≤ (runChunks kws P (Reset kws s0) chs).wakeup_frame_ ∧
      (runChunks kws P (Reset kws s0) chs).wakeup_frame_ <
        (((chs.map Chunk.frames).sum : Nat) : Int) ∧
      (runChunks kws P (Reset kws s0) chs).confidence_.data
        (runChunks kws P (Reset kws s0) chs).wakeup_frame_ 0 =
          (runChunks kws P (Reset kws s0) chs).score_ ∧
      ∀ j : Int, 0 ≤ j → j < (runChunks kws P (Reset kws s0) chs).wakeup_frame_ →
        (runChunks kws P (Reset kws s0) chs).confidence_.data j 0 <
          (runChunks kws P (Reset kws s0) chs).score_) ∧
    (¬ 0 < (runChunks kws P (Reset kws s0) chs).score_ →
      (runChunks kws P (Reset kws s0) chs).wakeup_frame_ = 0) ∧
    (∀ (threshold : α) (interval : Int),
      (runChunks { kws with wakeup_threshold := threshold, word_interval := interval } P
        (Reset { kws with wakeup_threshold := threshold, word_interval := interval } s0)
        chs).score_ = (runChunks kws P (Reset kws s0) chs).score_ ∧
      (runChunks { kws with wakeup_threshold := threshold, word_interval := interval } P
        (Reset { kws with wakeup_threshold := threshold, word_interval := interval } s0)
        chs).wakeup_frame_ = (runChunks kws P (Reset kws s0) chs).wakeup_frame_) := by
  have hsc := Scored_of_runChunks kws P s0 chs hids
  have hcols := cols_pos kws
  have hconf : ∀ j : Int, 0 ≤ j → j < (((chs.map Chunk.frames).sum : Nat) : Int) →
      (runChunks kws P (Reset kws s0) chs).confidence_.data j 0 =
        confEntry kws (streamSmooth kws P) j 0 :=
    fun j h1 h2 => hsc.confidence_rows j 0 h1 h2 (le_refl 0) (by omega)
  have hbest := hsc.best
  obtain ⟨h0, hle, hcase⟩ :=
    foldl_bestStep_spec kws (streamSmooth kws P) ((chs.map Chunk.frames).sum)
  rw [← hbest] at h0 hle hcase
  simp only at h0 hle
  refine ⟨⟨h0, ?_, ?_⟩, ?_, ?_, ?_⟩
  · intro j h1 h2
    rw [hconf j h1 h2]
    exact hle j h1 h2
  · rcases hcase with hr | ⟨-, f, hf1, hf2, hr, -⟩
    · exact Or.inl (congrArg Prod.fst hr)
    · refine Or.inr ⟨f, hf1, hf2, ?_⟩
      rw [hconf f hf1 hf2]
      exact (congrArg Prod.fst hr).symm
  · intro hpos
    rcases hcase with hr | ⟨-, f, hf1, hf2, hr, hfirst⟩
    · have := congrArg Prod.fst hr
      simp only at this
      rw [this] at hpos
      exact absurd hpos (lt_irrefl 0)
    · have e1 : (runChunks kws P (Reset kws s0) chs).score_ =
          confEntry kws (streamSmooth kws P) f 0 := congrArg Prod.fst hr
      have e2 : (runChunks kws P (Reset kws s0) chs).wakeup_frame_ = f := congrArg Prod.snd hr
      rw [e2]
      refine ⟨hf1, hf2, ?_, ?_⟩
      · rw [hconf f hf1 hf2, e1]
      · intro j hj1 hj2
        rw [hconf j hj1 (by omega), e1]
        exact hfirst j hj1 hj2
  · intro hnpos
    rcases hcase with hr | ⟨hp, -⟩
    · exact congrArg Prod.snd hr
    · exact absurd hp hnpos
  · intro threshold interval
    have hsc2 := Scored_of_runChunks
      { kws with wakeup_threshold := threshold, word_interval := interval } P s0 chs hids
    have hbest2 := hsc2.best
    have hsame : (loopRange 0 (((chs.map Chunk.frames).sum : Nat) : Int)).foldl
        (bestStep { kws with wakeup_threshold := threshold, word_interval := interval }
          (streamSmooth { kws with wakeup_threshold := threshold, word_interval := interval } P))
        (0, 0) =
        (loopRange 0 (((chs.map Chunk.frames).sum : Nat) : Int)).foldl
          (bestStep kws (streamSmooth kws P)) (0, 0) := rfl
    rw [hsame, ← hbest] at hbest2
    exact ⟨congrArg Prod.fst hbest2, congrArg Prod.snd hbest2⟩

theorem Resize_NumRows_ge (kws : Kws α) (undef : Int → Int → α) (mat : Matrix α) (v n : Int)
    (hv : v ≤ mat.NumRows) : v + n ≤ (Resize kws undef mat v n).NumRows := by
  rw [Resize_NumRows]
  split_ifs <;> omega

theorem mem_smoothAccesses (kws : Kws α) (j : Int) (a : Access)
    (h : a ∈ smoothAccesses kws j) :
    (a.table = Table.posterior ∧ smoothStart kws j ≤ a.row ∧ a.row ≤ j ∧
      ∃ kw ∈ kws.keywords_, a.col ∈ kw) ∨
    (a.table = Table.post_smooth ∧ a.row = j ∧ 1 ≤ a.col ∧ a.col < kws.cols) := by
  simp only [smoothAccesses, List.mem_flatMap, List.mem_append, List.mem_map,
    List.mem_singleton, mem_loopRange] at h
  obtain ⟨i, hi, h | h⟩ := h
  · obtain ⟨k, hk, m, hm, rfl⟩ := h
    exact Or.inl ⟨rfl, hk.1, by show k ≤ j; omega, mem_keyword kws _ m hm⟩
  · subst h
    exact Or.inr ⟨rfl, rfl, hi.1, hi.2⟩

theorem mem_confAccesses (kws : Kws α) (j : Int) (a : Access)
    (h : a ∈ confAccesses kws j) :
    (a.table = Table.post_smooth ∧ maxStart kws j ≤ a.row ∧ a.row ≤ j ∧
      1 ≤ a.col ∧ a.col < kws.cols) ∨
    (a.table = Table.confidence ∧ a.row = j ∧ 0 ≤ a.col ∧ a.col < 2 * kws.cols) := by
  have hcols := cols_pos kws
  simp only [confAccesses, List.mem_flatMap, List.mem_append, List.mem_map,
    List.mem_cons, List.mem_singleton, mem_loopRange, List.mem_nil_iff, or_false] at h
  rcases h with ⟨i, hi, h | h | h⟩ | h | h
  · obtain ⟨k, hk, rfl⟩ := h
    exact Or.inl ⟨rfl, hk.1, by show k ≤ j; omega, hi.1, hi.2⟩
  · subst h
    exact Or.inr ⟨rfl, rfl, by show 0 ≤ 2 * i; omega, by show 2 * i < 2 * kws.cols; omega⟩
  · subst h
    exact Or.inr ⟨rfl, rfl, by show 0 ≤ 2 * i + 1; omega, by show 2 * i + 1 < 2 * kws.cols; omega⟩
  · subst h
    exact Or.inr ⟨rfl, rfl, le_refl 0, by show (0 : Int) < 2 * kws.cols; omega⟩
  · subst h
    exact Or.inr ⟨rfl, rfl, by show (0 : Int) ≤ 1; omega, by show (1 : Int) < 2 * kws.cols; omega⟩

theorem mem_decideAccesses (kws : Kws α) (j : Int) (a : Access)
    (h : a ∈ decideAccesses kws j) :
    a.table = Table.confidence ∧ a.row = j ∧ 0 ≤ a.col ∧ a.col < 2 * kws.cols := by
  have hcols := cols_pos kws
  simp only [decideAccesses, List.mem_flatMap, List.mem_append, List.mem_cons,
    List.mem_singleton, mem_loopRange, List.mem_nil_iff, or_false] at h
  rcases h with ⟨i, hi, h | h⟩ | h
  · subst h
    exact ⟨rfl, rfl, by show 0 ≤ 2 * i + 1; omega, by show 2 * i + 1 < 2 * kws.cols; omega⟩
  · subst h
    exact ⟨rfl, rfl, by show 0 ≤ 2 * (i - 1) + 1; omega,
      by show 2 * (i - 1) + 1 < 2 * kws.cols; omega⟩
  · subst h
    exact ⟨rfl, rfl, le_refl 0, by show (0 : Int) < 2 * kws.cols; omega⟩

theorem mem_recordAccesses (kws : Kws α) (wf : Int) (a : Access) (hK : 2 ≤ kws.cols)
    (h : a ∈ recordAccesses kws wf) :
    a.table = Table.confidence ∧ a.row = wf ∧ 0 ≤ a.col ∧ a.col < 2 * kws.cols := by
  simp only [recordAccesses, List.mem_flatMap, List.mem_append, List.mem_map, List.mem_cons,
    List.mem_singleton, mem_loopRange, List.mem_nil_iff, or_false] at h
  rcases h with (⟨i, hi, h⟩ | h) | ⟨i, hi, h | h⟩
  · subst h
    exact ⟨rfl, rfl, by show 0 ≤ 2 * i; omega, by show 2 * i < 2 * kws.cols; omega⟩
  · subst h
    exact ⟨rfl, rfl, by show (0 : Int) ≤ 3; omega, by show (3 : Int) < 2 * kws.cols; omega⟩
  · subst h
    exact ⟨rfl, rfl, by show 0 ≤ 2 * i + 1; omega, by show 2 * i + 1 < 2 * kws.cols; omega⟩
  · subst h
    exact ⟨rfl, rfl, by show 0 ≤ 2 * (i - 1) + 1; omega,
      by show 2 * (i - 1) + 1 < 2 * kws.cols; omega⟩

theorem foldl_bestStep_snd (kws : Kws α) (ps : Matrix α) (L : List Int) (p : α × Int) :
    (L.foldl (bestStep kws ps) p).2 = p.2 ∨ (L.foldl (bestStep kws ps) p).2 ∈ L := by
  induction L generalizing p with
  | nil => exact Or.inl rfl
  | cons j L ih =>
    rw [List.foldl_cons]
    rcases ih (bestStep kws ps p j) with h | h
    · rw [h]
      unfold bestStep
      split_ifs
      · exact Or.inr (List.mem_cons_self j L)
      · exact Or.inl rfl
    · exact Or.inr (List.mem_cons_of_mem j h)

/-- Claim C19 (index safety of a scoring pass): with `K ≥ 1`, both windows `≥ 1`,
keyword class ids inside the classifier output and tables sized as `Reset` and
`Resize` leave them, every element access of `isWakeUp` (posterior reads and
smoothed writes of the smoothing loop, smoothed reads and confidence writes and
reads of the confidence loop, the end-of-stream record at row `wakeup_frame_`
with its column 3) has a row in `[0, NumRows)` and a column in `[0, NumCols)` of
its table; both windows of a new frame `j` start at a frame in `[0, j]`; the
smoothing divisor is `≥ 1`; and the tables stay sized that way. -/
theorem scoring_accesses_in_bounds (kws : Kws α) (undef1 undef2 : Int → Int → α)
    (s : State α) (hK : 1 ≤ kws.keywords_.length)
    (hWs : 1 ≤ kws.smooth_window) (hWm : 1 ≤ kws.sliding_window)
    (hids : ∀ kw ∈ kws.keywords_, ∀ c ∈ kw, 0 ≤ c ∧ c < kws.OutputDim)
    (hs : TablesSized kws s) :
    (∀ a ∈ isWakeUpAccesses kws undef1 undef2 s,
      a.inBounds (isWakeUp kws undef1 undef2 s).1) ∧
    (∀ j : Int, s.post_offset_ ≤ j → j < s.frame_offset_ →
      0 ≤ max 0 (j - kws.smooth_window + 1) ∧ max 0 (j - kws.smooth_window + 1) ≤ j ∧
      0 ≤ max 0 (j - kws.sliding_window + 1) ∧ max 0 (j - kws.sliding_window + 1) ≤ j ∧
      1 ≤ j - max 0 (j - kws.smooth_window + 1) + 1) ∧
    TablesSized kws (isWakeUp kws undef1 undef2 s).1 := by
  have hp0 := hs.post_offset_nonneg
  have hcols2 : 2 ≤ kws.cols := by
    unfold Kws.cols
    omega
  refine ⟨?_, fun j hj1 hj2 => by omega, ?_⟩
  · by_cases hn : s.post_offset_ < s.frame_offset_
    · -- shapes and best frame of the state after the pass
      have hsh : (isWakeUp kws undef1 undef2 s).1.posterior_ = s.posterior_ ∧
          s.frame_offset_ ≤ (isWakeUp kws undef1 undef2 s).1.post_smooth_.NumRows ∧
          (isWakeUp kws undef1 undef2 s).1.post_smooth_.NumCols = kws.cols ∧
          s.frame_offset_ ≤ (isWakeUp kws undef1 undef2 s).1.confidence_.NumRows ∧
          (isWakeUp kws undef1 undef2 s).1.confidence_.NumCols = 2 * kws.cols ∧
          0 ≤ (isWakeUp kws undef1 undef2 s).1.wakeup_frame_ ∧
          (isWakeUp kws undef1 undef2 s).1.wakeup_frame_ < s.frame_offset_ := by
        rw [isWakeUp_eq kws undef1 undef2 s hn _ _ rfl rfl]
        simp only
        have h1 := Resize_NumRows_ge kws undef1 s.post_smooth_ s.post_offset_
          (s.frame_offset_ - s.post_offset_) hs.smooth_rows
        have h2 := Resize_NumRows_ge kws undef2 s.confidence_ s.post_offset_
          (s.frame_offset_ - s.post_offset_) hs.confidence_rows
        rw [(smoothPass_shape _ _ _ _).1, (smoothPass_shape _ _ _ _).2,
          (confPass_shape _ _ _ _).1, (confPass_shape _ _ _ _).2, Resize_NumCols,
          Resize_NumCols, hs.smooth_cols, hs.confidence_cols]
        refine ⟨trivial, by omega, rfl, by omega, rfl, ?_⟩
        have hb := hs.best_frame
        rcases foldl_bestStep_snd kws
          ((loopRange s.post_offset_ s.frame_offset_).foldl (smoothFrame kws s.posterior_)
            (Resize kws undef1 s.post_smooth_ s.post_offset_
              (s.frame_offset_ - s.post_offset_)))
          (loopRange s.post_offset_ s.frame_offset_) (s.score_, s.wakeup_frame_) with h | h
        · rw [h]
          simp only
          omega
        · rw [mem_loopRange] at h
          omega
      obtain ⟨hpost, hsr, hsc, hcr, hcc, hw0, hw1⟩ := hsh
      intro a ha
      have e : s.post_offset_ + (s.frame_offset_ - s.post_offset_) = s.frame_offset_ := by omega
      simp only [isWakeUpAccesses, e] at ha
      rw [if_neg (by omega)] at ha
      simp only [List.mem_append, List.mem_flatMap, mem_loopRange] at ha
      unfold Access.inBounds
      rcases ha with (⟨j, hj, ha⟩ | ⟨j, hj, ha | ha⟩) | ha
      · rcases mem_smoothAccesses kws j a ha with ⟨ht, hr1, hr2, kw, hkw, hc⟩ | ⟨ht, hr, hc1, hc2⟩
        · have h0 := smoothStart_nonneg kws j
          have hid := hids kw hkw a.col hc
          have hpr := hs.posterior_rows
          rw [ht, hpost, hs.posterior_cols]
          exact ⟨by omega, by omega, hid.1, hid.2⟩
        · rw [ht, hsc]
          exact ⟨by omega, by omega, by omega, hc2⟩
      · rcases mem_confAccesses kws j a ha with ⟨ht, hr1, hr2, hc1, hc2⟩ | ⟨ht, hr, hc1, hc2⟩
        · have h0 := maxStart_nonneg kws j
          rw [ht, hsc]
          exact ⟨by omega, by omega, by omega, hc2⟩
        · rw [ht, hcc]
          exact ⟨by omega, by omega, hc1, hc2⟩
      · obtain ⟨ht, hr, hc1, hc2⟩ := mem_decideAccesses kws j a ha
        rw [ht, hcc]
        exact ⟨by omega, by omega, hc1, hc2⟩
      · by_cases hend : s.state_ = FeatState.FEAT_END
        · rw [if_pos hend] at ha
          obtain ⟨ht, hr, hc1, hc2⟩ := mem_recordAccesses kws _ a hcols2 ha
          rw [ht, hcc]
          exact ⟨by omega, by omega, hc1, hc2⟩
        · rw [if_neg hend] at ha
          cases ha
    · intro a ha
      simp only [isWakeUpAccesses] at ha
      rw [if_pos (by omega)] at ha
      cases ha
  · by_cases hn : s.post_offset_ < s.frame_offset_
    · rw [isWakeUp_eq kws undef1 undef2 s hn _ _ rfl rfl]
      have h1 := Resize_NumRows_ge kws undef1 s.post_smooth_ s.post_offset_
        (s.frame_offset_ - s.post_offset_) hs.smooth_rows
      have h2 := Resize_NumRows_ge kws undef2 s.confidence_ s.post_offset_
        (s.frame_offset_ - s.post_offset_) hs.confidence_rows
      have hb := hs.best_frame
      refine ⟨?_, hs.posterior_rows, hs.posterior_cols, ?_, ?_, ?_, ?_, ?_⟩
      · show 0 ≤ s.frame_offset_
        omega
      · show s.frame_offset_ ≤ _
        rw [(smoothPass_shape _ _ _ _).1]
        omega
      · show _ = kws.cols
        rw [(smoothPass_shape _ _ _ _).2, Resize_NumCols, hs.smooth_cols]
      · show s.frame_offset_ ≤ _
        rw [(confPass_shape _ _ _ _).1]
        omega
      · show _ = 2 * kws.cols
        rw [(confPass_shape _ _ _ _).2, Resize_NumCols, hs.confidence_cols]
      · have hwf : 0 ≤ ((loopRange s.post_offset_ s.frame_offset_).foldl
            (bestStep kws
              ((loopRange s.post_offset_ s.frame_offset_).foldl (smoothFrame kws s.posterior_)
                (Resize kws undef1 s.post_smooth_ s.post_offset_
                  (s.frame_offset_ - s.post_offset_))))
            (s.score_, s.wakeup_frame_)).2 ∧
            ((loopRange s.post_offset_ s.frame_offset_).foldl
              (bestStep kws
                ((loopRange s.post_offset_ s.frame_offset_).foldl
                  (smoothFrame kws s.posterior_)
                  (Resize kws undef1 s.post_smooth_ s.post_offset_
                    (s.frame_offset_ - s.post_offset_))))
              (s.score_, s.wakeup_frame_)).2 < s.frame_offset_ := by
          rcases foldl_bestStep_snd kws
            ((loopRange s.post_offset_ s.frame_offset_).foldl (smoothFrame kws s.posterior_)
              (Resize kws undef1 s.post_smooth_ s.post_offset_
                (s.frame_offset_ - s.post_offset_)))
            (loopRange s.post_offset_ s.frame_offset_) (s.score_, s.wakeup_frame_) with h | h
          · rw [h]
            simp only
            omega
          · rw [mem_loopRange] at h
            omega
        exact ⟨hwf.1, Or.inl hwf.2⟩
    · rw [isWakeUp_noop kws undef1 undef2 s (by omega)]
      exact hs

/-- Claim C20 (floor at zero and ties): for a newly scored frame `j` and keyword
`k = 1..K`, the stored maximum `confidence_(j,2k)` is the largest smoothed value
of the window `hm .. j`, `hm = max 0 (j - sliding_window + 1)`, floored at 0;
when it is positive the stored argmax is the first frame of the window holding
it; when no value of the window is positive the stored maximum is 0 and the
stored argmax is `hm`; so when keywords `k-1` and `k` both have no positive
value in the window their gap is 0 and the frame is order-invalid. -/
theorem argmax_floor_and_ties (kws : Kws α) (undef1 undef2 : Int → Int → α) (s : State α)
    (j k : Int) (hj1 : s.post_offset_ ≤ j) (hj2 : j < s.frame_offset_)
    (hk1 : 1 ≤ k) (hk2 : k ≤ (kws.keywords_.length : Int)) :
    (0 ≤ (isWakeUp kws undef1 undef2 s).1.confidence_.data j (2 * k) ∧
      (∀ f, max 0 (j - kws.sliding_window + 1) ≤ f → f ≤ j →
        (isWakeUp kws undef1 undef2 s).1.post_smooth_.data f k ≤
          (isWakeUp kws undef1 undef2 s).1.confidence_.data j (2 * k)) ∧
      ((isWakeUp kws undef1 undef2 s).1.confidence_.data j (2 * k) = 0 ∨
        ∃ f, max 0 (j - kws.sliding_window + 1) ≤ f ∧ f ≤ j ∧
          (isWakeUp kws undef1 undef2 s).1.post_smooth_.data f k =
            (isWakeUp kws undef1 undef2 s).1.confidence_.data j (2 * k))) ∧
    (0 < (isWakeUp kws undef1 undef2 s).1.confidence_.data j (2 * k) →
      ∃ f : Int, (isWakeUp kws undef1 undef2 s).1.confidence_.data j (2 * k + 1) = (f : α) ∧
        max 0 (j - kws.sliding_window + 1) ≤ f ∧ f ≤ j ∧
        (isWakeUp kws undef1 undef2 s).1.post_smooth_.data f k =
          (isWakeUp kws undef1 undef2 s).1.confidence_.data j (2 * k) ∧
        ∀ g, max 0 (j - kws.sliding_window + 1) ≤ g → g < f →
          (isWakeUp kws undef1 undef2 s).1.post_smooth_.data g k <
            (isWakeUp kws undef1 undef2 s).1.confidence_.data j (2 * k)) ∧
    ((∀ f, max 0 (j - kws.sliding_window + 1) ≤ f → f ≤ j →
        (isWakeUp kws undef1 undef2 s).1.post_smooth_.data f k ≤ 0) →
      (isWakeUp kws undef1 undef2 s).1.confidence_.data j (2 * k) = 0 ∧
      (isWakeUp kws undef1 undef2 s).1.confidence_.data j (2 * k + 1) =
        ((max 0 (j - kws.sliding_window + 1) : Int) : α)) ∧
    (2 ≤ k →
      (∀ f, max 0 (j - kws.sliding_window + 1) ≤ f → f ≤ j →
        (isWakeUp kws undef1 undef2 s).1.post_smooth_.data f (k - 1) ≤ 0 ∧
        (isWakeUp kws undef1 undef2 s).1.post_smooth_.data f k ≤ 0) →
      (isWakeUp kws undef1 undef2 s).1.confidence_.data j (2 * k + 1) -
        (isWakeUp kws undef1 undef2 s).1.confidence_.data j (2 * (k - 1) + 1) = 0 ∧
      orderFlag (isWakeUp kws undef1 undef2 s).1.confidence_ kws.word_interval j
        (loopRange 2 kws.cols) = false) := by
  have hcols : kws.cols = (kws.keywords_.length : Int) + 1 := rfl
  have hmaxE : ∀ i : Int, 1 ≤ i → i ≤ (kws.keywords_.length : Int) →
      (isWakeUp kws undef1 undef2 s).1.confidence_.data j (2 * i) =
        (slidingMax (isWakeUp kws undef1 undef2 s).1.post_smooth_ i (maxStart kws j) j).1 := by
    intro i hi1 hi2
    rw [isWakeUp_conf_new kws undef1 undef2 s j (2 * i) hj1 hj2 (by omega) (by omega),
      confEntry_max kws _ j i hi1]
    rfl
  have hargE : ∀ i : Int, 1 ≤ i → i ≤ (kws.keywords_.length : Int) →
      (isWakeUp kws undef1 undef2 s).1.confidence_.data j (2 * i + 1) =
        (slidingMax (isWakeUp kws undef1 undef2 s).1.post_smooth_ i (maxStart kws j) j).2 := by
    intro i hi1 hi2
    rw [isWakeUp_conf_new kws undef1 undef2 s j (2 * i + 1) hj1 hj2 (by omega) (by omega),
      confEntry_arg kws _ j i hi1]
    rfl
  have hzero : ∀ i : Int, 1 ≤ i → i ≤ (kws.keywords_.length : Int) →
      (∀ f, maxStart kws j ≤ f → f ≤ j →
        (isWakeUp kws undef1 undef2 s).1.post_smooth_.data f i ≤ 0) →
      (isWakeUp kws undef1 undef2 s).1.confidence_.data j (2 * i) = 0 ∧
      (isWakeUp kws undef1 undef2 s).1.confidence_.data j (2 * i + 1) =
        ((maxStart kws j : Int) : α) := by
    intro i hi1 hi2 hz
    rw [hmaxE i hi1 hi2, hargE i hi1 hi2]
    obtain ⟨-, -, hcase⟩ :=
      slidingMax_floor_earliest (isWakeUp kws undef1 undef2 s).1.post_smooth_ i (maxStart kws j) j
    rcases hcase with ⟨hr, -⟩ | ⟨hp, f, hf1, hf2, hr, -⟩
    · rw [hr]
      exact ⟨rfl, rfl⟩
    · rw [hr] at hp
      exact absurd hp (not_lt.2 (hz f hf1 hf2))
  rw [← maxStart_eq_max]
  obtain ⟨h0, hle, hcase⟩ :=
    slidingMax_floor_earliest (isWakeUp kws undef1 undef2 s).1.post_smooth_ k (maxStart kws j) j
  refine ⟨⟨?_, ?_, ?_⟩, ?_, hzero k hk1 hk2, ?_⟩
  · rw [hmaxE k hk1 hk2]; exact h0
  · intro f hf1 hf2
    rw [hmaxE k hk1 hk2]; exact hle f hf1 hf2
  · rw [hmaxE k hk1 hk2]
    rcases hcase with ⟨hr, -⟩ | ⟨-, f, hf1, hf2, hr, -⟩
    · exact Or.inl (by rw [hr])
    · exact Or.inr ⟨f, hf1, hf2, by rw [hr]⟩
  · rw [hmaxE k hk1 hk2, hargE k hk1 hk2]
    intro hpos
    rcases hcase with ⟨hr, -⟩ | ⟨-, f, hf1, hf2, hr, hfirst⟩
    · rw [hr] at hpos
      exact absurd hpos (lt_irrefl 0)
    · refine ⟨f, by rw [hr], hf1, hf2, by rw [hr], ?_⟩
      intro g hg1 hg2
      rw [hr]
      exact hfirst g hg1 hg2
  · intro hk hz
    have ha := hzero (k - 1) (by omega) (by omega) (fun f hf1 hf2 => (hz f hf1 hf2).1)
    have hb := hzero k hk1 hk2 (fun f hf1 hf2 => (hz f hf1 hf2).2)
    have hgap : (isWakeUp kws undef1 undef2 s).1.confidence_.data j (2 * k + 1) -
        (isWakeUp kws undef1 undef2 s).1.confidence_.data j (2 * (k - 1) + 1) = 0 := by
      rw [hb.2, ha.2, sub_self]
    refine ⟨hgap, ?_⟩
    by_contra hne
    have htrue : orderFlag (isWakeUp kws undef1 undef2 s).1.confidence_ kws.word_interval j
        (loopRange 2 kws.cols) = true := by
      cases h : orderFlag (isWakeUp kws undef1 undef2 s).1.confidence_ kws.word_interval j
        (loopRange 2 kws.cols)
      · exact absurd h hne
      · rfl
    have h3 := (orderFlag_iff _ _ _ _).1 htrue k (mem_loopRange.2 ⟨hk, by omega⟩)
    rw [hgap] at h3
    have h4 : truncToInt (0 : α) = 0 := by
      have := truncToInt_intCast (α := α) 0
      simpa using this
    rw [h4] at h3
    omega

theorem TablesSized_Reset (kws : Kws α) (s0 : State α) (hstep : 0 ≤ kws.MATRIX_INC_STEP) :
    TablesSized kws (Reset kws s0) where
  post_offset_nonneg := le_refl 0
  posterior_rows := hstep
  posterior_cols := rfl
  smooth_rows := hstep
  smooth_cols := rfl
  confidence_rows := hstep
  confidence_cols := rfl
  best_frame := ⟨le_refl 0, Or.inr rfl⟩

/-- Claim C18 on the example session: the best score 1/2 is first reached on
frame 1. -/
theorem best_score_tracking_witness :
    (∀ kw ∈ (exKws ℚ (fun x _ => x)).keywords_, ∀ c ∈ kw,
      0 ≤ c ∧ c < (exKws ℚ (fun x _ => x)).OutputDim) ∧
    (0 < (runChunks (exKws ℚ (fun x _ => x)) (exStream ℚ)
        (Reset (exKws ℚ (fun x _ => x)) (exState ℚ)) (exChunks ℚ)).score_ →
      (runChunks (exKws ℚ (fun x _ => x)) (exStream ℚ)
        (Reset (exKws ℚ (fun x _ => x)) (exState ℚ)) (exChunks ℚ)).confidence_.data
        (runChunks (exKws ℚ (fun x _ => x)) (exStream ℚ)
          (Reset (exKws ℚ (fun x _ => x)) (exState ℚ)) (exChunks ℚ)).wakeup_frame_ 0 =
      (runChunks (exKws ℚ (fun x _ => x)) (exStream ℚ)
        (Reset (exKws ℚ (fun x _ => x)) (exState ℚ)) (exChunks ℚ)).score_) ∧
    (runChunks (exKws ℚ (fun x _ => x)) (exStream ℚ)
      (Reset (exKws ℚ (fun x _ => x)) (exState ℚ)) (exChunks ℚ)).score_ = 1 / 2 ∧
    (runChunks (exKws ℚ (fun x _ => x)) (exStream ℚ)
      (Reset (exKws ℚ (fun x _ => x)) (exState ℚ)) (exChunks ℚ)).wakeup_frame_ = 1 :=
  ⟨by decide,
    fun h => ((best_score_tracking (exKws ℚ (fun x _ => x)) (exStream ℚ) (exState ℚ)
      (exChunks ℚ) (by decide)).2.1 h).2.2.1,
    by decide!, by decide!⟩

/-- Claim C19 on the example state at end of stream: the record reads
`confidence_(1, 3)`, inside the table. -/
theorem scoring_accesses_in_bounds_witness :
    (1 ≤ (exKws ℚ (fun x _ => x)).keywords_.length ∧
      1 ≤ (exKws ℚ (fun x _ => x)).smooth_window ∧
      1 ≤ (exKws ℚ (fun x _ => x)).sliding_window ∧
      TablesSized (exKws ℚ (fun x _ => x)) { exState ℚ with state_ := FeatState.FEAT_END }) ∧
    (⟨Table.confidence, 1, 3⟩ : Access) ∈
      isWakeUpAccesses (exKws ℚ (fun x _ => x)) (exUndef ℚ) (exUndef ℚ)
        { exState ℚ with state_ := FeatState.FEAT_END } ∧
    (⟨Table.posterior, 0, 2⟩ : Access) ∈
      isWakeUpAccesses (exKws ℚ (fun x _ => x)) (exUndef ℚ) (exUndef ℚ)
        { exState ℚ with state_ := FeatState.FEAT_END } ∧
    (⟨Table.confidence, 1, 3⟩ : Access).inBounds
      (isWakeUp (exKws ℚ (fun x _ => x)) (exUndef ℚ) (exUndef ℚ)
        { exState ℚ with state_ := FeatState.FEAT_END }).1 :=
  ⟨⟨by decide, by decide, by decide,
      ⟨by decide, by decide, by decide, by decide, by decide, by decide, by decide,
        by decide⟩⟩,
    by decide!, by decide!,
    (scoring_accesses_in_bounds (exKws ℚ (fun x _ => x)) (exUndef ℚ) (exUndef ℚ)
      { exState ℚ with state_ := FeatState.FEAT_END } (by decide) (by decide) (by decide)
      (by decide)
      ⟨by decide, by decide, by decide, by decide, by decide, by decide, by decide,
        by decide⟩).1 _ (by decide!)⟩

/-- Claim C20 on the example state at frame 1, keyword 2; on frame 0 that
keyword has no positive value and stores the pair (0, 0). -/
theorem argmax_floor_and_ties_witness :
    ((exState ℚ).post_offset_ ≤ 1 ∧ (1 : Int) < (exState ℚ).frame_offset_ ∧
      (2 : Int) ≤ ((exKws ℚ (fun x _ => x)).keywords_.length : Int)) ∧
    (0 < (isWakeUp (exKws ℚ (fun x _ => x)) (exUndef ℚ) (exUndef ℚ)
        (exState ℚ)).1.confidence_.data 1 (2 * 2) →
      ∃ f : Int,
        (isWakeUp (exKws ℚ (fun x _ => x)) (exUndef ℚ) (exUndef ℚ)
          (exState ℚ)).1.confidence_.data 1 (2 * 2 + 1) = (f : ℚ) ∧
        max 0 (1 - (exKws ℚ (fun x _ => x)).sliding_window + 1) ≤ f ∧ f ≤ 1 ∧
        (isWakeUp (exKws ℚ (fun x _ => x)) (exUndef ℚ) (exUndef ℚ)
          (exState ℚ)).1.post_smooth_.data f 2 =
          (isWakeUp (exKws ℚ (fun x _ => x)) (exUndef ℚ) (exUndef ℚ)
            (exState ℚ)).1.confidence_.data 1 (2 * 2) ∧
        ∀ g, max 0 (1 - (exKws ℚ (fun x _ => x)).sliding_window + 1) ≤ g → g < f →
          (isWakeUp (exKws ℚ (fun x _ => x)) (exUndef ℚ) (exUndef ℚ)
            (exState ℚ)).1.post_smooth_.data g 2 <
          (isWakeUp (exKws ℚ (fun x _ => x)) (exUndef ℚ) (exUndef ℚ)
            (exState ℚ)).1.confidence_.data 1 (2 * 2)) ∧
    (isWakeUp (exKws ℚ (fun x _ => x)) (exUndef ℚ) (exUndef ℚ)
      (exState ℚ)).1.confidence_.data 0 5 = 0 ∧
    (isWakeUp (exKws ℚ (fun x _ => x)) (exUndef ℚ) (exUndef ℚ)
      (exState ℚ)).1.confidence_.data 0 4 = 0 :=
  ⟨⟨by decide, by decide, by decide⟩,
    (argmax_floor_and_ties (exKws ℚ (fun x _ => x)) (exUndef ℚ) (exUndef ℚ) (exState ℚ) 1 2
      (by decide) (by decide) (by decide) (by decide)).2.1,
    by decide!, by decide!⟩

end kaldi
